import Mathlib

/-!
# Pizza allocation (practice round): a shallow embedding of `practice/src/main.go`

The Go program keeps three pieces of mutable state that matter to the allocation:
the pool `pizzas` (a slice of pizza pointers), the teams, and the package-level
variables `sampleSize` and `xorBinaryCache`.  Randomness comes from `rand.Intn`.
All of it is passed explicitly here.  Run-time panics (an index out of range) are
the `Except.error` results.

Slices of `int` are lists of `Int`, Go strings are lists of characters.
-/

set_option maxRecDepth 100000

namespace Practice

/-- Go `string`, as the sequence of its characters. -/
abbrev GoString := List Char

/-- The ways in which an execution can stop without a result.  The first two are Go run-time
panics; the last one belongs to the embedding only (the bound put on the `for` loop of
`deliverPizzas`) and is shown never to happen. -/
inductive Fault where
  | indexOutOfRange
  | invalidArgument
  | fuelExhausted
deriving DecidableEq, Repr

/-- Go `type Pizza struct { id int; ingredients []string; binaryCode []int }` -/
structure Pizza where
  id : Int
  ingredients : List GoString
  binaryCode : List Int
deriving DecidableEq, Repr

/-- Go `type Team struct { size int; pizzas []*Pizza; binaryCode []int; isComplete bool }`.

`pizzas` holds the pizzas themselves (every pizza pointer lives in exactly one place, the pool
or one team).  In the Go program `team.binaryCode` of a seeded team is the *same* slice as the
`binaryCode` of its first pizza (`deliverFirstPizza` assigns the slice, `andBinary` writes into
it in place and returns it); the embedding keeps the two copies equal by writing the merged
code back into the first pizza of the team, see `shareCode`. -/
structure Team where
  size : Int
  pizzas : List Pizza
  binaryCode : List Int
  isComplete : Bool
deriving DecidableEq, Repr

/-- The package-level state and the random source.

* `sampleSize` is `var sampleSize = 100`;
* `xorBinaryCache` is the `map[string]int`, as an association list (newest entry first);
* `draws` is the stream of raw random numbers and `pos` the number of draws consumed so far:
  the `k`-th call `rand.Intn(n)` returns `draws k % n`, so every sequence of in-range indices
  is the behaviour of some stream. -/
structure World where
  sampleSize : Int
  xorBinaryCache : List (GoString × Int)
  draws : Nat → Nat
  pos : Nat

/-! ## Formatting with `%v` -/

/-- Verb `%v` of an `int`: decimal digits, with a leading minus sign for negative numbers. -/
def formatInt (n : Int) : GoString :=
  if n < 0 then '-' :: Nat.toDigits 10 n.natAbs else Nat.toDigits 10 n.natAbs

/-- The elements of a slice separated by single spaces. -/
def joinSpace : List GoString → GoString
  | [] => []
  | [s] => s
  | s :: t :: rest => s ++ ' ' :: joinSpace (t :: rest)

/-- Verb `%v` of a `[]int`: `[1 0 1]`. -/
def formatSlice (code : List Int) : GoString :=
  '[' :: (joinSpace (code.map formatInt) ++ [']'])

/-- Go `cacheKey := fmt.Sprintf("%v%v", leftBinaryCode, rightBinaryCode)` -/
def cacheKey (leftBinaryCode rightBinaryCode : List Int) : GoString :=
  formatSlice leftBinaryCode ++ formatSlice rightBinaryCode

/-! ## `xorBinary` and `andBinary` -/

/-- The loop of `xorBinary`: `for i, leftBit := range leftBinaryCode`, with the part of the left
slice still to be visited, the current index `i` and the running `difference`.  Reading
`rightBinaryCode[i]` past the end of the right slice panics. -/
def xorLoop : List Int → List Int → Nat → Int → Except Fault Int
  | [], _, _, difference => .ok difference
  | leftBit :: rest, rightBinaryCode, i, difference =>
    match rightBinaryCode[i]? with
    | none => .error .indexOutOfRange
    | some rightBit =>
      xorLoop rest rightBinaryCode (i + 1) (if leftBit ≠ rightBit then difference + 1 else difference)

/-- Go `func xorBinary(leftBinaryCode, rightBinaryCode []int) int`, with the cache passed in and
returned.  A hit returns the stored value without looking at the slices. -/
def xorBinary (leftBinaryCode rightBinaryCode : List Int) (cache : List (GoString × Int)) :
    Except Fault (Int × List (GoString × Int)) :=
  let key := cacheKey leftBinaryCode rightBinaryCode
  match cache.lookup key with
  | some cacheResult => .ok (cacheResult, cache)
  | none =>
    match xorLoop leftBinaryCode rightBinaryCode 0 0 with
    | .error e => .error e
    | .ok difference => .ok (difference, (key, difference) :: cache)

/-- The loop of `andBinary`: `for i, leftBit := range rightBinaryCode`.  Note that `leftBit` is
an element of the *right* slice, compared with `rightBinaryCode[i]`; the write
`leftBinaryCode[i] = 1` panics past the end of the left slice.  The last argument is the current
content of the left slice. -/
def andLoop : List Int → List Int → Nat → List Int → Except Fault (List Int)
  | [], _, _, leftBinaryCode => .ok leftBinaryCode
  | leftBit :: rest, rightBinaryCode, i, leftBinaryCode =>
    match rightBinaryCode[i]? with
    | none => .error .indexOutOfRange
    | some rightBit =>
      if leftBit = rightBit then
        if i < leftBinaryCode.length then
          andLoop rest rightBinaryCode (i + 1) (leftBinaryCode.set i 1)
        else .error .indexOutOfRange
      else andLoop rest rightBinaryCode (i + 1) leftBinaryCode

/-- Go `func andBinary(leftBinaryCode, rightBinaryCode []int) []int`: the result is the left slice
after the in-place writes. -/
def andBinary (leftBinaryCode rightBinaryCode : List Int) : Except Fault (List Int) :=
  andLoop rightBinaryCode rightBinaryCode 0 leftBinaryCode

/-! ## The pool -/

/-- Go `func removePizza(pizzas []*Pizza, indexToRemove int) []*Pizza`: overwrite the slot with the
last element and cut the slice by one.  On an empty slice `pizzas[pizzaCount-1]` panics. -/
def removePizza (pizzas : List Pizza) (indexToRemove : Nat) : Except Fault (List Pizza) :=
  let pizzaCount := pizzas.length
  if pizzaCount = 0 then .error .indexOutOfRange
  else
    match pizzas[pizzaCount - 1]? with
    | none => .error .indexOutOfRange
    | some last =>
      if indexToRemove < pizzaCount then
        .ok ((pizzas.set indexToRemove last).take (pizzaCount - 1))
      else .error .indexOutOfRange

/-- Go `rand.Intn(n)`: panics for `n <= 0`, otherwise the next draw reduced into `[0, n)`. -/
def intn (w : World) (n : Nat) : Except Fault (Nat × World) :=
  if n = 0 then .error .invalidArgument
  else .ok (w.draws w.pos % n, { w with pos := w.pos + 1 })

/-- Go `func getRandomPizza(pizzas []*Pizza) (*Pizza, int)` -/
def getRandomPizza (pizzas : List Pizza) (w : World) : Except Fault (Pizza × Nat × World) :=
  match intn w pizzas.length with
  | .error e => .error e
  | .ok (randomIndex, w1) =>
    match pizzas[randomIndex]? with
    | none => .error .indexOutOfRange
    | some pizza => .ok (pizza, randomIndex, w1)

/-! ## Assembling one team -/

/-- The in-place write of `andBinary` seen through the first pizza of the team, whose
`binaryCode` is the slice the team's `binaryCode` was assigned from. -/
def shareCode (teamPizzas : List Pizza) (code : List Int) : List Pizza :=
  match teamPizzas with
  | [] => []
  | seed :: rest => { seed with binaryCode := code } :: rest

/-- Go `func deliverFirstPizza(team *Team, pizzas []*Pizza) []*Pizza` -/
def deliverFirstPizza (team : Team) (pizzas : List Pizza) : Except Fault (Team × List Pizza) :=
  match pizzas[0]? with
  | none => .error .indexOutOfRange
  | some pizza =>
    let team1 := { team with pizzas := team.pizzas ++ [pizza], binaryCode := pizza.binaryCode }
    match removePizza pizzas 0 with
    | .error e => .error e
    | .ok rest => .ok (team1, rest)

/-- The state of the sampling loop of `deliverNextPizza`. -/
structure Best where
  bestPizza : Pizza
  bestPizzaIndex : Nat
  maxDifference : Int
deriving DecidableEq, Repr

/-- The loop `for i := 0; i < sampleSize; i++` of `deliverNextPizza`; the first argument is the
number of iterations left. -/
def sampleLoop : Nat → List Int → List Pizza → Best → World → Except Fault (Best × World)
  | 0, _, _, best, w => .ok (best, w)
  | n + 1, teamCode, pizzas, best, w =>
    match getRandomPizza pizzas w with
    | .error e => .error e
    | .ok (pizza, index, w1) =>
      match xorBinary teamCode pizza.binaryCode w1.xorBinaryCache with
      | .error e => .error e
      | .ok (difference, cache) =>
        let w2 := { w1 with xorBinaryCache := cache }
        if difference > best.maxDifference then
          sampleLoop n teamCode pizzas ⟨pizza, index, difference⟩ w2
        else sampleLoop n teamCode pizzas best w2

/-- Go `func deliverNextPizza(team *Team, pizzas []*Pizza) []*Pizza` -/
def deliverNextPizza (team : Team) (pizzas : List Pizza) (w : World) :
    Except Fault (Team × List Pizza × World) :=
  match pizzas[0]? with
  | none => .error .indexOutOfRange
  | some first =>
    match sampleLoop w.sampleSize.toNat team.binaryCode pizzas ⟨first, 0, 0⟩ w with
    | .error e => .error e
    | .ok (best, w1) =>
      match andBinary team.binaryCode best.bestPizza.binaryCode with
      | .error e => .error e
      | .ok code =>
        let teamPizzas := shareCode team.pizzas code ++ [best.bestPizza]
        let team1 : Team :=
          { size := team.size
            pizzas := teamPizzas
            binaryCode := code
            isComplete := if (teamPizzas.length : Int) = team.size then true else team.isComplete }
        match removePizza pizzas best.bestPizzaIndex with
        | .error e => .error e
        | .ok rest => .ok (team1, rest, w1)

/-- The `for { ... }` loop of `deliverPizzas`, cut after `fuel` iterations. -/
def deliverLoop : Nat → Team → List Pizza → World → Except Fault (Team × List Pizza × World)
  | 0, _, _, _ => .error .fuelExhausted
  | fuel + 1, team, pizzas, w =>
    match deliverNextPizza team pizzas w with
    | .error e => .error e
    | .ok (team1, pizzas1, w1) =>
      if team1.isComplete || pizzas1.length = 0 then .ok (team1, pizzas1, w1)
      else deliverLoop fuel team1 pizzas1 w1

/-- Go `func deliverPizzas(team *Team, pizzas []*Pizza) []*Pizza`.  Every iteration of the loop
takes one pizza out of the pool, so `len(pizzas) + 1` iterations are enough
(`deliverPizzas_ne_fuelExhausted`). -/
def deliverPizzas (team : Team) (pizzas : List Pizza) (w : World) :
    Except Fault (Team × List Pizza × World) :=
  if team.pizzas.length = 0 then
    match deliverFirstPizza team pizzas with
    | .error e => .error e
    | .ok (team1, pizzas1) =>
      if pizzas1.length = 0 then .ok (team1, pizzas1, w)
      else deliverLoop (pizzas1.length + 1) team1 pizzas1 w
  else deliverLoop (pizzas.length + 1) team pizzas w

/-! ## The driver of `main` -/

/-- The loop `for i := 0; i < teamCount; i++` of `main` (the progress line it prints is left
out): `n` iterations are left, `i` is the loop variable.  The team of an iteration is
`teams[teamCount-1-i]` (a negative index panics); the loop is left as soon as the pool is
empty.  Running it with `n` below `teamCount` gives the state after the first `n` iterations. -/
def allocLoop (teamCount : Nat) :
    Nat → Nat → List Team → List Pizza → World → Except Fault (List Team × List Pizza × World)
  | 0, _, teams, pizzas, w => .ok (teams, pizzas, w)
  | n + 1, i, teams, pizzas, w =>
    if teamCount < 1 + i then .error .indexOutOfRange
    else
      match teams[teamCount - 1 - i]? with
      | none => .error .indexOutOfRange
      | some team =>
        match deliverPizzas team pizzas w with
        | .error e => .error e
        | .ok (team1, pizzas1, w1) =>
          let teams1 := teams.set (teamCount - 1 - i) team1
          if pizzas1.length = 0 then .ok (teams1, pizzas1, w1)
          else allocLoop teamCount n (i + 1) teams1 pizzas1 w1

/-- The allocation of `main`: `teamCount := len(teams)` and the loop over all teams. -/
def allocate (teams : List Team) (pizzas : List Pizza) (w : World) :
    Except Fault (List Team × List Pizza × World) :=
  allocLoop teams.length teams.length 0 teams pizzas w

/-! ## The header line of the input

`main` splits the first line at single spaces, skips the first field (the number of pizzas) and
reads the `j`-th of the remaining fields as the number of teams of `j + 2` people.  The two
library functions it uses are modelled on strings as lists of characters. -/

/-- Go `strings.Split(s, " ")`: the pieces of `s` between single spaces (never an empty slice). -/
def splitSpace : GoString → List GoString
  | [] => [[]]
  | c :: rest =>
    match splitSpace rest with
    | [] => [[c]]
    | piece :: pieces => if c = ' ' then [] :: piece :: pieces else (c :: piece) :: pieces

/-- The digit loop of `strconv.ParseUint(s, 10, 64)`, which `strconv.Atoi` runs on the bytes
after the sign.  It returns at the first error it meets: `none` (a syntax error) at a byte that is
not a decimal digit, and the largest `uint64` (with a range error) as soon as the value leaves
`uint64`, whatever the bytes after that are. -/
def atoiDigits : GoString → Nat → Option Nat
  | [], n => some n
  | ch :: rest, n =>
    if '0' ≤ ch ∧ ch ≤ '9' then
      if (2 ^ 64 - 1) / 10 + 1 ≤ n then some (2 ^ 64 - 1)
      else if 2 ^ 64 - 1 < n * 10 + (ch.toNat - 48) then some (2 ^ 64 - 1)
      else atoiDigits rest (n * 10 + (ch.toNat - 48))
    else none

/-- Go `strconv.Atoi(s)` for the 64-bit `int`: the value and whether the error is `nil`.  A syntax
error gives the value 0, a range error the nearest representable value (`strconv.ParseInt`
compares the unsigned value with `1 << 63`).  The fast path of `Atoi` for short strings gives
the same results. -/
def atoi (s : GoString) : Int × Bool :=
  let signed : Bool × GoString :=
    match s with
    | '-' :: rest => (true, rest)
    | '+' :: rest => (false, rest)
    | _ => (false, s)
  if signed.2 = [] then (0, false)
  else
    match atoiDigits signed.2 0 with
    | none => (0, false)
    | some n =>
      if signed.1 then
        if 2 ^ 63 < n then (-(2 ^ 63), false) else (-(n : Int), true)
      else
        if 2 ^ 63 - 1 < n then (2 ^ 63 - 1, false) else ((n : Int), true)

/-- The inner loop `for i := 0; i < teamCount; i++` of the header loop: append `teamCount`
fresh teams of `teamSize`. -/
def appendTeams : Nat → Int → List Team → List Team
  | 0, _, teams => teams
  | n + 1, teamSize, teams => appendTeams n teamSize (teams ++ [⟨teamSize, [], [], false⟩])

/-- The loop `for headerIndex, part := range headerParts[1:]`; the error of `strconv.Atoi` is
dropped (`teamCount, _ := strconv.Atoi(part)`), and a count that is not positive runs the inner
loop zero times. -/
def headerLoop : List GoString → Nat → List Team → List Team
  | [], _, teams => teams
  | part :: rest, headerIndex, teams =>
    let teamCount := (atoi part).1
    let teamSize : Int := (headerIndex : Int) + 2
    headerLoop rest (headerIndex + 1) (appendTeams teamCount.toNat teamSize teams)

/-- The teams `main` builds from the header line.  Slicing `headerParts[1:]` would panic on an
empty slice. -/
def buildTeams (headerLine : GoString) : Except Fault (List Team) :=
  match splitSpace headerLine with
  | [] => .error .indexOutOfRange
  | _ :: parts => .ok (headerLoop parts 0 [])

/-! ## The output file -/

/-- The loop counting the complete teams (`completeTeamsCount++`), with the running count. -/
def countComplete : List Team → Int → Int
  | [], completeTeamsCount => completeTeamsCount
  | team :: rest, completeTeamsCount =>
    countComplete rest (if team.isComplete then completeTeamsCount + 1 else completeTeamsCount)

/-- The loop `for _, pizza := range team.pizzas` writing ` %v` of every pizza id. -/
def writePizzas : List Pizza → GoString
  | [] => []
  | pizza :: rest => ' ' :: (formatInt pizza.id ++ writePizzas rest)

/-- The line written for one complete team: its size, its pizza ids, a newline. -/
def teamLine (team : Team) : GoString :=
  formatInt team.size ++ (writePizzas team.pizzas ++ [Char.ofNat 10])

/-- The loop over the teams that writes one line per complete team and skips the others. -/
def writeTeams : List Team → GoString
  | [] => []
  | team :: rest => if !team.isComplete then writeTeams rest else teamLine team ++ writeTeams rest

/-- Everything `main` writes to the output file: the number of complete teams on a line of its
own, then the lines of the complete teams. -/
def writeOutput (teams : List Team) : GoString :=
  formatInt (countComplete teams 0) ++ (Char.ofNat 10 :: writeTeams teams)

/-! ## Notions used to state the properties -/

/-- Number of positions at which two vectors differ (positions present in both). -/
def hammingDistance (left right : List Int) : Int :=
  ((left.zip right).countP (fun p => decide (p.1 ≠ p.2)) : Nat)

/-- Every stored distance is the one the loop of `xorBinary` computes for the pair of vectors
the key was built from. -/
def CacheSound (cache : List (GoString × Int)) : Prop :=
  ∀ left right v, cache.lookup (cacheKey left right) = some v → xorLoop left right 0 0 = .ok v

/-- The identities of a list of pizzas. -/
def ids (pizzas : List Pizza) : List Int := pizzas.map (fun p => p.id)

/-- All pizzas of the list have a vector of length `len`. -/
def Uniform (len : Nat) (pizzas : List Pizza) : Prop :=
  ∀ p ∈ pizzas, p.binaryCode.length = len

instance (len : Nat) (pizzas : List Pizza) : Decidable (Uniform len pizzas) :=
  inferInstanceAs (Decidable (∀ p ∈ pizzas, p.binaryCode.length = len))

/-- Value of a string of decimal digits. -/
def digitsValue (s : GoString) : Nat :=
  s.foldl (fun v c => 10 * v + (c.toNat - 48)) 0

/-- The index returned by the `j`-th call of `rand.Intn(len)` made from world `w` on. -/
def sampledIndex (w : World) (len j : Nat) : Nat := w.draws (w.pos + j) % len

/-- Distance between a team code and the vector of the pizza at a pool index. -/
def distAt (code : List Int) (pizzas : List Pizza) (index : Nat) : Int :=
  match pizzas[index]? with
  | some p => hammingDistance code p.binaryCode
  | none => 0

/-- The states one call `deliverPizzas(team0, pizzas0)` goes through, as a step relation built
from `deliverFirstPizza` and `deliverNextPizza` along the control flow of `deliverPizzas`.
`Assembly team0 pizzas0 w0 running team pizzas w` says that the call reaches the state
`(team, pizzas, w)`; `running = true` when control is then at the head of the `for` loop (the
next thing to happen is a call of `deliverNextPizza`), and `running = false` when `deliverPizzas`
returns in that state. -/
inductive Assembly (team0 : Team) (pizzas0 : List Pizza) (w0 : World) :
    Bool → Team → List Pizza → World → Prop where
  | entry : team0.pizzas.length ≠ 0 → Assembly team0 pizzas0 w0 true team0 pizzas0 w0
  | seed (team1 : Team) (pizzas1 : List Pizza) :
      team0.pizzas.length = 0 → deliverFirstPizza team0 pizzas0 = .ok (team1, pizzas1) →
      Assembly team0 pizzas0 w0 (decide (pizzas1.length ≠ 0)) team1 pizzas1 w0
  | next (team team1 : Team) (pizzas pizzas1 : List Pizza) (w w1 : World) :
      Assembly team0 pizzas0 w0 true team pizzas w →
      deliverNextPizza team pizzas w = .ok (team1, pizzas1, w1) →
      Assembly team0 pizzas0 w0 (!(team1.isComplete || decide (pizzas1.length = 0)))
        team1 pizzas1 w1

/-- The identities of all pizzas assigned to the teams. -/
def assigned (teams : List Team) : List Int := teams.flatMap (fun t => ids t.pizzas)

/-- Total capacity of the teams processed before the team at index `idx`, when the driver still
has the teams at indices below `top` to process (it takes them from the highest index down). -/
def capBefore (teams : List Team) (top idx : Nat) : Int :=
  (((teams.take top).drop (idx + 1)).map (fun t => t.size)).sum

/-- The outcome for one team of capacity `size` when `before` is the total capacity of the teams
processed before it and the run starts with `count` pizzas: the team is complete exactly when
the capacities up to and including its own fit into `count`; it is then full; if only the
capacities before it fit, it holds the leftover; otherwise it holds nothing. -/
def Outcome (before : Int) (count : Nat) (size : Int) (team : Team) : Prop :=
  (team.isComplete = true ↔ before + size ≤ count) ∧
    (before + size ≤ count → (team.pizzas.length : Int) = size) ∧
    (before ≤ count → (count : Int) < before + size →
      (team.pizzas.length : Int) = count - before) ∧
    ((count : Int) ≤ before → team.pizzas = [])

/-- A sequence of calls of `xorBinary` on the given pairs, one after the other on the same
cache: the results in call order and the final cache. -/
def xorBinaryCalls :
    List (List Int × List Int) → List (GoString × Int) →
      Except Fault (List Int × List (GoString × Int))
  | [], cache => .ok ([], cache)
  | (left, right) :: rest, cache =>
    match xorBinary left right cache with
    | .error e => .error e
    | .ok (difference, cache1) =>
      match xorBinaryCalls rest cache1 with
      | .error e => .error e
      | .ok (differences, cache2) => .ok (difference :: differences, cache2)

/-- The teams a list of counts stands for when its first entry counts the teams of `j + 2`
people: for every count in turn, that many empty teams, the capacity growing by one from count
to count. -/
def teamBlocks : List Nat → Nat → List Team
  | [], _ => []
  | count :: rest, j =>
    List.replicate count ⟨(j : Int) + 2, [], [], false⟩ ++ teamBlocks rest (j + 1)

/-! ## Concrete inputs -/

/-- The world `main` starts in, for a given stream of random draws: `sampleSize = 100` and an
empty cache. -/
def initialWorld (draws : Nat → Nat) : World := ⟨100, [], draws, 0⟩

/-- Four pizzas with the vectors `[1,0,0]`, `[0,1,0]`, `[0,0,1]`, `[1,1,1]`. -/
def fourPizzas : List Pizza :=
  [⟨0, [], [1, 0, 0]⟩, ⟨1, [], [0, 1, 0]⟩, ⟨2, [], [0, 0, 1]⟩, ⟨3, [], [1, 1, 1]⟩]

/-- An empty team of the given capacity, as `main` creates it. -/
def emptyTeam (size : Int) : Team := ⟨size, [], [], false⟩

/-! ## The pizza lines, the ingredient catalog and `main`

The map `ingredientToIndex` is an association list in insertion order; a key is only ever
inserted when it is absent, so its length is `len(ingredientToIndex)`. -/

/-- The loop `for _, ingredient := range lineParts[1:]` of one pizza line: an ingredient that is
not in the map yet gets the current `ingredientIndex`, which is then incremented. -/
def catalogLoop :
    List GoString → List (GoString × Nat) → Nat → List (GoString × Nat) × Nat
  | [], ingredientToIndex, ingredientIndex => (ingredientToIndex, ingredientIndex)
  | ingredient :: rest, ingredientToIndex, ingredientIndex =>
    match ingredientToIndex.lookup ingredient with
    | some _ => catalogLoop rest ingredientToIndex ingredientIndex
    | none =>
      catalogLoop rest (ingredientToIndex ++ [(ingredient, ingredientIndex)]) (ingredientIndex + 1)

/-- The loop `for pizzaId, line := range lines[1:]`: the pizzas (with the empty `binaryCode`
they are created with), the map and the counter.  Slicing `lineParts[1:]` would panic on an
empty slice. -/
def parseLoop :
    List GoString → Nat → List (GoString × Nat) → Nat →
      Except Fault (List Pizza × List (GoString × Nat) × Nat)
  | [], _, ingredientToIndex, ingredientIndex => .ok ([], ingredientToIndex, ingredientIndex)
  | line :: rest, pizzaId, ingredientToIndex, ingredientIndex =>
    match splitSpace line with
    | [] => .error .indexOutOfRange
    | _ :: ingredients =>
      let state := catalogLoop ingredients ingredientToIndex ingredientIndex
      match parseLoop rest (pizzaId + 1) state.1 state.2 with
      | .error e => .error e
      | .ok (pizzas, ingredientToIndex1, ingredientIndex1) =>
        .ok (⟨(pizzaId : Int), ingredients, []⟩ :: pizzas, ingredientToIndex1, ingredientIndex1)

/-- The loop `for _, ingredient := range pizza.ingredients` that sets
`binaryCode[ingredientToIndex[ingredient]] = 1`; a key missing from the map reads as 0. -/
def encodeLoop : List GoString → List (GoString × Nat) → List Int → Except Fault (List Int)
  | [], _, binaryCode => .ok binaryCode
  | ingredient :: rest, ingredientToIndex, binaryCode =>
    let ingredientIndex := (ingredientToIndex.lookup ingredient).getD 0
    if ingredientIndex < binaryCode.length then
      encodeLoop rest ingredientToIndex (binaryCode.set ingredientIndex 1)
    else .error .indexOutOfRange

/-- The loop `for _, pizza := range pizzas` that gives every pizza its vector, starting from
`make([]int, len(ingredientToIndex))`. -/
def encodePizzas : List Pizza → List (GoString × Nat) → Except Fault (List Pizza)
  | [], _ => .ok []
  | pizza :: rest, ingredientToIndex =>
    match encodeLoop pizza.ingredients ingredientToIndex
        (List.replicate ingredientToIndex.length 0) with
    | .error e => .error e
    | .ok binaryCode =>
      match encodePizzas rest ingredientToIndex with
      | .error e => .error e
      | .ok pizzas => .ok ({ pizza with binaryCode := binaryCode } :: pizzas)

/-- The part of `main` before the allocation: the teams of the header line, and the pizzas of
the other lines with their vectors, together with the catalog.  With no line at all
`make([]*Pizza, len(lines)-1)` panics. -/
def load (lines : List GoString) :
    Except Fault (List Team × List Pizza × List (GoString × Nat)) :=
  match lines with
  | [] => .error .invalidArgument
  | headerLine :: pizzaLines =>
    match buildTeams headerLine with
    | .error e => .error e
    | .ok teams =>
      match parseLoop pizzaLines 0 [] 0 with
      | .error e => .error e
      | .ok (pizzas, ingredientToIndex, _) =>
        match encodePizzas pizzas ingredientToIndex with
        | .error e => .error e
        | .ok pizzas1 => .ok (teams, pizzas1, ingredientToIndex)

/-- The program `main` as a function from the non-empty lines of the input file (what `readFile`
returns) and the stream of random draws to the content of the output file. -/
def main (lines : List GoString) (draws : Nat → Nat) : Except Fault GoString :=
  match load lines with
  | .error e => .error e
  | .ok (teams, pizzas, _) =>
    match allocate teams pizzas (initialWorld draws) with
    | .error e => .error e
    | .ok (teams1, _, _) => .ok (writeOutput teams1)

/-! ## Notions used to state the properties of the catalog -/

/-- The ingredient labels of a pizza line: its fields but the first. -/
def ingredientsOf (line : GoString) : List GoString := (splitSpace line).tail

/-- The ingredient labels of all pizza lines, in reading order. -/
def allIngredients (pizzaLines : List GoString) : List GoString :=
  pizzaLines.flatMap ingredientsOf

/-- Index of the first occurrence of a label in a list of labels (the length of the list when
the label does not occur). -/
def firstIndex (a : GoString) (l : List GoString) : Nat :=
  @List.indexOf GoString instBEqOfDecidableEq a l

/-- The state of the catalog after the labels `seen` have been read: the counter is the size of
the map, the `p`-th entry of the map carries the position `p`, no label occurs twice, the labels
of the map are the labels seen, and they stand in the order of their first occurrence. -/
def CatalogInv (ingredientToIndex : List (GoString × Nat)) (ingredientIndex : Nat)
    (seen : List GoString) : Prop :=
  ingredientIndex = ingredientToIndex.length ∧
    ingredientToIndex.map Prod.snd = List.range ingredientToIndex.length ∧
    (ingredientToIndex.map Prod.fst).Nodup ∧
    (∀ a, a ∈ ingredientToIndex.map Prod.fst ↔ a ∈ seen) ∧
    (∀ (i j : Nat) (a b : GoString), (ingredientToIndex.map Prod.fst)[i]? = some a →
      (ingredientToIndex.map Prod.fst)[j]? = some b →
      (i < j ↔ firstIndex a seen < firstIndex b seen))

/-- A team whose pizzas come from the pool `pool0`: every pizza but the first is an element of
`pool0` as it was, and every pizza has the identity and the ingredients of an element of
`pool0`. -/
def Preserved (pool0 : List Pizza) (team : Team) : Prop :=
  (∀ p ∈ team.pizzas.tail, p ∈ pool0) ∧
    ∀ p ∈ team.pizzas, ∃ p0 ∈ pool0, p0.id = p.id ∧ p0.ingredients = p.ingredients

/-- A header field that is read as the count `count` without stopping the program: it is a
field (it holds no space), and either `strconv.Atoi` accepts it with the value `count`, or
`strconv.Atoi` reports an error with a value that is not positive (0 for a syntax error, the
smallest `int` for digits below the range) and `count` is 0.  The one error left out is the
range error above the range, whose value is the largest `int`. -/
def ReadsAs (field : GoString) (count : Nat) : Prop :=
  ' ' ∉ field ∧
    (atoi field = ((count : Int), true) ∨
      ((atoi field).2 = false ∧ (atoi field).1 ≤ 0 ∧ count = 0))

end Practice

/-! # The qualification program

`src/qualification/src/main.go` reads a street map and the paths of the cars, and gives every
intersection a list of traffic lights.  Pointers are modelled as references into two stores kept
in the simulation: a `*Street` is an index into `streets`, a `*Car` an index into `cars`, and an
`*Intersection` is the key of the intersection in `intersectionMap` (an intersection is created
once per key and never replaced).  A nil `*Street` is `none`. -/

namespace Qualification

open Practice (GoString splitSpace atoi)

/-- The run-time panics of the program. -/
inductive Fault where
  | indexOutOfRange
  | nilDereference
  | lenOutOfRange
deriving DecidableEq, Repr

/-- Go `type SimulationContext struct` -/
structure SimulationContext where
  duration : Int
  intersectionCount : Int
  streetCount : Int
  carCount : Int
  bonusPoints : Int
deriving DecidableEq, Repr

/-- Go `type Street struct`; the two intersections are given by their keys, the cars by their
references. -/
structure Street where
  name : GoString
  length : Int
  startIntersection : Int
  endIntersection : Int
  carCount : Int
  carsAtEnd : List Nat
deriving DecidableEq, Repr

/-- Go `type Car struct`; an entry of `streets` is a street reference or nil. -/
structure Car where
  id : Int
  streetCount : Int
  streets : List (Option Nat)
deriving DecidableEq, Repr

/-- Go `type TrafficLight struct` -/
structure TrafficLight where
  street : Nat
  duration : Int
deriving DecidableEq, Repr

/-- Go `type Intersection struct` -/
structure Intersection where
  id : Int
  incomingStreets : List Nat
  outgoingStreets : List Nat
  trafficLights : List TrafficLight
deriving DecidableEq, Repr

/-- Go `type Simulation struct`, with the stores of the street and car objects.  The maps are
association lists; `intersectionMap` keeps the order of insertion, which nothing below relies
on. -/
structure Simulation where
  context : SimulationContext
  intersectionMap : List (Int × Intersection)
  streetMap : List (GoString × Nat)
  carMap : List (Int × Nat)
  streets : List Street
  cars : List Car
deriving DecidableEq, Repr

/-! ## Parsing -/

/-- Source `parseInputHeader`: the five fields are read by index, the errors of `strconv.Atoi`
are dropped. -/
def parseInputHeader (header : GoString) : Except Fault SimulationContext :=
  match splitSpace header with
  | p0 :: p1 :: p2 :: p3 :: p4 :: _ =>
    .ok ⟨(atoi p0).1, (atoi p1).1, (atoi p2).1, (atoi p3).1, (atoi p4).1⟩
  | _ => .error .indexOutOfRange

/-- Source `getOrCreateIntersection`; the pointer it returns is the key `id`. -/
def getOrCreateIntersection (simulation : Simulation) (id : Int) : Simulation :=
  match simulation.intersectionMap.lookup id with
  | some _ => simulation
  | none =>
    { simulation with intersectionMap := simulation.intersectionMap ++ [(id, ⟨id, [], [], []⟩)] }

/-- A write through an `*Intersection`: the intersection stored under `id` becomes `f` of it. -/
def updateIntersection (f : Intersection → Intersection) (id : Int) :
    List (Int × Intersection) → List (Int × Intersection)
  | [] => []
  | (key, intersection) :: rest =>
    if key = id then (key, f intersection) :: rest
    else (key, intersection) :: updateIntersection f id rest

/-- Source `parseStreet`. -/
def parseStreet (simulation : Simulation) (line : GoString) : Except Fault Simulation :=
  match splitSpace line with
  | p0 :: p1 :: name :: p3 :: _ =>
    let startIntersectionId := (atoi p0).1
    let endIntersectionId := (atoi p1).1
    let length := (atoi p3).1
    let simulation1 := getOrCreateIntersection simulation startIntersectionId
    let simulation2 := getOrCreateIntersection simulation1 endIntersectionId
    let street := simulation2.streets.length
    let intersectionMap1 := updateIntersection
      (fun x => { x with outgoingStreets := x.outgoingStreets ++ [street] })
      startIntersectionId simulation2.intersectionMap
    let intersectionMap2 := updateIntersection
      (fun x => { x with incomingStreets := x.incomingStreets ++ [street] })
      endIntersectionId intersectionMap1
    .ok { simulation2 with
      streets := simulation2.streets ++ [⟨name, length, startIntersectionId, endIntersectionId, 0, []⟩]
      streetMap := (name, street) :: simulation2.streetMap
      intersectionMap := intersectionMap2 }
  | _ => .error .indexOutOfRange

/-- Source `createCar`: `make([]*Street, streetCount)` panics on a negative length; `carMap` is
never written, so every id is its length 0. -/
def createCar (simulation : Simulation) (streetCount : Int) : Except Fault Car :=
  if streetCount < 0 then .error .lenOutOfRange
  else .ok ⟨(simulation.carMap.length : Int), streetCount, List.replicate streetCount.toNat none⟩

/-- The loop `for i, streetName := range parts[1:]` of `parseCar`; `carRef` is the pointer to
`car`.  The store `car.streets[i] = street` is checked against the length before the nil street
is dereferenced. -/
def carLoop : List GoString → Nat → Nat → Car → Simulation → Except Fault (Car × Simulation)
  | [], _, _, car, simulation => .ok (car, simulation)
  | streetName :: rest, i, carRef, car, simulation =>
    let street := simulation.streetMap.lookup streetName
    if car.streets.length ≤ i then .error .indexOutOfRange
    else
      let car1 : Car := { car with streets := car.streets.set i street }
      match street with
      | none => .error .nilDereference
      | some ref =>
        match simulation.streets[ref]? with
        | none => .error .nilDereference
        | some s =>
          let s1 : Street := { s with carCount := s.carCount + 1 }
          let s2 : Street := if i = 0 then { s1 with carsAtEnd := s1.carsAtEnd ++ [carRef] } else s1
          carLoop rest (i + 1) carRef car1 { simulation with streets := simulation.streets.set ref s2 }

/-- Source `parseCar`; the new car object is put in the store when the loop is done. -/
def parseCar (simulation : Simulation) (line : GoString) : Except Fault Simulation :=
  match splitSpace line with
  | [] => .error .indexOutOfRange
  | p0 :: names =>
    match createCar simulation (atoi p0).1 with
    | .error e => .error e
    | .ok car =>
      match carLoop names 0 simulation.cars.length car simulation with
      | .error e => .error e
      | .ok (car1, simulation1) => .ok { simulation1 with cars := simulation1.cars ++ [car1] }

/-- The line `lines[index]` for an `int` index. -/
def lineAt (lines : List GoString) (index : Int) : Except Fault GoString :=
  if index < 0 then .error .indexOutOfRange
  else
    match lines[index.toNat]? with
    | none => .error .indexOutOfRange
    | some line => .ok line

/-- The loop `for i := 0; i < context.streetCount; i++` of `parseInputFile`, with the number of
rounds left. -/
def streetLoop : Nat → Int → List GoString → Simulation → Except Fault Simulation
  | 0, _, _, simulation => .ok simulation
  | n + 1, i, lines, simulation =>
    match lineAt lines (1 + i) with
    | .error e => .error e
    | .ok line =>
      match parseStreet simulation line with
      | .error e => .error e
      | .ok simulation1 => streetLoop n (i + 1) lines simulation1

/-- The loop `for i := 0; i < context.carCount; i++` of `parseInputFile`, with the number of
rounds left. -/
def carsLoop : Nat → Int → List GoString → Simulation → Except Fault Simulation
  | 0, _, _, simulation => .ok simulation
  | n + 1, i, lines, simulation =>
    match lineAt lines (1 + simulation.context.streetCount + i) with
    | .error e => .error e
    | .ok line =>
      match parseCar simulation line with
      | .error e => .error e
      | .ok simulation1 => carsLoop n (i + 1) lines simulation1

/-- Source `parseInputFile`, on the lines `readFile` returns. -/
def parseInputFile (lines : List GoString) : Except Fault Simulation :=
  match lineAt lines 0 with
  | .error e => .error e
  | .ok header =>
    match parseInputHeader header with
    | .error e => .error e
    | .ok context =>
      match streetLoop context.streetCount.toNat 0 lines ⟨context, [], [], [], [], []⟩ with
      | .error e => .error e
      | .ok simulation => carsLoop context.carCount.toNat 0 lines simulation

/-! ## The schedule

The floating-point values `main` computes with are whole numbers; each is represented by its
exact value. -/

/-- Go `float64(n)` for `n ≥ 0`: the nearest number with a significand of 53 bits, ties to
even. -/
def roundF64 (n : Nat) : Nat :=
  if n < 2 ^ 53 then n
  else
    let unit := 2 ^ (Nat.log2 n - 52)
    let low := n / unit * unit
    if 2 * (n - low) < unit then low
    else if unit < 2 * (n - low) then low + unit
    else if n / unit % 2 = 0 then low else low + unit

/-- Go `float64(n)` for an `int`. -/
def float64OfInt (n : Int) : Int :=
  if n < 0 then -(roundF64 n.natAbs : Int) else (roundF64 n.natAbs : Int)

/-- Go `int(f)` for a whole `f`; out of the range of `int` the result is that of the amd64
conversion instruction. -/
def intOfFloat64 (f : Int) : Int :=
  if -(2 ^ 63) ≤ f ∧ f < 2 ^ 63 then f else -(2 ^ 63)

/-- The expression
`int(math.Min(float64(simulation.context.duration), math.Max(1., float64(len(street.carsAtEnd)))))`. -/
def lightDuration (duration : Int) (queue : Nat) : Int :=
  intOfFloat64 (min (float64OfInt duration) (max 1 (float64OfInt (queue : Int))))

/-- The value `len(street.carsAtEnd)` the comparison function reads through a street pointer. -/
def queueLength (streets : List Street) (street : Nat) : Nat :=
  match streets[street]? with
  | none => 0
  | some s => s.carsAtEnd.length

/-- The loop `for _, street := range intersection.incomingStreets` of `main`, with the traffic
lights of the intersection. -/
def lightsLoop (duration : Int) (streets : List Street) :
    List Nat → List TrafficLight → Except Fault (List TrafficLight)
  | [], trafficLights => .ok trafficLights
  | street :: rest, trafficLights =>
    match streets[street]? with
    | none => .error .nilDereference
    | some s =>
      if s.carCount = 0 then lightsLoop duration streets rest trafficLights
      else
        lightsLoop duration streets rest
          (trafficLights ++ [⟨street, lightDuration duration s.carsAtEnd.length⟩])

/-- The body of the loop over the intersections in `main`.  The library function `sort.Slice` is
the parameter `sortSlice`, called with the comparison of the source on the elements. -/
def scheduleIntersection (sortSlice : (Nat → Nat → Bool) → List Nat → List Nat)
    (simulation : Simulation) (intersection : Intersection) : Except Fault Intersection :=
  let incomingStreets := sortSlice
    (fun a b => decide (queueLength simulation.streets b < queueLength simulation.streets a))
    intersection.incomingStreets
  match lightsLoop simulation.context.duration simulation.streets incomingStreets
      intersection.trafficLights with
  | .error e => .error e
  | .ok trafficLights =>
    .ok { intersection with incomingStreets := incomingStreets, trafficLights := trafficLights }

/-- The loop `for _, intersection := range simulation.intersectionMap` of `main`. -/
def scheduleLoop (sortSlice : (Nat → Nat → Bool) → List Nat → List Nat) (simulation : Simulation) :
    List (Int × Intersection) → Except Fault (List (Int × Intersection))
  | [] => .ok []
  | (key, intersection) :: rest =>
    match scheduleIntersection sortSlice simulation intersection with
    | .error e => .error e
    | .ok intersection1 =>
      match scheduleLoop sortSlice simulation rest with
      | .error e => .error e
      | .ok rest1 => .ok ((key, intersection1) :: rest1)

/-- Source `main` up to the call of `writeOutputFile`: the simulation with its schedules. -/
def main (sortSlice : (Nat → Nat → Bool) → List Nat → List Nat) (lines : List GoString) :
    Except Fault Simulation :=
  match parseInputFile lines with
  | .error e => .error e
  | .ok simulation =>
    match scheduleLoop sortSlice simulation simulation.intersectionMap with
    | .error e => .error e
    | .ok intersectionMap => .ok { simulation with intersectionMap := intersectionMap }

/-! ## Notions of the specification -/

/-- The contract of `sort.Slice` for a comparison by a key in descending order: the result is a
rearrangement of the slice in which no element has a smaller key than a later one.  Ties may come
in any order (the sort is not stable). -/
def SortsDescending (sortSlice : (Nat → Nat → Bool) → List Nat → List Nat) : Prop :=
  ∀ (key : Nat → Nat) (l : List Nat),
    (sortSlice (fun a b => decide (key b < key a)) l).Perm l ∧
    (sortSlice (fun a b => decide (key b < key a)) l).Pairwise (fun a b => key b ≤ key a)

/-- A sort meeting the contract, for running the model. -/
def mergeSlice (less : Nat → Nat → Bool) (l : List Nat) : List Nat :=
  l.mergeSort (fun a b => !less b a)

/-- The number of times a street occurs on the paths of the cars. -/
def onPaths (cars : List Car) (street : Nat) : Nat :=
  (cars.flatMap (fun car => car.streets)).count (some street)

/-- Whether the first street of the path of a car is `street`. -/
def startsOn (car : Car) (street : Nat) : Bool :=
  car.streets.head? == some (some street)

/-- The initial queue length of a street: the number of cars whose first street it is. -/
def initialQueue (cars : List Car) (street : Nat) : Nat :=
  cars.countP (fun car => startsOn car street)

/-- The invariant of the street map: every street reference is in the store, an intersection
has no traffic lights before `main` schedules it, and no street comes in twice. -/
def WellFormed (simulation : Simulation) : Prop :=
  (∀ entry ∈ simulation.intersectionMap,
    entry.2.trafficLights = [] ∧ entry.2.incomingStreets.Nodup ∧
    ∀ street ∈ entry.2.incomingStreets, street < simulation.streets.length) ∧
  ∀ entry ∈ simulation.streetMap, entry.2 < simulation.streets.length

/-- The street map before the cars are read: it is well formed, there are no cars, and every
counter is at its initial value. -/
def Fresh (simulation : Simulation) : Prop :=
  WellFormed simulation ∧ simulation.cars = [] ∧
  ∀ s ∈ simulation.streets, s.carCount = 0 ∧ s.carsAtEnd = []

/-- The invariant of the counters: `carCount` counts the occurrences on the paths, and the cars
waiting at the end of a street are those that start on it. -/
def Counted (simulation : Simulation) : Prop :=
  ∀ (street : Nat) (s : Street), simulation.streets[street]? = some s →
    s.carCount = (onPaths simulation.cars street : Int) ∧
    s.carsAtEnd.length = initialQueue simulation.cars street

/-- The value `street.carCount` read through a street pointer. -/
def carCountAt (streets : List Street) (street : Nat) : Int :=
  match streets[street]? with
  | none => 0
  | some s => s.carCount

/-- The lights of a run of `lightsLoop` in closed form: one for every street of the list whose
`carCount` is not 0, in the order of the list. -/
def lightsOf (duration : Int) (streets : List Street) (incomingStreets : List Nat) :
    List TrafficLight :=
  (incomingStreets.filter (fun street => decide (carCountAt streets street ≠ 0))).map
    (fun street => ⟨street, lightDuration duration (queueLength streets street)⟩)

/-- The intersection `main` leaves behind, in closed form. -/
def scheduled (sortSlice : (Nat → Nat → Bool) → List Nat → List Nat) (simulation : Simulation)
    (intersection : Intersection) : Intersection :=
  let incomingStreets := sortSlice
    (fun a b => decide (queueLength simulation.streets b < queueLength simulation.streets a))
    intersection.incomingStreets
  { intersection with
    incomingStreets := incomingStreets
    trafficLights := intersection.trafficLights ++
      lightsOf simulation.context.duration simulation.streets incomingStreets }

/-- The example input: three intersections, four streets, three cars. -/
def exampleLines : List GoString :=
  ["5 3 4 3 10".toList, "0 1 a 1".toList, "2 1 b 1".toList, "1 2 c 2".toList, "0 2 d 1".toList,
   "2 b c".toList, "2 a c".toList, "2 a c".toList]

end Qualification

namespace Practice

/-! ## Removal from the pool -/

theorem swapRemove_perm_aux {α : Type} (init : List α) (b x : α) (i : Nat)
    (hi : (init ++ [b])[i]? = some x) :
    (x :: ((init ++ [b]).set i b).take init.length).Perm (init ++ [b]) := by
  by_cases h : i < init.length
  · have hx : init[i]? = some x := by
      rwa [List.getElem?_append_left h] at hi
    have hx2 : init[i] = x := by
      rw [List.getElem?_eq_getElem h] at hx
      exact Option.some.inj hx
    have e1 : (init ++ [b]).set i b = init.set i b ++ [b] := by
      rw [List.set_append_left _ _ h]
    have e2 : init = init.take i ++ x :: init.drop (i + 1) := by
      rw [← hx2]; simp
    rw [e1, List.take_left' (by simp), List.set_eq_take_append_cons_drop, if_pos h]
    conv_rhs => rw [e2]
    rw [List.append_assoc]
    exact ((List.Perm.append_left _ (List.perm_append_singleton b _).symm).cons x).trans
      List.perm_middle.symm
  · have hlen : i = init.length := by
      have hlt : i < (init ++ [b]).length := by
        by_contra hc
        rw [List.getElem?_eq_none (Nat.le_of_not_lt hc)] at hi
        cases hi
      simp at hlt
      omega
    subst hlen
    have hx : x = b := by
      simpa using hi.symm
    subst hx
    have e1 : (init ++ [x]).set init.length x = init ++ [x] := by
      simp
    rw [e1, List.take_left' rfl]
    exact (List.perm_append_singleton x init).symm

theorem swapRemove_perm {α : Type} (l : List α) (i : Nat) (x last : α)
    (hi : l[i]? = some x) (hlast : l[l.length - 1]? = some last) :
    (x :: (l.set i last).take (l.length - 1)).Perm l := by
  rcases List.eq_nil_or_concat l with rfl | ⟨init, b, rfl⟩
  · simp at hi
  · rw [List.concat_eq_append] at hi hlast ⊢
    have hb : b = last := by
      simpa using hlast
    subst hb
    have hlen : (init ++ [b]).length - 1 = init.length := by simp
    rw [hlen]
    exact swapRemove_perm_aux init b x i hi

theorem removePizza_ok {pizzas rest : List Pizza} {i : Nat}
    (h : removePizza pizzas i = .ok rest) :
    ∃ p, pizzas[i]? = some p ∧ (p :: rest).Perm pizzas ∧ rest.length + 1 = pizzas.length := by
  unfold removePizza at h
  simp only at h
  split at h
  · cases h
  · rename_i hne
    split at h
    · cases h
    · rename_i last hlast
      split at h
      · rename_i hi
        injection h with h
        subst h
        refine ⟨pizzas[i], List.getElem?_eq_getElem hi, ?_, ?_⟩
        · exact swapRemove_perm pizzas i _ last (List.getElem?_eq_getElem hi) hlast
        · simp; omega
      · cases h

theorem removePizza_of_lt (pizzas : List Pizza) (i : Nat) (hi : i < pizzas.length) :
    ∃ rest, removePizza pizzas i = .ok rest := by
  unfold removePizza
  simp only
  have h0 : pizzas.length ≠ 0 := by omega
  rw [if_neg h0]
  have h1 : pizzas.length - 1 < pizzas.length := by omega
  rw [List.getElem?_eq_getElem h1]
  simp [hi]

/-! ## The distance loop -/

theorem xorLoop_ok (left right : List Int) (i : Nat) (d : Int)
    (h : i + left.length ≤ right.length) :
    xorLoop left right i d = .ok (d + hammingDistance left (right.drop i)) := by
  induction left generalizing i d with
  | nil => simp [xorLoop, hammingDistance]
  | cons a rest ih =>
    have hi : i < right.length := by
      simp at h; omega
    have hdrop : right.drop i = right[i] :: right.drop (i + 1) := List.drop_eq_getElem_cons hi
    rw [xorLoop, List.getElem?_eq_getElem hi]
    simp only
    rw [ih (i + 1) _ (by simp at h ⊢; omega), hdrop]
    simp only [hammingDistance, List.zip_cons_cons, List.countP_cons]
    by_cases hne : a = right[i]
    · simp [hne]
    · simp [hne]; ring

theorem xorLoop_error (left right : List Int) (i : Nat) (d : Int)
    (h1 : i ≤ right.length) (h2 : right.length < i + left.length) :
    xorLoop left right i d = .error .indexOutOfRange := by
  induction left generalizing i d with
  | nil => simp at h2; omega
  | cons a rest ih =>
    rw [xorLoop]
    by_cases hi : i < right.length
    · rw [List.getElem?_eq_getElem hi]
      simp only
      exact ih (i + 1) _ (by omega) (by simp at h2 ⊢; omega)
    · rw [List.getElem?_eq_none (by omega)]

theorem xorLoop_fault (left right : List Int) (i : Nat) (d : Int) (e : Fault)
    (h : xorLoop left right i d = .error e) : e = .indexOutOfRange := by
  induction left generalizing i d with
  | nil => simp [xorLoop] at h
  | cons a rest ih =>
    rw [xorLoop] at h
    split at h
    · injection h with h; exact h.symm
    · exact ih _ _ h

theorem hammingDistance_nonneg (left right : List Int) : 0 ≤ hammingDistance left right := by
  simp [hammingDistance]

/-! ## The cache key determines the pair of vectors -/

theorem digitChar_isDigit (d : Nat) (h : d < 10) :
    (Nat.digitChar d).isDigit = true ∧ (Nat.digitChar d).toNat - 48 = d := by
  interval_cases d <;> decide

theorem toDigitsCore_spec (fuel n : Nat) (ds : List Char) (h : n < fuel) :
    ∃ s, Nat.toDigitsCore 10 fuel n ds = s ++ ds ∧ s ≠ [] ∧ (∀ c ∈ s, c.isDigit = true) ∧
      digitsValue s = n := by
  induction fuel generalizing n ds with
  | zero => omega
  | succ fuel ih =>
    have hd := digitChar_isDigit (n % 10) (Nat.mod_lt _ (by decide))
    rw [Nat.toDigitsCore]
    split
    · rename_i h0
      refine ⟨[Nat.digitChar (n % 10)], rfl, by simp, by simpa using hd.1, ?_⟩
      simp [digitsValue, hd.2]
      omega
    · rename_i h0
      obtain ⟨s, hs, hne, hdig, hval⟩ := ih (n / 10) (Nat.digitChar (n % 10) :: ds) (by omega)
      refine ⟨s ++ [Nat.digitChar (n % 10)], by simp [hs], by simp, ?_, ?_⟩
      · intro c hc
        rcases List.mem_append.1 hc with hc | hc
        · exact hdig c hc
        · simp at hc; subst hc; exact hd.1
      · unfold digitsValue at hval ⊢
        rw [List.foldl_append, hval]
        simp [hd.2]
        omega

theorem toDigits_spec (n : Nat) :
    Nat.toDigits 10 n ≠ [] ∧ (∀ c ∈ Nat.toDigits 10 n, c.isDigit = true) ∧
      digitsValue (Nat.toDigits 10 n) = n := by
  obtain ⟨s, hs, hne, hdig, hval⟩ := toDigitsCore_spec (n + 1) n [] (by omega)
  have : Nat.toDigits 10 n = s := by
    simp [Nat.toDigits, hs]
  rw [this]
  exact ⟨hne, hdig, hval⟩

theorem formatInt_ne_nil (n : Int) : formatInt n ≠ [] := by
  unfold formatInt
  split
  · simp
  · exact (toDigits_spec _).1

theorem formatInt_chars (n : Int) (c : Char) (hc : c ∈ formatInt n) : c ≠ ' ' ∧ c ≠ ']' := by
  have key : c = '-' ∨ c.isDigit = true := by
    unfold formatInt at hc
    split at hc
    · rcases List.mem_cons.1 hc with h | h
      · exact Or.inl h
      · exact Or.inr ((toDigits_spec _).2.1 c h)
    · exact Or.inr ((toDigits_spec _).2.1 c hc)
  rcases key with h | h
  · subst h; decide
  · constructor <;> (intro hc2; subst hc2; revert h; decide)

theorem formatInt_injective (a b : Int) (h : formatInt a = formatInt b) : a = b := by
  have hda := toDigits_spec a.natAbs
  have hdb := toDigits_spec b.natAbs
  have hhead : ∀ n : Nat, ∀ t, Nat.toDigits 10 n ≠ '-' :: t := by
    intro n t ht
    have := (toDigits_spec n).2.1 '-' (by rw [ht]; simp)
    revert this; decide
  unfold formatInt at h
  split at h <;> split at h
  · have h2 : Nat.toDigits 10 a.natAbs = Nat.toDigits 10 b.natAbs := by
      injection h
    have h3 : a.natAbs = b.natAbs := by
      rw [← hda.2.2, ← hdb.2.2, h2]
    omega
  · exact absurd h.symm (hhead _ _)
  · exact absurd h (hhead _ _)
  · have h3 : a.natAbs = b.natAbs := by
      rw [← hda.2.2, ← hdb.2.2, h]
    omega

theorem append_cons_inj_of_not_mem {α : Type} (c : α) (s1 s2 t1 t2 : List α)
    (h1 : c ∉ s1) (h2 : c ∉ s2) (h : s1 ++ c :: t1 = s2 ++ c :: t2) : s1 = s2 ∧ t1 = t2 := by
  induction s1 generalizing s2 with
  | nil =>
    cases s2 with
    | nil => simpa using h
    | cons b s2 =>
      simp at h
      exact absurd h.1 (by intro hb; apply h2; simp [hb])
  | cons a s1 ih =>
    cases s2 with
    | nil =>
      simp at h
      exact absurd h.1.symm (by intro hb; apply h1; simp [hb])
    | cons b s2 =>
      simp at h
      obtain ⟨hab, hrest⟩ := h
      have := ih s2 (by intro hm; apply h1; simp [hm]) (by intro hm; apply h2; simp [hm]) hrest
      exact ⟨by rw [hab, this.1], this.2⟩

theorem joinSpace_chars (l : List Int) (c : Char) (hc : c ∈ joinSpace (l.map formatInt)) :
    c ≠ ']' := by
  induction l with
  | nil => simp [joinSpace] at hc
  | cons a rest ih =>
    cases rest with
    | nil =>
      simp [joinSpace] at hc
      exact (formatInt_chars a c hc).2
    | cons b rest =>
      simp only [List.map_cons, joinSpace, List.mem_append, List.mem_cons] at hc
      rcases hc with hc | hc | hc
      · exact (formatInt_chars a c hc).2
      · subst hc; decide
      · exact ih (by simpa [joinSpace] using hc)

theorem joinSpace_ne_nil (a : Int) (rest : List Int) :
    joinSpace ((a :: rest).map formatInt) ≠ [] := by
  cases rest with
  | nil => simpa [joinSpace] using formatInt_ne_nil a
  | cons b rest => simp [joinSpace]

theorem joinSpace_cons_cons (a b : Int) (rest : List Int) :
    joinSpace ((a :: b :: rest).map formatInt) =
      formatInt a ++ ' ' :: joinSpace ((b :: rest).map formatInt) := by
  simp [joinSpace]

theorem joinSpace_injective (l1 l2 : List Int)
    (h : joinSpace (l1.map formatInt) = joinSpace (l2.map formatInt)) : l1 = l2 := by
  have hsp : ∀ n : Int, ' ' ∉ formatInt n := fun n hm => (formatInt_chars n ' ' hm).1 rfl
  induction l1 generalizing l2 with
  | nil =>
    cases l2 with
    | nil => rfl
    | cons b r2 => exact absurd h.symm (joinSpace_ne_nil b r2)
  | cons a r1 ih =>
    cases l2 with
    | nil => exact absurd h (joinSpace_ne_nil a r1)
    | cons b r2 =>
      cases r1 with
      | nil =>
        cases r2 with
        | nil =>
          simp [joinSpace] at h
          rw [formatInt_injective a b h]
        | cons b2 r2 =>
          rw [joinSpace_cons_cons] at h
          have hm : ' ' ∈ formatInt a := by
            have : joinSpace ([a].map formatInt) = formatInt a := by simp [joinSpace]
            rw [← this, h]; simp
          exact absurd hm (hsp a)
      | cons a2 r1 =>
        cases r2 with
        | nil =>
          rw [joinSpace_cons_cons] at h
          have hm : ' ' ∈ formatInt b := by
            have : joinSpace ([b].map formatInt) = formatInt b := by simp [joinSpace]
            rw [← this, ← h]; simp
          exact absurd hm (hsp b)
        | cons b2 r2 =>
          rw [joinSpace_cons_cons, joinSpace_cons_cons] at h
          obtain ⟨h1, h2⟩ := append_cons_inj_of_not_mem ' ' _ _ _ _ (hsp a) (hsp b) h
          rw [formatInt_injective a b h1, ih (b2 :: r2) h2]

theorem cacheKey_injective (l1 r1 l2 r2 : List Int) (h : cacheKey l1 r1 = cacheKey l2 r2) :
    l1 = l2 ∧ r1 = r2 := by
  unfold cacheKey formatSlice at h
  simp only [List.cons_append, List.append_assoc, List.singleton_append, List.cons.injEq,
    true_and] at h
  have hn : ∀ l : List Int, ']' ∉ joinSpace (l.map formatInt) :=
    fun l hm => joinSpace_chars l ']' hm rfl
  obtain ⟨h1, h2⟩ := append_cons_inj_of_not_mem ']' _ _ _ _ (hn l1) (hn l2) h
  have h3 : joinSpace (r1.map formatInt) = joinSpace (r2.map formatInt) := by
    simp only [List.nil_append, List.cons.injEq, true_and] at h2
    exact List.append_cancel_right h2
  exact ⟨joinSpace_injective l1 l2 h1, joinSpace_injective r1 r2 h3⟩

/-! ## The cache -/

theorem cacheSound_nil : CacheSound [] := by
  intro l r v h
  simp at h

theorem cacheSound_cons (cache : List (GoString × Int)) (l r : List Int) (d : Int)
    (hc : CacheSound cache) (hd : xorLoop l r 0 0 = .ok d) :
    CacheSound ((cacheKey l r, d) :: cache) := by
  intro l2 r2 v h
  rw [List.lookup_cons] at h
  split at h
  · rename_i heq
    have hk : cacheKey l2 r2 = cacheKey l r := by simpa using heq
    obtain ⟨h1, h2⟩ := cacheKey_injective _ _ _ _ hk
    injection h with h
    subst h1; subst h2; subst h
    exact hd
  · exact hc l2 r2 v h

theorem xorBinary_sound (l r : List Int) (cache cache1 : List (GoString × Int)) (v : Int)
    (hc : CacheSound cache) (h : xorBinary l r cache = .ok (v, cache1)) :
    xorLoop l r 0 0 = .ok v ∧ CacheSound cache1 := by
  unfold xorBinary at h
  simp only at h
  split at h
  · rename_i v0 hv
    injection h with h
    injection h with h1 h2
    subst h1; subst h2
    exact ⟨hc l r _ hv, hc⟩
  · split at h
    · cases h
    · rename_i d hd
      injection h with h
      injection h with h1 h2
      subst h1; subst h2
      exact ⟨hd, cacheSound_cons cache l r _ hc hd⟩

theorem xorBinary_total (l r : List Int) (cache : List (GoString × Int))
    (h : l.length ≤ r.length) : ∃ res, xorBinary l r cache = .ok res := by
  unfold xorBinary
  simp only
  split
  · exact ⟨_, rfl⟩
  · rw [xorLoop_ok l r 0 0 (by omega)]
    exact ⟨_, rfl⟩

theorem xorBinary_fault (l r : List Int) (cache : List (GoString × Int)) (e : Fault)
    (h : xorBinary l r cache = .error e) : e = .indexOutOfRange := by
  unfold xorBinary at h
  simp only at h
  split at h
  · cases h
  · split at h
    · rename_i e1 he
      injection h with h
      subst h
      exact xorLoop_fault _ _ _ _ _ he
    · cases h

/-! ## The merge loop -/

theorem andLoop_spec (rest right : List Int) (i : Nat) (left : List Int)
    (hr : ∀ j (hj : j < rest.length), right[i + j]? = some rest[j])
    (hl : i + rest.length ≤ left.length) :
    andLoop rest right i left =
      .ok (left.take i ++ List.replicate rest.length 1 ++ left.drop (i + rest.length)) := by
  induction rest generalizing i left with
  | nil => simp [andLoop]
  | cons a rest ih =>
    have h0 := hr 0 (by simp)
    simp only [Nat.add_zero, List.getElem_cons_zero] at h0
    simp only [List.length_cons] at hl
    have hi : i < left.length := by omega
    rw [andLoop, h0]
    simp only [if_true, if_pos hi]
    rw [ih (i + 1) (left.set i 1)]
    · congr 1
      have e1 : (left.set i 1).take (i + 1) = left.take i ++ [1] := by
        rw [List.set_eq_take_append_cons_drop, if_pos hi, List.take_append_eq_append_take]
        simp [List.length_take, Nat.min_eq_left (Nat.le_of_lt hi)]
      have e2 : (left.set i 1).drop (i + 1 + rest.length) = left.drop (i + (rest.length + 1)) := by
        rw [List.drop_set_of_lt _ _ (by omega)]
        congr 1; omega
      rw [e1, e2]
      simp [List.replicate_succ]
    · intro j hj
      have := hr (j + 1) (by simpa using hj)
      simpa [Nat.add_assoc, Nat.add_comm 1 j] using this
    · rw [List.length_set]; omega

theorem andBinary_ok (left right : List Int) (h : right.length ≤ left.length) :
    andBinary left right = .ok (List.replicate right.length 1 ++ left.drop right.length) := by
  unfold andBinary
  rw [andLoop_spec right right 0 left (by intro j hj; simp [List.getElem?_eq_getElem hj])
    (by omega)]
  simp

theorem andLoop_fault (rest right : List Int) (i : Nat) (left : List Int) (e : Fault)
    (h : andLoop rest right i left = .error e) : e = .indexOutOfRange := by
  induction rest generalizing i left with
  | nil => simp [andLoop] at h
  | cons a rest ih =>
    rw [andLoop] at h
    split at h
    · injection h with h; exact h.symm
    · split at h
      · split at h
        · exact ih _ _ h
        · injection h with h; exact h.symm
      · exact ih _ _ h

theorem andLoop_length (rest right : List Int) (i : Nat) (left code : List Int)
    (h : andLoop rest right i left = .ok code) : code.length = left.length := by
  induction rest generalizing i left with
  | nil =>
    simp [andLoop] at h
    rw [h]
  | cons a rest ih =>
    rw [andLoop] at h
    split at h
    · cases h
    · split at h
      · split at h
        · rw [ih _ _ h]; simp
        · cases h
      · exact ih _ _ h

/-! ## Sampling -/

theorem getRandomPizza_eq (pizzas : List Pizza) (w : World) (p : Pizza) (index : Nat) (w1 : World)
    (h : getRandomPizza pizzas w = .ok (p, index, w1)) :
    index = sampledIndex w pizzas.length 0 ∧ pizzas[index]? = some p ∧
      w1 = { w with pos := w.pos + 1 } := by
  unfold getRandomPizza intn at h
  split at h
  · cases h
  · rename_i idx w2 hw
    split at hw
    · cases hw
    · injection hw with hw
      injection hw with h1 h2
      split at h
      · cases h
      · rename_i q hq
        injection h with h
        injection h with h3 h4
        injection h4 with h4 h5
        subst h1 h2 h3 h4 h5
        exact ⟨by simp [sampledIndex], hq, rfl⟩

theorem getRandomPizza_total (pizzas : List Pizza) (w : World) (h : pizzas ≠ []) :
    ∃ res, getRandomPizza pizzas w = .ok res := by
  have hlen : 0 < pizzas.length := List.length_pos.2 h
  have hidx : w.draws w.pos % pizzas.length < pizzas.length := Nat.mod_lt _ hlen
  unfold getRandomPizza intn
  rw [if_neg (by omega)]
  simp only
  rw [List.getElem?_eq_getElem hidx]
  exact ⟨_, rfl⟩

theorem getRandomPizza_fault (pizzas : List Pizza) (w : World) (e : Fault)
    (h : getRandomPizza pizzas w = .error e) : e ≠ .fuelExhausted := by
  unfold getRandomPizza intn at h
  split at h
  · rename_i e1 he
    split at he
    · injection he with he
      injection h with h
      subst he; subst h
      simp
    · cases he
  · split at h
    · injection h with h
      subst h; simp
    · cases h

theorem sampleLoop_inv (n : Nat) (code : List Int) (pizzas : List Pizza) (best : Best) (w : World)
    (best1 : Best) (w1 : World) (h : sampleLoop n code pizzas best w = .ok (best1, w1))
    (hb : pizzas[best.bestPizzaIndex]? = some best.bestPizza) :
    pizzas[best1.bestPizzaIndex]? = some best1.bestPizza ∧ w1.sampleSize = w.sampleSize ∧
      w1.draws = w.draws ∧ w1.pos = w.pos + n ∧
      (CacheSound w.xorBinaryCache → CacheSound w1.xorBinaryCache) := by
  induction n generalizing best w with
  | zero =>
    simp only [sampleLoop] at h
    injection h with h
    injection h with h1 h2
    subst h1; subst h2
    exact ⟨hb, rfl, rfl, rfl, id⟩
  | succ n ih =>
    rw [sampleLoop] at h
    split at h
    · cases h
    · rename_i p index w2 hg
      obtain ⟨hidx, hp, hw2⟩ := getRandomPizza_eq _ _ _ _ _ hg
      split at h
      · cases h
      · rename_i d cache hx
        have hsound : CacheSound w.xorBinaryCache → CacheSound cache := by
          intro hc
          have hc2 : CacheSound w2.xorBinaryCache := by rw [hw2]; exact hc
          exact (xorBinary_sound _ _ _ _ _ hc2 hx).2
        simp only at h
        split at h
        · obtain ⟨r1, r2, r3, r4, r5⟩ := ih _ _ h hp
          refine ⟨r1, ?_, ?_, ?_, fun hc => r5 (hsound hc)⟩
          · rw [r2, hw2]
          · rw [r3, hw2]
          · rw [r4, hw2]; simp; omega
        · obtain ⟨r1, r2, r3, r4, r5⟩ := ih _ _ h hb
          refine ⟨r1, ?_, ?_, ?_, fun hc => r5 (hsound hc)⟩
          · rw [r2, hw2]
          · rw [r3, hw2]
          · rw [r4, hw2]; simp; omega

theorem sampleLoop_fault (n : Nat) (code : List Int) (pizzas : List Pizza) (best : Best)
    (w : World) (e : Fault) (h : sampleLoop n code pizzas best w = .error e) :
    e ≠ .fuelExhausted := by
  induction n generalizing best w with
  | zero => simp [sampleLoop] at h
  | succ n ih =>
    rw [sampleLoop] at h
    split at h
    · rename_i e1 he
      injection h with h
      subst h
      exact getRandomPizza_fault _ _ _ he
    · split at h
      · rename_i e1 he
        injection h with h
        subst h
        rw [xorBinary_fault _ _ _ _ he]
        simp
      · simp only at h
        split at h
        · exact ih _ _ h
        · exact ih _ _ h

theorem sampleLoop_total (n : Nat) (code : List Int) (pizzas : List Pizza) (best : Best)
    (w : World) (hne : pizzas ≠ [])
    (hlen : ∀ p ∈ pizzas, code.length ≤ p.binaryCode.length) :
    ∃ res, sampleLoop n code pizzas best w = .ok res := by
  induction n generalizing best w with
  | zero => exact ⟨_, rfl⟩
  | succ n ih =>
    obtain ⟨⟨p, index, w2⟩, hg⟩ := getRandomPizza_total pizzas w hne
    have hp := (getRandomPizza_eq _ _ _ _ _ hg).2.1
    have hmem : p ∈ pizzas := List.getElem?_mem hp
    obtain ⟨⟨d, cache⟩, hx⟩ := xorBinary_total code p.binaryCode w2.xorBinaryCache (hlen p hmem)
    rw [sampleLoop, hg]
    simp only
    rw [hx]
    simp only
    split
    · exact ih _ _
    · exact ih _ _

theorem sampledIndex_succ (w : World) (len j : Nat) :
    sampledIndex { w with pos := w.pos + 1 } len j = sampledIndex w len (j + 1) := by
  simp [sampledIndex, Nat.add_assoc, Nat.add_comm 1 j]

theorem xorBinary_distance (code : List Int) (pizzas : List Pizza) (index : Nat) (p : Pizza)
    (cache cache1 : List (GoString × Int)) (d : Int) (hp : pizzas[index]? = some p)
    (hc : CacheSound cache) (hlen : code.length ≤ p.binaryCode.length)
    (hx : xorBinary code p.binaryCode cache = .ok (d, cache1)) :
    d = distAt code pizzas index := by
  have h1 := (xorBinary_sound _ _ _ _ _ hc hx).1
  rw [xorLoop_ok code p.binaryCode 0 0 (by omega)] at h1
  injection h1 with h1
  simp only [distAt, hp]
  simpa using h1.symm

theorem sampleLoop_select (n : Nat) (code : List Int) (pizzas : List Pizza) (best : Best)
    (w : World) (best1 : Best) (w1 : World)
    (h : sampleLoop n code pizzas best w = .ok (best1, w1))
    (hc : CacheSound w.xorBinaryCache)
    (hlen : ∀ p ∈ pizzas, code.length ≤ p.binaryCode.length) :
    (best1 = best ∧
      ∀ j, j < n → distAt code pizzas (sampledIndex w pizzas.length j) ≤ best.maxDifference) ∨
    (∃ j, j < n ∧ best1.bestPizzaIndex = sampledIndex w pizzas.length j ∧
      pizzas[best1.bestPizzaIndex]? = some best1.bestPizza ∧
      best1.maxDifference = distAt code pizzas best1.bestPizzaIndex ∧
      best.maxDifference < best1.maxDifference ∧
      (∀ j2, j2 < j →
        distAt code pizzas (sampledIndex w pizzas.length j2) < best1.maxDifference) ∧
      (∀ j2, j2 < n →
        distAt code pizzas (sampledIndex w pizzas.length j2) ≤ best1.maxDifference)) := by
  induction n generalizing best w with
  | zero =>
    simp only [sampleLoop] at h
    injection h with h
    injection h with h1 h2
    exact Or.inl ⟨h1.symm, fun j hj => absurd hj (Nat.not_lt_zero j)⟩
  | succ n ih =>
    rw [sampleLoop] at h
    split at h
    · cases h
    · rename_i p index w2 hg
      obtain ⟨hidx, hp, hw2⟩ := getRandomPizza_eq _ _ _ _ _ hg
      split at h
      · cases h
      · rename_i d cache hx
        have hc2 : CacheSound w2.xorBinaryCache := by rw [hw2]; exact hc
        have hc3 : CacheSound cache := (xorBinary_sound _ _ _ _ _ hc2 hx).2
        have hd : d = distAt code pizzas index :=
          xorBinary_distance code pizzas index p _ _ d hp hc2 (hlen p (List.getElem?_mem hp)) hx
        have hshift : ∀ j, sampledIndex { w2 with xorBinaryCache := cache } pizzas.length j =
            sampledIndex w pizzas.length (j + 1) := by
          intro j
          rw [hw2]
          exact sampledIndex_succ w pizzas.length j
        simp only at h
        split at h
        · rename_i hgt
          rcases ih _ _ h hc3 with ⟨heq, hall⟩ | ⟨j, hj, h1, h2, h3, h4, h5, h6⟩
          · refine Or.inr ⟨0, Nat.succ_pos n, ?_, ?_, ?_, ?_, ?_, ?_⟩
            · rw [heq]; exact hidx
            · rw [heq]; exact hp
            · rw [heq]; exact hd
            · rw [heq]; exact hgt
            · intro j2 hj2; exact absurd hj2 (Nat.not_lt_zero j2)
            · intro j2 hj2
              rw [heq]
              cases j2 with
              | zero => rw [← hidx, ← hd]
              | succ k =>
                have := hall k (by omega)
                rw [hshift] at this
                exact this
          · refine Or.inr ⟨j + 1, by omega, ?_, h2, h3, ?_, ?_, ?_⟩
            · rw [h1, hshift]
            · simp only at h4; omega
            · intro j2 hj2
              cases j2 with
              | zero =>
                rw [← hidx, ← hd]
                exact h4
              | succ k =>
                have := h5 k (by omega)
                rw [hshift] at this
                exact this
            · intro j2 hj2
              cases j2 with
              | zero =>
                rw [← hidx, ← hd]
                exact le_of_lt h4
              | succ k =>
                have := h6 k (by omega)
                rw [hshift] at this
                exact this
        · rename_i hle
          rcases ih _ _ h hc3 with ⟨heq, hall⟩ | ⟨j, hj, h1, h2, h3, h4, h5, h6⟩
          · refine Or.inl ⟨heq, ?_⟩
            intro j2 hj2
            cases j2 with
            | zero =>
              rw [← hidx, ← hd]
              omega
            | succ k =>
              have := hall k (by omega)
              rw [hshift] at this
              exact this
          · refine Or.inr ⟨j + 1, by omega, ?_, h2, h3, h4, ?_, ?_⟩
            · rw [h1, hshift]
            · intro j2 hj2
              cases j2 with
              | zero =>
                rw [← hidx, ← hd]
                omega
              | succ k =>
                have := h5 k (by omega)
                rw [hshift] at this
                exact this
            · intro j2 hj2
              cases j2 with
              | zero =>
                rw [← hidx, ← hd]
                omega
              | succ k =>
                have := h6 k (by omega)
                rw [hshift] at this
                exact this

/-! ## One assignment step -/

theorem shareCode_length (teamPizzas : List Pizza) (code : List Int) :
    (shareCode teamPizzas code).length = teamPizzas.length := by
  cases teamPizzas <;> simp [shareCode]

theorem ids_shareCode (teamPizzas : List Pizza) (code : List Int) :
    ids (shareCode teamPizzas code) = ids teamPizzas := by
  cases teamPizzas <;> simp [shareCode, ids]

theorem deliverFirstPizza_ok (team team1 : Team) (pizzas pizzas1 : List Pizza)
    (h : deliverFirstPizza team pizzas = .ok (team1, pizzas1)) :
    ∃ pizza, pizzas[0]? = some pizza ∧ removePizza pizzas 0 = .ok pizzas1 ∧
      team1 = { team with pizzas := team.pizzas ++ [pizza], binaryCode := pizza.binaryCode } := by
  unfold deliverFirstPizza at h
  split at h
  · cases h
  · rename_i pizza hp
    simp only at h
    split at h
    · cases h
    · rename_i rest hr
      injection h with h
      injection h with h1 h2
      subst h2
      exact ⟨pizza, hp, hr, h1.symm⟩

theorem deliverFirstPizza_total (team : Team) (pizzas : List Pizza) (h : pizzas ≠ []) :
    ∃ res, deliverFirstPizza team pizzas = .ok res := by
  have hlen : 0 < pizzas.length := List.length_pos.2 h
  obtain ⟨rest, hr⟩ := removePizza_of_lt pizzas 0 hlen
  unfold deliverFirstPizza
  rw [List.getElem?_eq_getElem hlen]
  simp only
  rw [hr]
  exact ⟨_, rfl⟩

theorem removePizza_fault (pizzas : List Pizza) (i : Nat) (e : Fault)
    (h : removePizza pizzas i = .error e) : e = .indexOutOfRange := by
  unfold removePizza at h
  simp only at h
  split at h
  · injection h with h; exact h.symm
  · split at h
    · injection h with h; exact h.symm
    · split at h
      · cases h
      · injection h with h; exact h.symm

theorem deliverFirstPizza_fault (team : Team) (pizzas : List Pizza) (e : Fault)
    (h : deliverFirstPizza team pizzas = .error e) : e = .indexOutOfRange := by
  unfold deliverFirstPizza at h
  split at h
  · injection h with h; exact h.symm
  · simp only at h
    split at h
    · rename_i e1 he
      injection h with h
      subst h
      exact removePizza_fault _ _ _ he
    · cases h

theorem deliverNextPizza_ok (team team1 : Team) (pizzas pizzas1 : List Pizza) (w w1 : World)
    (h : deliverNextPizza team pizzas w = .ok (team1, pizzas1, w1)) :
    ∃ first best, pizzas[0]? = some first ∧
      sampleLoop w.sampleSize.toNat team.binaryCode pizzas ⟨first, 0, 0⟩ w = .ok (best, w1) ∧
      andBinary team.binaryCode best.bestPizza.binaryCode = .ok team1.binaryCode ∧
      team1.pizzas = shareCode team.pizzas team1.binaryCode ++ [best.bestPizza] ∧
      team1.size = team.size ∧
      team1.isComplete =
        (if ((team.pizzas.length + 1 : Nat) : Int) = team.size then true else team.isComplete) ∧
      removePizza pizzas best.bestPizzaIndex = .ok pizzas1 := by
  unfold deliverNextPizza at h
  split at h
  · cases h
  · rename_i first hf
    split at h
    · cases h
    · rename_i best w2 hs
      split at h
      · cases h
      · rename_i code ha
        simp only at h
        split at h
        · cases h
        · rename_i rest hr
          injection h with h
          injection h with h1 h2
          injection h2 with h2 h3
          subst h1 h2 h3
          refine ⟨first, best, hf, hs, ha, rfl, rfl, ?_, hr⟩
          simp [shareCode_length]

theorem deliverNextPizza_fault (team : Team) (pizzas : List Pizza) (w : World) (e : Fault)
    (h : deliverNextPizza team pizzas w = .error e) : e ≠ .fuelExhausted := by
  unfold deliverNextPizza at h
  split at h
  · injection h with h; subst h; simp
  · split at h
    · rename_i e1 he
      injection h with h
      subst h
      exact sampleLoop_fault _ _ _ _ _ _ he
    · split at h
      · rename_i e1 he
        injection h with h
        subst h
        rw [andLoop_fault _ _ _ _ _ he]
        simp
      · simp only at h
        split at h
        · rename_i e1 he
          injection h with h
          subst h
          rw [removePizza_fault _ _ _ he]
          simp
        · cases h

/-- What one call of `deliverNextPizza` does to the team and the pool, whenever it returns. -/
theorem deliverNextPizza_step (team team1 : Team) (pizzas pizzas1 : List Pizza) (w w1 : World)
    (h : deliverNextPizza team pizzas w = .ok (team1, pizzas1, w1)) :
    ∃ (chosen : Pizza) (index : Nat), pizzas[index]? = some chosen ∧
      (chosen :: pizzas1).Perm pizzas ∧
      pizzas1.length + 1 = pizzas.length ∧
      team1.pizzas = shareCode team.pizzas team1.binaryCode ++ [chosen] ∧
      team1.size = team.size ∧
      team1.isComplete =
        (if ((team.pizzas.length + 1 : Nat) : Int) = team.size then true else team.isComplete) ∧
      team1.binaryCode.length = team.binaryCode.length ∧
      w1.sampleSize = w.sampleSize ∧ w1.draws = w.draws ∧
      (CacheSound w.xorBinaryCache → CacheSound w1.xorBinaryCache) ∧
      andBinary team.binaryCode chosen.binaryCode = .ok team1.binaryCode := by
  obtain ⟨first, best, hf, hs, ha, hp, hsz, hcomp, hr⟩ := deliverNextPizza_ok _ _ _ _ _ _ h
  obtain ⟨i1, i2, i3, _, i5⟩ := sampleLoop_inv _ _ _ _ _ _ _ hs hf
  obtain ⟨q, hq, hperm, hlen⟩ := removePizza_ok hr
  have hqb : q = best.bestPizza := by
    rw [i1] at hq
    exact (Option.some.inj hq).symm
  subst hqb
  exact ⟨best.bestPizza, best.bestPizzaIndex, i1, hperm, hlen, hp, hsz, hcomp,
    andLoop_length _ _ _ _ _ ha, i2, i3, i5, ha⟩

theorem deliverNextPizza_total (team : Team) (pizzas : List Pizza) (w : World) (len : Nat)
    (hne : pizzas ≠ []) (hu : Uniform len pizzas) (hc : team.binaryCode.length = len) :
    ∃ res, deliverNextPizza team pizzas w = .ok res := by
  have hlen : 0 < pizzas.length := List.length_pos.2 hne
  obtain ⟨⟨best, w2⟩, hs⟩ := sampleLoop_total w.sampleSize.toNat team.binaryCode pizzas
    ⟨pizzas[0], 0, 0⟩ w hne (by intro p hp; rw [hu p hp, hc])
  obtain ⟨i1, -⟩ := sampleLoop_inv _ _ _ _ _ _ _ hs (List.getElem?_eq_getElem hlen)
  have hmem : best.bestPizza ∈ pizzas := List.getElem?_mem i1
  have hidx : best.bestPizzaIndex < pizzas.length := by
    by_contra hcon
    rw [List.getElem?_eq_none (Nat.le_of_not_lt hcon)] at i1
    cases i1
  obtain ⟨rest, hr⟩ := removePizza_of_lt pizzas _ hidx
  unfold deliverNextPizza
  rw [List.getElem?_eq_getElem hlen]
  simp only
  rw [hs]
  simp only
  rw [andBinary_ok _ _ (by rw [hu _ hmem, hc])]
  simp only
  rw [hr]
  exact ⟨_, rfl⟩

/-! ## Assembling one team: the loop of `deliverPizzas` -/

theorem deliverLoop_assembly (team0 : Team) (pizzas0 : List Pizza) (w0 : World) (fuel : Nat)
    (team : Team) (pizzas : List Pizza) (w : World) (res : Team × List Pizza × World)
    (ha : Assembly team0 pizzas0 w0 true team pizzas w)
    (h : deliverLoop fuel team pizzas w = .ok res) :
    Assembly team0 pizzas0 w0 false res.1 res.2.1 res.2.2 := by
  induction fuel generalizing team pizzas w with
  | zero => simp [deliverLoop] at h
  | succ fuel ih =>
    rw [deliverLoop] at h
    split at h
    · cases h
    · rename_i team1 pizzas1 w1 hn
      have hstep := Assembly.next team team1 pizzas pizzas1 w w1 ha hn
      split at h
      · rename_i hexit
        injection h with h
        subst h
        have hb : (!(team1.isComplete || decide (pizzas1.length = 0))) = false :=
          (Bool.not_eq_false' _).mpr hexit
        rw [hb] at hstep
        exact hstep
      · rename_i hexit
        have hb : (!(team1.isComplete || decide (pizzas1.length = 0))) = true :=
          (Bool.not_eq_true' _).mpr (Bool.eq_false_iff.2 hexit)
        rw [hb] at hstep
        exact ih _ _ _ hstep h

/-- Whatever `deliverPizzas` returns is a returning state of the step relation. -/
theorem deliverPizzas_assembly (team0 : Team) (pizzas0 : List Pizza) (w0 : World)
    (res : Team × List Pizza × World) (h : deliverPizzas team0 pizzas0 w0 = .ok res) :
    Assembly team0 pizzas0 w0 false res.1 res.2.1 res.2.2 := by
  unfold deliverPizzas at h
  split at h
  · rename_i hempty
    split at h
    · cases h
    · rename_i team1 pizzas1 hf
      have hseed := @Assembly.seed team0 pizzas0 w0 team1 pizzas1 hempty hf
      split at h
      · rename_i hz
        injection h with h
        subst h
        have hb : decide (pizzas1.length ≠ 0) = false := by simpa using hz
        rw [hb] at hseed
        exact hseed
      · rename_i hz
        have hb : decide (pizzas1.length ≠ 0) = true := by simpa using hz
        rw [hb] at hseed
        exact deliverLoop_assembly _ _ _ _ _ _ _ _ hseed h
  · rename_i hne
    exact deliverLoop_assembly _ _ _ _ _ _ _ _ (Assembly.entry hne) h

theorem deliverLoop_fault (fuel : Nat) (team : Team) (pizzas : List Pizza) (w : World)
    (hf : pizzas.length < fuel) : deliverLoop fuel team pizzas w ≠ .error .fuelExhausted := by
  induction fuel generalizing team pizzas w with
  | zero => omega
  | succ fuel ih =>
    rw [deliverLoop]
    split
    · rename_i e he
      intro hc
      injection hc with hc
      exact deliverNextPizza_fault _ _ _ _ he hc
    · rename_i team1 pizzas1 w1 hn
      obtain ⟨_, _, _, _, hlen, _⟩ := deliverNextPizza_step _ _ _ _ _ _ hn
      split
      · simp
      · exact ih _ _ _ (by omega)

/-- The bound put on the loop of `deliverPizzas` is never reached. -/
theorem deliverPizzas_ne_fuelExhausted (team : Team) (pizzas : List Pizza) (w : World) :
    deliverPizzas team pizzas w ≠ .error .fuelExhausted := by
  unfold deliverPizzas
  split
  · split
    · rename_i e he
      intro hc
      injection hc with hc
      subst hc
      have := deliverFirstPizza_fault _ _ _ he
      cases this
    · split
      · simp
      · exact deliverLoop_fault _ _ _ _ (by omega)
  · exact deliverLoop_fault _ _ _ _ (by omega)

/-- Facts that hold in every state of an assembly, whatever the team and the pool. -/
theorem assembly_frame (team0 : Team) (pizzas0 : List Pizza) (w0 : World) (running : Bool)
    (team : Team) (pizzas : List Pizza) (w : World)
    (h : Assembly team0 pizzas0 w0 running team pizzas w) :
    team.size = team0.size ∧
      (ids team.pizzas ++ ids pizzas).Perm (ids team0.pizzas ++ ids pizzas0) ∧
      (∀ p ∈ pizzas, p ∈ pizzas0) ∧
      w.sampleSize = w0.sampleSize ∧ w.draws = w0.draws ∧
      (CacheSound w0.xorBinaryCache → CacheSound w.xorBinaryCache) := by
  induction h with
  | entry _ => exact ⟨rfl, List.Perm.refl _, fun _ hp => hp, rfl, rfl, id⟩
  | seed team1 pizzas1 hempty hf =>
    obtain ⟨pizza, hp, hr, ht⟩ := deliverFirstPizza_ok _ _ _ _ hf
    obtain ⟨q, hq, hperm, _⟩ := removePizza_ok hr
    have hqp : q = pizza := by
      rw [hp] at hq
      exact (Option.some.inj hq).symm
    subst hqp
    subst ht
    refine ⟨rfl, ?_, ?_, rfl, rfl, id⟩
    · have h1 : (ids (q :: pizzas1)).Perm (ids pizzas0) := List.Perm.map _ hperm
      simp only [ids, List.map_append, List.map_cons, List.map_nil, List.append_assoc,
        List.singleton_append] at h1 ⊢
      exact List.Perm.append_left _ h1
    · intro p hp2
      exact hperm.subset (List.mem_cons_of_mem _ hp2)
  | next team team1 pizzas pizzas1 w w1 _ hn ih =>
    obtain ⟨i1, i2, i3, i4, i5, i6⟩ := ih
    obtain ⟨chosen, index, _, hperm, _, hps, hsz, _, _, s1, s2, s3, _⟩ :=
      deliverNextPizza_step _ _ _ _ _ _ hn
    refine ⟨by rw [hsz, i1], ?_, ?_, by rw [s1, i4], by rw [s2, i5], fun hc => s3 (i6 hc)⟩
    · refine List.Perm.trans ?_ i2
      have h1 : (ids (chosen :: pizzas1)).Perm (ids pizzas) := List.Perm.map _ hperm
      rw [hps]
      simp only [ids, List.map_append, List.map_cons, List.map_nil, List.append_assoc,
        List.singleton_append] at h1 ⊢
      have h2 := ids_shareCode team.pizzas team1.binaryCode
      simp only [ids] at h2
      rw [h2]
      exact List.Perm.append_left _ h1
    · intro p hp2
      exact i3 p (hperm.subset (List.mem_cons_of_mem _ hp2))

/-- Counting in every state of the assembly of a team that starts empty and not complete. -/
theorem assembly_count (team0 : Team) (pizzas0 : List Pizza) (w0 : World) (running : Bool)
    (team : Team) (pizzas : List Pizza) (w : World)
    (h : Assembly team0 pizzas0 w0 running team pizzas w)
    (hfresh : team0.pizzas = []) (hnc : team0.isComplete = false) :
    1 ≤ team.pizzas.length ∧ team.pizzas.length + pizzas.length = pizzas0.length ∧
      (team.isComplete = true → (team.pizzas.length : Int) = team0.size) ∧
      (running = true → team.isComplete = false ∧ pizzas ≠ []) ∧
      (running = false → team.isComplete = true ∨ pizzas = []) := by
  induction h with
  | entry hne => simp [hfresh] at hne
  | seed team1 pizzas1 hempty hf =>
    obtain ⟨pizza, hp, hr, ht⟩ := deliverFirstPizza_ok _ _ _ _ hf
    obtain ⟨q, hq, hperm, hlen⟩ := removePizza_ok hr
    subst ht
    simp only [hfresh, List.nil_append, List.length_singleton, hnc]
    refine ⟨le_refl _, by omega, by simp, ?_, ?_⟩
    · intro hrun
      have : pizzas1.length ≠ 0 := by simpa using hrun
      exact ⟨by trivial, fun hnil => this (by rw [hnil]; rfl)⟩
    · intro hrun
      have : pizzas1.length = 0 := by simpa using hrun
      exact Or.inr (List.length_eq_zero.1 this)
  | next team team1 pizzas pizzas1 w w1 _ hn ih =>
    obtain ⟨i1, i2, i3, i4, i5⟩ := ih
    obtain ⟨hnc1, hne1⟩ := i4 rfl
    obtain ⟨chosen, index, _, hperm, hlen, hps, hsz, hcomp, _⟩ :=
      deliverNextPizza_step _ _ _ _ _ _ hn
    have hsize := (assembly_frame _ _ _ _ _ _ _ ‹Assembly team0 pizzas0 w0 true team pizzas w›).1
    have hcnt : team1.pizzas.length = team.pizzas.length + 1 := by
      rw [hps]; simp [shareCode_length]
    rw [hnc1, hsize] at hcomp
    refine ⟨by omega, by omega, ?_, ?_, ?_⟩
    · intro hc
      rw [hcomp] at hc
      split at hc
      · rename_i heq
        rw [hcnt]; exact heq
      · cases hc
    · intro hrun
      have hb : (team1.isComplete || decide (pizzas1.length = 0)) = false :=
        (Bool.not_eq_true' _).mp hrun
      rw [Bool.or_eq_false_iff] at hb
      refine ⟨hb.1, ?_⟩
      intro hnil
      have := hb.2
      simp [hnil] at this
    · intro hrun
      have hb : (team1.isComplete || decide (pizzas1.length = 0)) = true :=
        (Bool.not_eq_false' _).mp hrun
      rw [Bool.or_eq_true] at hb
      rcases hb with hb | hb
      · exact Or.inl hb
      · exact Or.inr (List.length_eq_zero.1 (by simpa using hb))

/-- A team of capacity at least two that starts empty and not complete never holds more pizzas
than its capacity, and is flagged complete exactly when it is full. -/
theorem assembly_capacity (team0 : Team) (pizzas0 : List Pizza) (w0 : World) (running : Bool)
    (team : Team) (pizzas : List Pizza) (w : World)
    (h : Assembly team0 pizzas0 w0 running team pizzas w)
    (hfresh : team0.pizzas = []) (hnc : team0.isComplete = false) (hsize : 2 ≤ team0.size) :
    (team.pizzas.length : Int) ≤ team0.size ∧
      (running = true → (team.pizzas.length : Int) < team0.size) ∧
      (team.isComplete = true ↔ (team.pizzas.length : Int) = team0.size) := by
  induction h with
  | entry hne => simp [hfresh] at hne
  | seed team1 pizzas1 hempty hf =>
    obtain ⟨pizza, hp, hr, ht⟩ := deliverFirstPizza_ok _ _ _ _ hf
    subst ht
    simp only [hfresh, List.nil_append, List.length_singleton, hnc]
    refine ⟨by omega, fun _ => by omega, ?_⟩
    constructor
    · intro hc; cases hc
    · intro hc; omega
  | next team team1 pizzas pizzas1 w w1 hprev hn ih =>
    obtain ⟨i1, i2, i3⟩ := ih
    have hlt := i2 rfl
    have hcount := assembly_count _ _ _ _ _ _ _ hprev hfresh hnc
    obtain ⟨hnc1, _⟩ := hcount.2.2.2.1 rfl
    obtain ⟨chosen, index, _, hperm, hlen, hps, hsz, hcomp, _⟩ :=
      deliverNextPizza_step _ _ _ _ _ _ hn
    have hsz0 := (assembly_frame _ _ _ _ _ _ _ hprev).1
    have hcnt : team1.pizzas.length = team.pizzas.length + 1 := by
      rw [hps]; simp [shareCode_length]
    rw [hnc1, hsz0] at hcomp
    have hiff : team1.isComplete = true ↔ (team1.pizzas.length : Int) = team0.size := by
      rw [hcomp, hcnt]
      constructor
      · intro hc
        split at hc
        · assumption
        · cases hc
      · intro hc
        rw [if_pos hc]
    refine ⟨by rw [hcnt]; push_cast; omega, ?_, hiff⟩
    intro hrun
    have hb : (team1.isComplete || decide (pizzas1.length = 0)) = false :=
      (Bool.not_eq_true' _).mp hrun
    rw [Bool.or_eq_false_iff] at hb
    have hne : ¬ (team1.pizzas.length : Int) = team0.size := by
      intro heq
      have := hiff.2 heq
      rw [hb.1] at this
      cases this
    rw [hcnt] at hne ⊢
    push_cast at hne ⊢
    omega

theorem deliverLoop_total (fuel : Nat) (team : Team) (pizzas : List Pizza) (w : World) (len : Nat)
    (hf : pizzas.length < fuel) (hne : pizzas ≠ []) (hu : Uniform len pizzas)
    (hc : team.binaryCode.length = len) :
    ∃ res, deliverLoop fuel team pizzas w = .ok res := by
  induction fuel generalizing team pizzas w with
  | zero => omega
  | succ fuel ih =>
    obtain ⟨⟨team1, pizzas1, w1⟩, hn⟩ := deliverNextPizza_total team pizzas w len hne hu hc
    obtain ⟨chosen, index, _, hperm, hlen, _, _, _, hcl, _⟩ :=
      deliverNextPizza_step _ _ _ _ _ _ hn
    rw [deliverLoop, hn]
    simp only
    split
    · exact ⟨_, rfl⟩
    · rename_i hexit
      have hb : (team1.isComplete || decide (pizzas1.length = 0)) = false :=
        Bool.eq_false_iff.2 hexit
      rw [Bool.or_eq_false_iff] at hb
      have hne1 : pizzas1 ≠ [] := by
        intro hnil
        have := hb.2
        simp [hnil] at this
      refine ih team1 pizzas1 w1 (by omega) hne1 ?_ (by rw [hcl, hc])
      intro p hp
      exact hu p (hperm.subset (List.mem_cons_of_mem _ hp))

/-- On a non-empty pool of vectors of one length, `deliverPizzas` returns for every team that
starts empty. -/
theorem deliverPizzas_total (team : Team) (pizzas : List Pizza) (w : World) (len : Nat)
    (hne : pizzas ≠ []) (hu : Uniform len pizzas) (hfresh : team.pizzas = []) :
    ∃ res, deliverPizzas team pizzas w = .ok res := by
  obtain ⟨⟨team1, pizzas1⟩, hf⟩ := deliverFirstPizza_total team pizzas hne
  obtain ⟨pizza, hp, hr, ht⟩ := deliverFirstPizza_ok _ _ _ _ hf
  obtain ⟨q, hq, hperm, hlen⟩ := removePizza_ok hr
  unfold deliverPizzas
  rw [if_pos (by rw [hfresh]; rfl), hf]
  simp only
  split
  · exact ⟨_, rfl⟩
  · rename_i hz
    refine deliverLoop_total _ team1 pizzas1 w len (by omega) ?_ ?_ ?_
    · intro hnil
      exact hz (by rw [hnil]; rfl)
    · intro p hp2
      exact hu p (hperm.subset (List.mem_cons_of_mem _ hp2))
    · rw [ht]
      exact hu pizza (List.getElem?_mem hp)

/-- The result of `deliverPizzas` on a team of capacity at least two that starts empty and not
complete: the team takes `min(size, len(pizzas))` pizzas and is complete exactly when the pool
held enough of them. -/
theorem deliverPizzas_fresh (team : Team) (pizzas : List Pizza) (w : World)
    (res : Team × List Pizza × World) (h : deliverPizzas team pizzas w = .ok res)
    (hfresh : team.pizzas = []) (hnc : team.isComplete = false) (hsize : 2 ≤ team.size) :
    res.1.size = team.size ∧ res.1.pizzas.length + res.2.1.length = pizzas.length ∧
      1 ≤ res.1.pizzas.length ∧
      (res.1.isComplete = true ↔ team.size ≤ (pizzas.length : Int)) ∧
      (team.size ≤ (pizzas.length : Int) → (res.1.pizzas.length : Int) = team.size) ∧
      ((pizzas.length : Int) < team.size → res.1.pizzas.length = pizzas.length) ∧
      (res.1.isComplete = false → res.2.1 = []) := by
  have ha := deliverPizzas_assembly _ _ _ _ h
  obtain ⟨f1, -⟩ := assembly_frame _ _ _ _ _ _ _ ha
  obtain ⟨c1, c2, c3, -, c5⟩ := assembly_count _ _ _ _ _ _ _ ha hfresh hnc
  obtain ⟨k1, -, k3⟩ := assembly_capacity _ _ _ _ _ _ _ ha hfresh hnc hsize
  have hexit := c5 rfl
  have hnot : res.1.isComplete = false → res.2.1 = [] := by
    intro hfalse
    rcases hexit with hx | hx
    · rw [hfalse] at hx; cases hx
    · exact hx
  have hcases : res.1.isComplete = true ∨ res.1.isComplete = false := by
    cases res.1.isComplete <;> simp
  refine ⟨f1, c2, c1, ?_, ?_, ?_, hnot⟩
  · constructor
    · intro hc
      have := k3.1 hc
      omega
    · intro hle
      rcases hcases with hc | hc
      · exact hc
      · have hnil := hnot hc
        rw [hnil] at c2
        simp only [List.length_nil, Nat.add_zero] at c2
        have hne : ¬ (res.1.pizzas.length : Int) = team.size := fun he => by
          have := k3.2 he
          rw [hc] at this
          cases this
        omega
  · intro hle
    rcases hcases with hc | hc
    · exact k3.1 hc
    · have hnil := hnot hc
      rw [hnil] at c2
      simp only [List.length_nil, Nat.add_zero] at c2
      have hne : ¬ (res.1.pizzas.length : Int) = team.size := fun he => by
        have := k3.2 he
        rw [hc] at this
        cases this
      omega
  · intro hlt
    rcases hcases with hc | hc
    · have := k3.1 hc
      omega
    · have hnil := hnot hc
      rw [hnil] at c2
      simpa using c2

/-! ## The driver -/

theorem assigned_set_count (teams : List Team) (idx : Nat) (team team1 : Team) (x : Int)
    (h : teams[idx]? = some team) :
    (assigned (teams.set idx team1)).count x + (ids team.pizzas).count x =
      (assigned teams).count x + (ids team1.pizzas).count x := by
  have hidx : idx < teams.length := by
    by_contra hc
    rw [List.getElem?_eq_none (Nat.le_of_not_lt hc)] at h
    cases h
  have ht : teams[idx] = team := by
    rw [List.getElem?_eq_getElem hidx] at h
    exact Option.some.inj h
  have e1 : teams = teams.take idx ++ team :: teams.drop (idx + 1) := by
    rw [← ht]; simp
  have e2 : teams.set idx team1 = teams.take idx ++ team1 :: teams.drop (idx + 1) := by
    rw [List.set_eq_take_append_cons_drop, if_pos hidx]
  rw [e2]
  conv_rhs => rw [e1]
  simp only [assigned, List.flatMap_append, List.flatMap_cons, List.count_append]
  omega

/-- The driver only moves pizzas from the pool into teams. -/
theorem allocLoop_perm (tc n i : Nat) (teams : List Team) (pizzas : List Pizza) (w : World)
    (res : List Team × List Pizza × World) (h : allocLoop tc n i teams pizzas w = .ok res) :
    (ids res.2.1 ++ assigned res.1).Perm (ids pizzas ++ assigned teams) := by
  induction n generalizing i teams pizzas w with
  | zero =>
    simp only [allocLoop] at h
    injection h with h
    subst h
    exact List.Perm.refl _
  | succ n ih =>
    rw [allocLoop] at h
    split at h
    · cases h
    split at h
    · cases h
    · rename_i team ht
      split at h
      · cases h
      · rename_i team1 pizzas1 w1 hd
        have ha := deliverPizzas_assembly _ _ _ _ hd
        have hperm := (assembly_frame _ _ _ _ _ _ _ ha).2.1
        simp only at hperm
        have hstep : (ids pizzas1 ++ assigned (teams.set (tc - 1 - i) team1)).Perm
            (ids pizzas ++ assigned teams) := by
          rw [List.perm_iff_count] at hperm ⊢
          intro x
          have h1 := hperm x
          have h2 := assigned_set_count teams (tc - 1 - i) team team1 x ht
          simp only [List.count_append] at h1 ⊢
          omega
        simp only at h
        split at h
        · injection h with h
          subst h
          exact hstep
        · exact (ih _ _ _ _ h).trans hstep

theorem capBefore_self (teams : List Team) (k : Nat) : capBefore teams (k + 1) k = 0 := by
  unfold capBefore
  rw [List.drop_eq_nil_of_le (by rw [List.length_take]; omega)]
  rfl

theorem capBefore_succ (teams : List Team) (k idx : Nat) (team : Team)
    (h : teams[k]? = some team) (hidx : idx < k) :
    capBefore teams (k + 1) idx = capBefore teams k idx + team.size := by
  have hk : k < teams.length := by
    by_contra hc
    rw [List.getElem?_eq_none (Nat.le_of_not_lt hc)] at h
    cases h
  unfold capBefore
  rw [List.take_succ, h]
  simp only [Option.toList_some]
  rw [List.drop_append_of_le_length (by rw [List.length_take]; omega)]
  simp

theorem capBefore_set (teams : List Team) (k idx : Nat) (team1 : Team) :
    capBefore (teams.set k team1) k idx = capBefore teams k idx := by
  unfold capBefore
  rw [List.set_take, List.set_eq_of_length_le (by rw [List.length_take]; omega)]

theorem capBefore_nonneg (teams : List Team) (top idx : Nat)
    (h : ∀ j t, j < top → teams[j]? = some t → 0 ≤ t.size) : 0 ≤ capBefore teams top idx := by
  unfold capBefore
  apply List.sum_nonneg
  intro x hx
  rw [List.mem_map] at hx
  obtain ⟨t, ht, rfl⟩ := hx
  have ht2 : t ∈ teams.take top := List.mem_of_mem_drop ht
  obtain ⟨j, hj⟩ := List.mem_iff_getElem?.1 ht2
  rw [List.getElem?_take] at hj
  split at hj
  · rename_i hlt
    exact h j t hlt hj
  · cases hj

theorem getElem?_lt {α : Type} (l : List α) (i : Nat) (x : α) (h : l[i]? = some x) :
    i < l.length := by
  by_contra hc
  rw [List.getElem?_eq_none (Nat.le_of_not_lt hc)] at h
  cases h

/-- The driver returns on every non-empty pool of vectors of one length when the teams still to
be processed are empty. -/
theorem allocLoop_total (tc n i : Nat) (teams : List Team) (pizzas : List Pizza) (w : World)
    (len : Nat) (hlen : teams.length = tc) (hi : i + n ≤ tc) (hne : pizzas ≠ [])
    (hu : Uniform len pizzas)
    (hfresh : ∀ idx t, idx < tc - i → teams[idx]? = some t → t.pizzas = []) :
    ∃ res, allocLoop tc n i teams pizzas w = .ok res := by
  induction n generalizing i teams pizzas w with
  | zero => exact ⟨_, rfl⟩
  | succ n ih =>
    have hk : tc - 1 - i < teams.length := by omega
    have hteam : teams[tc - 1 - i]? = some teams[tc - 1 - i] := List.getElem?_eq_getElem hk
    obtain ⟨⟨team1, pizzas1, w1⟩, hd⟩ := deliverPizzas_total teams[tc - 1 - i] pizzas w len hne hu
      (hfresh _ _ (by omega) hteam)
    have hsub := (assembly_frame _ _ _ _ _ _ _ (deliverPizzas_assembly _ _ _ _ hd)).2.2.1
    simp only at hsub
    rw [allocLoop, if_neg (by omega), hteam]
    simp only
    rw [hd]
    simp only
    split
    · exact ⟨_, rfl⟩
    · rename_i hz
      refine ih (i + 1) _ pizzas1 w1 (by rw [List.length_set]; exact hlen) (by omega) ?_ ?_ ?_
      · intro hnil
        exact hz (by rw [hnil]; rfl)
      · intro p hp
        exact hu p (hsub p hp)
      · intro idx t hidx ht
        rw [List.getElem?_set_ne (by omega)] at ht
        exact hfresh idx t (by omega) ht

/-- How the driver fills teams of capacity at least two that start empty and not complete. -/
theorem allocLoop_fill (tc n i : Nat) (teams : List Team) (pizzas : List Pizza) (w : World)
    (res : List Team × List Pizza × World) (h : allocLoop tc n i teams pizzas w = .ok res)
    (hlen : teams.length = tc) (hi : i + n ≤ tc)
    (hfresh : ∀ idx t, idx < tc - i → teams[idx]? = some t →
      t.pizzas = [] ∧ t.isComplete = false ∧ 2 ≤ t.size) :
    ∀ idx t, teams[idx]? = some t → ∃ t1, res.1[idx]? = some t1 ∧ t1.size = t.size ∧
      (tc - i ≤ idx → t1 = t) ∧ (idx < tc - i - n → t1 = t) ∧
      (tc - i - n ≤ idx → idx < tc - i →
        Outcome (capBefore teams (tc - i) idx) pizzas.length t.size t1) := by
  induction n generalizing i teams pizzas w with
  | zero =>
    simp only [allocLoop] at h
    injection h with h
    subst h
    intro idx t ht
    exact ⟨t, ht, rfl, fun _ => rfl, fun _ => rfl, fun h1 h2 => by omega⟩
  | succ n ih =>
    obtain ⟨k, hk⟩ : ∃ k, tc - i = k + 1 := ⟨tc - i - 1, by omega⟩
    have hk1 : tc - 1 - i = k := by omega
    have hk2 : tc - (i + 1) = k := by omega
    rw [allocLoop, if_neg (by omega), hk1] at h
    split at h
    · cases h
    · rename_i team hteam
      obtain ⟨f1, f2, f3⟩ := hfresh k team (by omega) hteam
      split at h
      · cases h
      · rename_i team1 pizzas1 w1 hd
        obtain ⟨d1, d2, d3, d4, d5, d6, d7⟩ := deliverPizzas_fresh _ _ _ _ hd f1 f2 f3
        simp only at d1 d2 d3 d4 d5 d6 d7
        have hm : 0 < pizzas.length := by omega
        have hklt : k < teams.length := getElem?_lt _ _ _ hteam
        have hself : (teams.set k team1)[k]? = some team1 := List.getElem?_set_self hklt
        have hown : Outcome (capBefore teams (k + 1) k) pizzas.length team.size team1 := by
          rw [capBefore_self]
          refine ⟨by rw [d4]; simp, fun hle => d5 (by omega), fun _ hlt => ?_, fun hle => by omega⟩
          have := d6 (by omega)
          omega
        simp only at h
        split at h
        · rename_i hz
          injection h with h
          subst h
          have hmle : (pizzas.length : Int) ≤ team.size := by
            by_cases hc : team.size ≤ (pizzas.length : Int)
            · have := d5 hc
              omega
            · omega
          intro idx t ht
          by_cases hidx : idx = k
          · subst hidx
            rw [hteam] at ht
            injection ht with ht
            subst ht
            refine ⟨team1, hself, d1, fun hc => by omega, fun hc => by omega, fun _ _ => ?_⟩
            rw [hk]
            exact hown
          · refine ⟨t, by rw [List.getElem?_set_ne (Ne.symm hidx)]; exact ht, rfl, fun _ => rfl,
              fun _ => rfl, fun h1 h2 => ?_⟩
            obtain ⟨g1, g2, g3⟩ := hfresh idx t h2 ht
            have hb : capBefore teams (tc - i) idx = capBefore teams k idx + team.size := by
              rw [hk]
              exact capBefore_succ teams k idx team hteam (by omega)
            have hb0 : 0 ≤ capBefore teams k idx :=
              capBefore_nonneg teams k idx (fun j t2 hj ht2 => by
                have := (hfresh j t2 (by omega) ht2).2.2
                omega)
            refine ⟨?_, fun hle => by omega, fun hle hlt => ?_, fun _ => g1⟩
            · rw [g2]
              constructor
              · intro hc; cases hc
              · intro hc; omega
            · rw [g1]
              simp only [List.length_nil, Nat.cast_zero]
              omega
        · rename_i hz
          have hcomp : team1.isComplete = true := by
            cases hc : team1.isComplete
            · exact absurd (by rw [d7 hc]; rfl) hz
            · rfl
          have hfit : team.size ≤ (pizzas.length : Int) := d4.1 hcomp
          have hcnt := d5 hfit
          have hrec := ih (i + 1) (teams.set k team1) pizzas1 w1 h
            (by rw [List.length_set]; exact hlen) (by omega)
            (by
              intro idx t hidx ht
              rw [List.getElem?_set_ne (by omega)] at ht
              exact hfresh idx t (by omega) ht)
          intro idx t ht
          by_cases hidx : idx = k
          · subst hidx
            rw [hteam] at ht
            injection ht with ht
            subst ht
            obtain ⟨t1, r1, r2, r3, -⟩ := hrec idx team1 hself
            have ht1 : t1 = team1 := r3 (by omega)
            subst ht1
            refine ⟨t1, r1, d1, fun hc => by omega, fun hc => by omega, fun _ _ => ?_⟩
            rw [hk]
            exact hown
          · have ht2 : (teams.set k team1)[idx]? = some t := by
              rw [List.getElem?_set_ne (Ne.symm hidx)]; exact ht
            obtain ⟨t1, r1, r2, r3, r4, r5⟩ := hrec idx t ht2
            refine ⟨t1, r1, r2, fun hc => r3 (by omega), fun hc => r4 (by omega),
              fun h1 h2 => ?_⟩
            have hout := r5 (by omega) (by omega)
            rw [hk2, capBefore_set] at hout
            have hb : capBefore teams (tc - i) idx = capBefore teams k idx + team.size := by
              rw [hk]
              exact capBefore_succ teams k idx team hteam (by omega)
            rw [hb]
            obtain ⟨o1, o2, o3, o4⟩ := hout
            have hm1 : (pizzas1.length : Int) = pizzas.length - team.size := by omega
            rw [hm1] at o1 o2 o3 o4
            refine ⟨?_, fun hle => o2 (by omega), fun hle hlt => ?_, fun hle => o4 (by omega)⟩
            · rw [o1]
              constructor <;> intro hc <;> omega
            · have := o3 (by omega) (by omega)
              omega

/-! ## Reading the header line -/

theorem splitSpace_ne_nil (s : GoString) : splitSpace s ≠ [] := by
  cases s with
  | nil => simp [splitSpace]
  | cons c rest =>
    rw [splitSpace]
    split
    · simp
    · split <;> simp

theorem splitSpace_of_no_space (p : GoString) (h : ' ' ∉ p) : splitSpace p = [p] := by
  induction p with
  | nil => rfl
  | cons c p ih =>
    have hc : c ≠ ' ' := fun hc => h (by rw [hc]; exact List.mem_cons_self _ _)
    rw [splitSpace, ih (fun hm => h (List.mem_cons_of_mem _ hm))]
    simp [hc]

theorem splitSpace_append (p rest : GoString) (h : ' ' ∉ p) :
    splitSpace (p ++ ' ' :: rest) = p :: splitSpace rest := by
  induction p with
  | nil =>
    obtain ⟨piece, pieces, hs⟩ := List.exists_cons_of_ne_nil (splitSpace_ne_nil rest)
    simp only [List.nil_append]
    rw [splitSpace, hs]
    simp
  | cons c p ih =>
    have hc : c ≠ ' ' := fun hc => h (by rw [hc]; exact List.mem_cons_self _ _)
    simp only [List.cons_append]
    rw [splitSpace, ih (fun hm => h (List.mem_cons_of_mem _ hm))]
    simp [hc]

theorem splitSpace_joinSpace (parts : List GoString) (hne : parts ≠ [])
    (h : ∀ p ∈ parts, ' ' ∉ p) : splitSpace (joinSpace parts) = parts := by
  induction parts with
  | nil => exact absurd rfl hne
  | cons p rest ih =>
    cases rest with
    | nil =>
      simp only [joinSpace]
      exact splitSpace_of_no_space p (h p (List.mem_cons_self _ _))
    | cons q rest =>
      simp only [joinSpace]
      rw [splitSpace_append p _ (h p (List.mem_cons_self _ _)),
        ih (by simp) (fun x hx => h x (List.mem_cons_of_mem _ hx))]

theorem isDigit_bounds (c : Char) (h : c.isDigit = true) : '0' ≤ c ∧ c ≤ '9' := by
  simp only [Char.isDigit, Bool.and_eq_true, decide_eq_true_eq] at h
  exact ⟨h.1, h.2⟩

theorem digits_foldl_ge (s : GoString) (n : Nat) :
    n ≤ s.foldl (fun v c => 10 * v + (c.toNat - 48)) n := by
  induction s generalizing n with
  | nil => exact le_refl _
  | cons c s ih =>
    rw [List.foldl_cons]
    exact le_trans (by omega) (ih _)

theorem atoiDigits_of_digits (s : GoString) (n : Nat) (h : ∀ c ∈ s, c.isDigit = true)
    (hfit : s.foldl (fun v c => 10 * v + (c.toNat - 48)) n < 2 ^ 64) :
    atoiDigits s n = some (s.foldl (fun v c => 10 * v + (c.toNat - 48)) n) := by
  induction s generalizing n with
  | nil => rfl
  | cons c s ih =>
    rw [List.foldl_cons] at hfit
    have hge := digits_foldl_ge s (10 * n + (c.toNat - 48))
    have hpow : (2 : Nat) ^ 64 = 18446744073709551616 := by norm_num
    rw [hpow] at hfit
    have hnext : n * 10 + (c.toNat - 48) = 10 * n + (c.toNat - 48) := by omega
    rw [atoiDigits, if_pos (isDigit_bounds c (h c (List.mem_cons_self _ _))),
      if_neg (by rw [hpow]; omega), if_neg (by rw [hpow]; omega), hnext,
      ih _ (fun x hx => h x (List.mem_cons_of_mem _ hx)) (by rw [hpow]; exact hfit)]
    rfl

theorem atoi_toDigits (n : Nat) (h : n < 2 ^ 63) : atoi (Nat.toDigits 10 n) = ((n : Int), true) := by
  obtain ⟨hne, hdig, hval⟩ := toDigits_spec n
  obtain ⟨c, s, hs⟩ := List.exists_cons_of_ne_nil hne
  have hc : c.isDigit = true := hdig c (by rw [hs]; exact List.mem_cons_self _ _)
  have hminus : c ≠ '-' := by
    intro he; subst he; revert hc; decide
  have hplus : c ≠ '+' := by
    intro he; subst he; revert hc; decide
  unfold digitsValue at hval
  have hd := atoiDigits_of_digits (Nat.toDigits 10 n) 0 hdig (by
    rw [hval]
    exact lt_trans h (by norm_num))
  rw [hval] at hd
  rw [hs] at hd ⊢
  unfold atoi
  split
  · rename_i rest heq
    injection heq with h1 h2
    exact absurd h1 hminus
  · rename_i rest heq
    injection heq with h1 h2
    exact absurd h1 hplus
  · simp only [List.cons_ne_nil, if_false, hd]
    simp
    omega

theorem atoi_formatInt (n : Nat) (h : n < 2 ^ 63) : atoi (formatInt (n : Int)) = ((n : Int), true) := by
  unfold formatInt
  rw [if_neg (by omega)]
  simpa using atoi_toDigits n h

theorem formatInt_no_space (n : Int) : ' ' ∉ formatInt n :=
  fun hm => (formatInt_chars n ' ' hm).1 rfl

theorem appendTeams_eq (n : Nat) (teamSize : Int) (teams : List Team) :
    appendTeams n teamSize teams = teams ++ List.replicate n ⟨teamSize, [], [], false⟩ := by
  induction n generalizing teams with
  | zero => simp [appendTeams]
  | succ n ih =>
    rw [appendTeams, ih, List.replicate_succ]
    simp

theorem headerLoop_eq (counts : List Nat) (j : Nat) (teams : List Team)
    (h : ∀ T ∈ counts, T < 2 ^ 63) :
    headerLoop (counts.map (fun (T : Nat) => formatInt (T : Int))) j teams =
      teams ++ teamBlocks counts j := by
  induction counts generalizing j teams with
  | nil => simp [headerLoop, teamBlocks]
  | cons T rest ih =>
    simp only [List.map_cons, headerLoop, teamBlocks]
    rw [atoi_formatInt T (h T (List.mem_cons_self _ _)),
      ih _ _ (fun x hx => h x (List.mem_cons_of_mem _ hx)), appendTeams_eq]
    simp

theorem buildTeams_eq (first : GoString) (counts : List Nat) (hfirst : ' ' ∉ first)
    (h : ∀ T ∈ counts, T < 2 ^ 63) :
    buildTeams (joinSpace (first :: counts.map (fun (T : Nat) => formatInt (T : Int)))) =
      .ok (teamBlocks counts 0) := by
  unfold buildTeams
  rw [splitSpace_joinSpace _ (by simp)]
  · simp only
    rw [headerLoop_eq counts 0 [] h]
    simp
  · intro p hp
    rcases List.mem_cons.1 hp with hp | hp
    · rw [hp]; exact hfirst
    · obtain ⟨T, -, rfl⟩ := List.mem_map.1 hp
      exact formatInt_no_space _

theorem teamBlocks_mem (counts : List Nat) (j : Nat) (t : Team) (h : t ∈ teamBlocks counts j) :
    t.pizzas = [] ∧ t.binaryCode = [] ∧ t.isComplete = false ∧ (j : Int) + 2 ≤ t.size := by
  induction counts generalizing j with
  | nil => simp [teamBlocks] at h
  | cons T rest ih =>
    rw [teamBlocks, List.mem_append] at h
    rcases h with h | h
    · have := (List.mem_replicate.1 h).2
      subst this
      exact ⟨rfl, rfl, rfl, le_refl _⟩
    · obtain ⟨h1, h2, h3, h4⟩ := ih (j + 1) h
      exact ⟨h1, h2, h3, by push_cast at h4; omega⟩

theorem teamBlocks_sorted (counts : List Nat) (j : Nat) :
    (teamBlocks counts j).Pairwise (fun a b => a.size ≤ b.size) := by
  induction counts generalizing j with
  | nil => simp [teamBlocks]
  | cons T rest ih =>
    rw [teamBlocks, List.pairwise_append]
    refine ⟨?_, ih (j + 1), ?_⟩
    · rw [List.pairwise_replicate]
      exact Or.inr (le_refl _)
    · intro a ha b hb
      have := (List.mem_replicate.1 ha).2
      subst this
      have := (teamBlocks_mem rest (j + 1) b hb).2.2.2
      push_cast at this
      simp only
      omega

theorem teamBlocks_count (counts : List Nat) (j s : Nat) :
    (teamBlocks counts j).countP (fun t => decide (t.size = (s : Int) + 2)) =
      if s < j then 0 else counts.getD (s - j) 0 := by
  induction counts generalizing j with
  | nil => simp [teamBlocks]
  | cons T rest ih =>
    rw [teamBlocks, List.countP_append, ih (j + 1)]
    by_cases h1 : s < j
    · rw [if_pos h1, if_pos (by omega)]
      rw [List.countP_eq_zero.2]
      intro t ht
      have := (List.mem_replicate.1 ht).2
      subst this
      simp only [decide_eq_true_eq]
      omega
    · rw [if_neg h1]
      by_cases h2 : s = j
      · subst h2
        rw [if_pos (by omega)]
        simp [List.countP_replicate]
      · rw [if_neg (by omega)]
        have hz : List.countP (fun t => decide (t.size = (s : Int) + 2))
            (List.replicate T (⟨(j : Int) + 2, [], [], false⟩ : Team)) = 0 := by
          rw [List.countP_eq_zero]
          intro t ht
          have := (List.mem_replicate.1 ht).2
          subst this
          simp only [decide_eq_true_eq]
          omega
        rw [hz]
        obtain ⟨d, hd⟩ : ∃ d, s - j = d + 1 := ⟨s - j - 1, by omega⟩
        have hd2 : s - (j + 1) = d := by omega
        rw [hd, hd2]
        simp

theorem allocLoop_length (tc n i : Nat) (teams : List Team) (pizzas : List Pizza) (w : World)
    (res : List Team × List Pizza × World) (h : allocLoop tc n i teams pizzas w = .ok res) :
    res.1.length = teams.length := by
  induction n generalizing i teams pizzas w with
  | zero =>
    simp only [allocLoop] at h
    injection h with h
    subst h
    rfl
  | succ n ih =>
    rw [allocLoop] at h
    split at h
    · cases h
    split at h
    · cases h
    · split at h
      · cases h
      · simp only at h
        split at h
        · injection h with h
          subst h
          simp
        · rw [ih _ _ _ _ h]
          simp

theorem capBefore_mono (teams : List Team) (top a b : Nat) (tb : Team)
    (hsz : ∀ j t, j < top → teams[j]? = some t → 0 ≤ t.size)
    (hab : a < b) (hb : b < top) (htop : top ≤ teams.length) (htb : teams[b]? = some tb) :
    capBefore teams top b + tb.size ≤ capBefore teams top a := by
  induction top with
  | zero => omega
  | succ k ih =>
    have hk : k < teams.length := by omega
    have hteam : teams[k]? = some teams[k] := List.getElem?_eq_getElem hk
    have hnn : 0 ≤ capBefore teams k a :=
      capBefore_nonneg teams k a (fun j t hj ht => hsz j t (by omega) ht)
    rw [capBefore_succ teams k a _ hteam (by omega)]
    by_cases hbk : b = k
    · subst hbk
      rw [capBefore_self]
      rw [hteam] at htb
      injection htb with htb
      rw [htb]
      omega
    · rw [capBefore_succ teams k b _ hteam (by omega)]
      have := ih (fun j t hj ht => hsz j t (by omega) ht) (by omega) (by omega)
      omega

/-- While the pool is not empty, every team the driver has processed so far is complete. -/
theorem allocLoop_running (tc n i : Nat) (teams : List Team) (pizzas : List Pizza) (w : World)
    (res : List Team × List Pizza × World) (h : allocLoop tc n i teams pizzas w = .ok res)
    (hlen : teams.length = tc) (hi : i + n ≤ tc)
    (hfresh : ∀ idx t, idx < tc - i → teams[idx]? = some t →
      t.pizzas = [] ∧ t.isComplete = false ∧ 2 ≤ t.size)
    (hpool : res.2.1 ≠ []) :
    ∀ idx t1, tc - i - n ≤ idx → idx < tc - i → res.1[idx]? = some t1 →
      t1.isComplete = true ∧ (t1.pizzas.length : Int) = t1.size := by
  induction n generalizing i teams pizzas w with
  | zero =>
    intro idx t1 h1 h2
    omega
  | succ n ih =>
    obtain ⟨k, hk⟩ : ∃ k, tc - i = k + 1 := ⟨tc - i - 1, by omega⟩
    have hk1 : tc - 1 - i = k := by omega
    rw [allocLoop, if_neg (by omega), hk1] at h
    split at h
    · cases h
    · rename_i team hteam
      obtain ⟨f1, f2, f3⟩ := hfresh k team (by omega) hteam
      split at h
      · cases h
      · rename_i team1 pizzas1 w1 hd
        obtain ⟨d1, d2, d3, d4, d5, d6, d7⟩ := deliverPizzas_fresh _ _ _ _ hd f1 f2 f3
        simp only at d1 d2 d3 d4 d5 d6 d7
        have hklt : k < teams.length := getElem?_lt _ _ _ hteam
        simp only at h
        split at h
        · rename_i hz
          injection h with h
          subst h
          exact absurd (List.length_eq_zero.1 hz) hpool
        · rename_i hz
          have hcomp : team1.isComplete = true := by
            cases hc : team1.isComplete
            · exact absurd (by rw [d7 hc]; rfl) hz
            · rfl
          have hfresh1 : ∀ idx t, idx < tc - (i + 1) → (teams.set k team1)[idx]? = some t →
              t.pizzas = [] ∧ t.isComplete = false ∧ 2 ≤ t.size := by
            intro idx t hidx ht
            rw [List.getElem?_set_ne (by omega)] at ht
            exact hfresh idx t (by omega) ht
          have hlen1 : (teams.set k team1).length = tc := by
            rw [List.length_set]; exact hlen
          intro idx t1 h1 h2 ht1
          by_cases hidx : idx = k
          · subst hidx
            obtain ⟨t2, r1, -, r3, -⟩ := allocLoop_fill _ _ _ _ _ _ _ h hlen1 (by omega) hfresh1
              idx team1 (List.getElem?_set_self hklt)
            rw [r1] at ht1
            injection ht1 with ht1
            rw [← ht1, r3 (by omega)]
            exact ⟨hcomp, by rw [d5 (d4.1 hcomp), d1]⟩
          · exact ih (i + 1) _ _ _ h hlen1 (by omega) hfresh1 idx t1 (by omega) (by omega) ht1

/-! ## The claims -/

/-- C1 (pool conservation).  For every non-empty pool of pizzas with distinct identities and
every list of empty teams of capacity at least two, when the driver of `main` has finished, the
identities left in the pool together with those assigned to the teams are a permutation of the
initial pool; the sizes add up, no identity is assigned twice (neither to two teams nor twice to
one team), and no assigned identity is still in the pool.  The driver does finish whenever all
vectors of the pool have one length. -/
theorem pool_conservation (teams : List Team) (pizzas : List Pizza) (w : World)
    (hne : pizzas ≠ []) (hnodup : (ids pizzas).Nodup)
    (hfresh : ∀ t ∈ teams, t.pizzas = [] ∧ 2 ≤ t.size) :
    (∀ res, allocate teams pizzas w = .ok res →
      (ids res.2.1 ++ assigned res.1).Perm (ids pizzas) ∧
      pizzas.length = res.2.1.length + (res.1.map (fun t => t.pizzas.length)).sum ∧
      (assigned res.1).Nodup ∧
      (∀ (a b : Nat) (ta tb : Team), a < b → res.1[a]? = some ta → res.1[b]? = some tb →
        ∀ x ∈ ids ta.pizzas, x ∉ ids tb.pizzas) ∧
      (∀ x ∈ assigned res.1, x ∉ ids res.2.1)) ∧
    (∀ len, Uniform len pizzas → ∃ res, allocate teams pizzas w = .ok res) := by
  have hzero : assigned teams = [] := by
    unfold assigned
    rw [List.flatMap_eq_nil_iff]
    intro t ht
    rw [(hfresh t ht).1]
    rfl
  constructor
  · intro res h
    have hperm := allocLoop_perm _ _ _ _ _ _ _ h
    rw [hzero, List.append_nil] at hperm
    have hnd : (ids res.2.1 ++ assigned res.1).Nodup := hperm.nodup_iff.2 hnodup
    have hnd2 : (assigned res.1).Nodup := hnd.of_append_right
    refine ⟨hperm, ?_, hnd2, ?_, ?_⟩
    · have hl := hperm.length_eq
      rw [List.length_append] at hl
      have h1 : (assigned res.1).length = (res.1.map (fun t => t.pizzas.length)).sum := by
        unfold assigned
        rw [List.length_flatMap]
        congr 1
        apply List.map_congr_left
        intro t _
        simp [ids]
      have h2 : (ids res.2.1).length = res.2.1.length := by simp [ids]
      have h3 : (ids pizzas).length = pizzas.length := by simp [ids]
      omega
    · intro a b ta tb hab hta htb x hxa hxb
      have hpw := (List.nodup_flatMap.1 hnd2).2
      rw [List.pairwise_iff_getElem] at hpw
      have ha := getElem?_lt _ _ _ hta
      have hb := getElem?_lt _ _ _ htb
      have hd := hpw a b ha hb hab
      rw [List.getElem?_eq_getElem ha] at hta
      rw [List.getElem?_eq_getElem hb] at htb
      injection hta with hta
      injection htb with htb
      rw [hta, htb] at hd
      exact hd hxa hxb
    · intro x hx1 hx2
      exact (List.disjoint_of_nodup_append hnd) hx2 hx1
  · intro len hu
    exact allocLoop_total _ _ _ _ _ _ len rfl (by omega) hne hu
      (fun idx t _ ht => (hfresh t (List.getElem?_mem ht)).1)

/-- Witness for C1: the four pizzas, one team of two and one team of three. -/
theorem pool_conservation_witness :
    fourPizzas ≠ [] ∧ (ids fourPizzas).Nodup ∧
      (∀ t ∈ [emptyTeam 2, emptyTeam 3], t.pizzas = [] ∧ 2 ≤ t.size) ∧
      ∃ res, allocate [emptyTeam 2, emptyTeam 3] fourPizzas (initialWorld (fun k => k)) = .ok res ∧
        (ids res.2.1 ++ assigned res.1).Perm (ids fourPizzas) ∧
        fourPizzas.length = res.2.1.length + (res.1.map (fun t => t.pizzas.length)).sum := by
  have h := pool_conservation [emptyTeam 2, emptyTeam 3] fourPizzas (initialWorld (fun k => k))
    (by decide) (by decide) (by decide)
  obtain ⟨res, hres⟩ := h.2 3 (by decide)
  exact ⟨by decide, by decide, by decide, res, hres, (h.1 res hres).1, (h.1 res hres).2.1⟩

/-- Counterexample to C2 as stated: a team of capacity 1 is never flagged complete (the seed
pizza is added without the capacity check, and the next one makes the count 2), so it takes the
whole pool: four pizzas in a team of capacity one. -/
theorem capacity_one_exceeded :
    ∃ team pizzas w,
      deliverPizzas (emptyTeam 1) fourPizzas (initialWorld (fun k => k)) = .ok (team, pizzas, w) ∧
        team.size = 1 ∧ ids team.pizzas = [0, 3, 2, 1] ∧ team.isComplete = false ∧
        pizzas = [] :=
  ⟨_, _, _, rfl, rfl, rfl, rfl, rfl⟩

/-- C2, amended (capacity respected).  For every team of capacity at least two that starts empty
and not complete, every pool and every stream of random draws: in every state the call
`deliverPizzas` goes through, and in the state it returns, the team holds at most `size`
pizzas (and its capacity is unchanged).  The call returns on every non-empty pool of vectors of
one length. -/
theorem capacity_respected (team0 : Team) (pizzas0 : List Pizza) (w0 : World)
    (hfresh : team0.pizzas = []) (hnc : team0.isComplete = false) (hsize : 2 ≤ team0.size) :
    (∀ running team pizzas w, Assembly team0 pizzas0 w0 running team pizzas w →
      team.size = team0.size ∧ (team.pizzas.length : Int) ≤ team.size) ∧
    (∀ res, deliverPizzas team0 pizzas0 w0 = .ok res →
      res.1.size = team0.size ∧ (res.1.pizzas.length : Int) ≤ res.1.size) ∧
    (pizzas0 ≠ [] → ∀ len, Uniform len pizzas0 →
      ∃ res, deliverPizzas team0 pizzas0 w0 = .ok res) := by
  have key : ∀ running team pizzas w, Assembly team0 pizzas0 w0 running team pizzas w →
      team.size = team0.size ∧ (team.pizzas.length : Int) ≤ team.size := by
    intro running team pizzas w h
    have h1 := (assembly_frame _ _ _ _ _ _ _ h).1
    have h2 := (assembly_capacity _ _ _ _ _ _ _ h hfresh hnc hsize).1
    exact ⟨h1, by rw [h1]; exact h2⟩
  refine ⟨key, ?_, ?_⟩
  · intro res h
    exact key _ _ _ _ (deliverPizzas_assembly _ _ _ _ h)
  · intro hne len hu
    exact deliverPizzas_total team0 pizzas0 w0 len hne hu hfresh

/-- Witness for C2: a team of two on the four pizzas. -/
theorem capacity_respected_witness :
    (emptyTeam 2).pizzas = [] ∧ (emptyTeam 2).isComplete = false ∧ 2 ≤ (emptyTeam 2).size ∧
      ∃ res, deliverPizzas (emptyTeam 2) fourPizzas (initialWorld (fun k => k)) = .ok res ∧
        (res.1.pizzas.length : Int) ≤ res.1.size := by
  have h := capacity_respected (emptyTeam 2) fourPizzas (initialWorld (fun k => k))
    rfl rfl (by decide)
  obtain ⟨res, hres⟩ := h.2.2 (by decide) 3 (by decide)
  exact ⟨rfl, rfl, by decide, res, hres, (h.2.1 res hres).2⟩

/-- C3 (complete means full).  For every team that starts empty and not complete, every pool and
every stream of random draws: whenever the completion flag is set, in a state `deliverPizzas`
goes through or in the state it returns, the team holds exactly `size` pizzas. -/
theorem complete_means_full (team0 : Team) (pizzas0 : List Pizza) (w0 : World)
    (hfresh : team0.pizzas = []) (hnc : team0.isComplete = false) :
    (∀ running team pizzas w, Assembly team0 pizzas0 w0 running team pizzas w →
      team.isComplete = true → (team.pizzas.length : Int) = team.size) ∧
    (∀ res, deliverPizzas team0 pizzas0 w0 = .ok res →
      res.1.isComplete = true → (res.1.pizzas.length : Int) = res.1.size) := by
  have key : ∀ running team pizzas w, Assembly team0 pizzas0 w0 running team pizzas w →
      team.isComplete = true → (team.pizzas.length : Int) = team.size := by
    intro running team pizzas w h hc
    rw [(assembly_frame _ _ _ _ _ _ _ h).1]
    exact (assembly_count _ _ _ _ _ _ _ h hfresh hnc).2.2.1 hc
  exact ⟨key, fun res h => key _ _ _ _ (deliverPizzas_assembly _ _ _ _ h)⟩

/-- Witness for C3: the team of two on the four pizzas ends complete with two pizzas. -/
theorem complete_means_full_witness :
    (emptyTeam 2).pizzas = [] ∧ (emptyTeam 2).isComplete = false ∧
      ∃ team pizzas w,
        deliverPizzas (emptyTeam 2) fourPizzas (initialWorld (fun k => k)) =
          .ok (team, pizzas, w) ∧
        team.isComplete = true ∧ (team.pizzas.length : Int) = team.size :=
  ⟨rfl, rfl, _, _, _, rfl, rfl,
    (complete_means_full (emptyTeam 2) fourPizzas (initialWorld (fun k => k)) rfl rfl).2
      _ rfl rfl⟩

theorem distAt_nonneg (code : List Int) (pizzas : List Pizza) (index : Nat) :
    0 ≤ distAt code pizzas index := by
  unfold distAt
  split
  · exact hammingDistance_nonneg _ _
  · exact le_refl _

theorem xorBinary_of_sound (l r : List Int) (cache : List (GoString × Int)) (v : Int)
    (hc : CacheSound cache) (h : xorLoop l r 0 0 = .ok v) :
    ∃ cache1, xorBinary l r cache = .ok (v, cache1) ∧ CacheSound cache1 := by
  unfold xorBinary
  simp only
  split
  · rename_i v0 hv
    have := hc l r v0 hv
    rw [h] at this
    injection this with this
    subst this
    exact ⟨cache, rfl, hc⟩
  · rw [h]
    exact ⟨_, rfl, cacheSound_cons cache l r v hc h⟩

/-- Counterexample to C4 as stated, on three pizzas with the same vector `[1]`: after the
seed the pool is `[pizza 2, pizza 1]`; every sampled index is 1 and every distance is 0, so no
candidate beats the initial `maxDifference = 0` and the pizza taken is the default `pizzas[0]`
(identity 2), which was never sampled. -/
theorem selection_default_not_sampled :
    ∃ team pizzas w,
      deliverFirstPizza (emptyTeam 2) [⟨0, [], [1]⟩, ⟨1, [], [1]⟩, ⟨2, [], [1]⟩] =
          .ok (⟨2, [⟨0, [], [1]⟩], [1], false⟩, [⟨2, [], [1]⟩, ⟨1, [], [1]⟩]) ∧
        deliverNextPizza ⟨2, [⟨0, [], [1]⟩], [1], false⟩ [⟨2, [], [1]⟩, ⟨1, [], [1]⟩]
          (initialWorld (fun _ => 1)) = .ok (team, pizzas, w) ∧
        ids team.pizzas = [0, 2] ∧ ids pizzas = [1] ∧
        ∀ j, j < 100 → sampledIndex (initialWorld (fun _ => 1)) 2 j = 1 :=
  ⟨_, _, _, rfl, rfl, rfl, rfl, by decide⟩

/-- C4, amended (selection rule).  On a non-empty pool whose vectors have the length of the team
code, with a cache that holds only distances computed by `xorBinary`, `deliverNextPizza` returns;
the pizza it appends to the team is the one at the pool index it removes; no sampled candidate
is farther from the team code than that pizza; and either the index is the first sampled index
whose distance is the maximum over the sample, that maximum being positive, or all sampled
distances are 0 and the index is 0 (the default, sampled or not). -/
theorem selection_rule (team : Team) (pizzas : List Pizza) (w : World) (len : Nat)
    (hne : pizzas ≠ []) (hu : Uniform len pizzas) (hcode : team.binaryCode.length = len)
    (hcache : CacheSound w.xorBinaryCache) :
    ∃ (team1 : Team) (pizzas1 : List Pizza) (w1 : World) (index : Nat) (chosen : Pizza),
      deliverNextPizza team pizzas w = .ok (team1, pizzas1, w1) ∧
      pizzas[index]? = some chosen ∧
      team1.pizzas = shareCode team.pizzas team1.binaryCode ++ [chosen] ∧
      removePizza pizzas index = .ok pizzas1 ∧
      (∀ j, j < w.sampleSize.toNat →
        distAt team.binaryCode pizzas (sampledIndex w pizzas.length j) ≤
          distAt team.binaryCode pizzas index) ∧
      ((∃ j, j < w.sampleSize.toNat ∧ index = sampledIndex w pizzas.length j ∧
          0 < distAt team.binaryCode pizzas index ∧
          ∀ j2, j2 < j → distAt team.binaryCode pizzas (sampledIndex w pizzas.length j2) <
            distAt team.binaryCode pizzas index) ∨
        (index = 0 ∧ ∀ j, j < w.sampleSize.toNat →
          distAt team.binaryCode pizzas (sampledIndex w pizzas.length j) = 0)) := by
  obtain ⟨⟨team1, pizzas1, w1⟩, h⟩ := deliverNextPizza_total team pizzas w len hne hu hcode
  obtain ⟨first, best, hf, hs, -, hp, -, -, hr⟩ := deliverNextPizza_ok _ _ _ _ _ _ h
  have hinv := (sampleLoop_inv _ _ _ _ _ _ _ hs hf).1
  have hsel := sampleLoop_select _ _ _ _ _ _ _ hs hcache
    (by intro p hp2; rw [hu p hp2, hcode])
  refine ⟨team1, pizzas1, w1, best.bestPizzaIndex, best.bestPizza, h, hinv, hp, hr, ?_, ?_⟩
  · rcases hsel with ⟨heq, hall⟩ | ⟨j, hj, h1, h2, h3, h4, h5, h6⟩
    · intro j hj
      have := hall j hj
      simp only at this
      exact le_trans this (distAt_nonneg _ _ _)
    · intro j2 hj2
      rw [← h3]
      exact h6 j2 hj2
  · rcases hsel with ⟨heq, hall⟩ | ⟨j, hj, h1, h2, h3, h4, h5, h6⟩
    · refine Or.inr ⟨by rw [heq], ?_⟩
      intro j hj
      have h1 := hall j hj
      simp only at h1
      have h2 := distAt_nonneg team.binaryCode pizzas (sampledIndex w pizzas.length j)
      omega
    · refine Or.inl ⟨j, hj, h1, ?_, ?_⟩
      · rw [← h3]
        simpa using h4
      · intro j2 hj2
        rw [← h3]
        exact h5 j2 hj2

/-- Witness for C4: a seeded team on the remaining three of the four pizzas. -/
theorem selection_rule_witness :
    [(⟨3, [], [1, 1, 1]⟩ : Pizza), ⟨1, [], [0, 1, 0]⟩, ⟨2, [], [0, 0, 1]⟩] ≠ [] ∧
      Uniform 3 [⟨3, [], [1, 1, 1]⟩, ⟨1, [], [0, 1, 0]⟩, ⟨2, [], [0, 0, 1]⟩] ∧
      CacheSound (initialWorld (fun k => k)).xorBinaryCache ∧
      ∃ (team1 : Team) (pizzas1 : List Pizza) (w1 : World) (index : Nat) (chosen : Pizza),
        deliverNextPizza ⟨2, [⟨0, [], [1, 0, 0]⟩], [1, 0, 0], false⟩
          [⟨3, [], [1, 1, 1]⟩, ⟨1, [], [0, 1, 0]⟩, ⟨2, [], [0, 0, 1]⟩]
          (initialWorld (fun k => k)) = .ok (team1, pizzas1, w1) ∧
        [(⟨3, [], [1, 1, 1]⟩ : Pizza), ⟨1, [], [0, 1, 0]⟩, ⟨2, [], [0, 0, 1]⟩][index]? =
          some chosen := by
  obtain ⟨team1, pizzas1, w1, index, chosen, h1, h2, -⟩ :=
    selection_rule ⟨2, [⟨0, [], [1, 0, 0]⟩], [1, 0, 0], false⟩
      [⟨3, [], [1, 1, 1]⟩, ⟨1, [], [0, 1, 0]⟩, ⟨2, [], [0, 0, 1]⟩]
      (initialWorld (fun k => k)) 3 (by decide) (by decide) rfl cacheSound_nil
  exact ⟨by decide, by decide, cacheSound_nil, team1, pizzas1, w1, index, chosen, h1, h2⟩

/-- C5 (degenerate merge).  For vectors of equal length `n`, with arbitrary entries,
`andBinary(left, right)` returns the vector of `n` ones. -/
theorem degenerate_merge (left right : List Int) (h : left.length = right.length) :
    andBinary left right = .ok (List.replicate right.length 1) := by
  rw [andBinary_ok left right (by omega), List.drop_eq_nil_of_le (by omega), List.append_nil]

/-- Witness for C5. -/
theorem degenerate_merge_witness :
    ([5, 0, -3] : List Int).length = ([0, 7, 0] : List Int).length ∧
      andBinary [5, 0, -3] [0, 7, 0] = .ok (List.replicate ([0, 7, 0] : List Int).length 1) :=
  ⟨rfl, degenerate_merge [5, 0, -3] [0, 7, 0] rfl⟩

theorem assembly_code (team0 : Team) (pizzas0 : List Pizza) (w0 : World) (len : Nat)
    (running : Bool) (team : Team) (pizzas : List Pizza) (w : World)
    (h : Assembly team0 pizzas0 w0 running team pizzas w)
    (hfresh : team0.pizzas = []) (hu : Uniform len pizzas0) :
    team.binaryCode.length = len ∧
      (2 ≤ team.pizzas.length → team.binaryCode = List.replicate len 1) := by
  induction h with
  | entry hne => simp [hfresh] at hne
  | seed team1 pizzas1 hempty hf =>
    obtain ⟨pizza, hp, hr, ht⟩ := deliverFirstPizza_ok _ _ _ _ hf
    subst ht
    simp only [hfresh, List.nil_append, List.length_singleton]
    exact ⟨hu pizza (List.getElem?_mem hp), fun hc => by omega⟩
  | next team team1 pizzas pizzas1 w w1 hprev hn ih =>
    obtain ⟨hlen, -⟩ := ih
    have hsub := (assembly_frame _ _ _ _ _ _ _ hprev).2.2.1
    obtain ⟨chosen, index, hidx, -, -, -, -, -, -, -, -, -, hand⟩ :=
      deliverNextPizza_step _ _ _ _ _ _ hn
    have hchosen : chosen.binaryCode.length = len := hu chosen (hsub chosen (List.getElem?_mem hidx))
    rw [andBinary_ok _ _ (by omega), List.drop_eq_nil_of_le (by omega), List.append_nil,
      hchosen] at hand
    injection hand with hand
    rw [← hand]
    exact ⟨by simp, fun _ => rfl⟩

theorem hammingDistance_ones (code : List Int) (h : ∀ b ∈ code, b = 0 ∨ b = 1) :
    hammingDistance (List.replicate code.length 1) code = (code.count 0 : Nat) := by
  induction code with
  | nil => simp [hammingDistance]
  | cons b rest ih =>
    have hrest := ih (fun x hx => h x (List.mem_cons_of_mem _ hx))
    unfold hammingDistance at hrest ⊢
    simp only [List.length_cons, List.replicate_succ, List.zip_cons_cons, List.countP_cons,
      List.count_cons]
    push_cast
    rw [hrest]
    rcases h b (List.mem_cons_self _ _) with hb | hb <;> subst hb <;> simp

/-- C6 (degenerate scoring).  Take a team that starts empty and a pool of 0/1 vectors of one
length `len`, with a cache that holds only distances computed by `xorBinary`.  In every state
`deliverPizzas` goes through in which the team holds at least two pizzas, the team code is the
vector of `len` ones, and for every pizza still in the pool `xorBinary(team code, pizza code)`
returns the number of zeros in the pizza's vector. -/
theorem degenerate_scoring (team0 : Team) (pizzas0 : List Pizza) (w0 : World) (len : Nat)
    (hfresh : team0.pizzas = []) (hu : Uniform len pizzas0)
    (hbits : ∀ p ∈ pizzas0, ∀ b ∈ p.binaryCode, b = 0 ∨ b = 1)
    (hcache : CacheSound w0.xorBinaryCache) :
    ∀ running team pizzas w, Assembly team0 pizzas0 w0 running team pizzas w →
      2 ≤ team.pizzas.length →
      team.binaryCode = List.replicate len 1 ∧
        ∀ p ∈ pizzas, ∃ cache1,
          xorBinary team.binaryCode p.binaryCode w.xorBinaryCache =
            .ok (((p.binaryCode.count 0 : Nat) : Int), cache1) := by
  intro running team pizzas w h h2
  have hcode := (assembly_code _ _ _ len _ _ _ _ h hfresh hu).2 h2
  obtain ⟨-, -, hsub, -, -, hsound⟩ := assembly_frame _ _ _ _ _ _ _ h
  refine ⟨hcode, ?_⟩
  intro p hp
  have hp0 := hsub p hp
  have hlen := hu p hp0
  have hx : xorLoop team.binaryCode p.binaryCode 0 0 = .ok ((p.binaryCode.count 0 : Nat) : Int) := by
    rw [xorLoop_ok _ _ 0 0 (by rw [hcode]; simp [hlen]), hcode, ← hlen, List.drop_zero,
      hammingDistance_ones _ (hbits p hp0)]
    simp
  obtain ⟨cache1, hc1, -⟩ := xorBinary_of_sound _ _ _ _ (hsound hcache) hx
  exact ⟨cache1, hc1⟩

/-- Witness for C6: the state after the second pizza of a team of three on the four pizzas. -/
theorem degenerate_scoring_witness :
    (emptyTeam 3).pizzas = [] ∧ Uniform 3 fourPizzas ∧
      (∀ p ∈ fourPizzas, ∀ b ∈ p.binaryCode, b = 0 ∨ b = 1) ∧
      CacheSound (initialWorld (fun k => k)).xorBinaryCache ∧
      ∃ team pizzas w,
        deliverNextPizza ⟨3, [⟨0, [], [1, 0, 0]⟩], [1, 0, 0], false⟩
          [⟨3, [], [1, 1, 1]⟩, ⟨1, [], [0, 1, 0]⟩, ⟨2, [], [0, 0, 1]⟩]
          (initialWorld (fun k => k)) = .ok (team, pizzas, w) ∧
        team.binaryCode = List.replicate 3 1 ∧
        ∀ p ∈ pizzas, ∃ cache1,
          xorBinary team.binaryCode p.binaryCode w.xorBinaryCache =
            .ok (((p.binaryCode.count 0 : Nat) : Int), cache1) := by
  have hseed : Assembly (emptyTeam 3) fourPizzas (initialWorld (fun k => k)) true
      ⟨3, [⟨0, [], [1, 0, 0]⟩], [1, 0, 0], false⟩
      [⟨3, [], [1, 1, 1]⟩, ⟨1, [], [0, 1, 0]⟩, ⟨2, [], [0, 0, 1]⟩]
      (initialWorld (fun k => k)) :=
    @Assembly.seed (emptyTeam 3) fourPizzas (initialWorld (fun k => k)) _ _ rfl rfl
  have hnext := Assembly.next _ _ _ _ _ _ hseed rfl
  exact ⟨rfl, by decide, by decide, cacheSound_nil, _, _, _, rfl,
    degenerate_scoring (emptyTeam 3) fourPizzas (initialWorld (fun k => k)) 3 rfl (by decide)
      (by decide) cacheSound_nil _ _ _ _ hnext (by decide)⟩

theorem xorBinaryCalls_sound (calls : List (List Int × List Int))
    (cache : List (GoString × Int)) (hc : CacheSound cache)
    (h : ∀ c ∈ calls, c.1.length = c.2.length) :
    ∃ cache1, xorBinaryCalls calls cache =
      .ok (calls.map (fun c => hammingDistance c.1 c.2), cache1) := by
  induction calls generalizing cache with
  | nil => exact ⟨cache, rfl⟩
  | cons c rest ih =>
    obtain ⟨left, right⟩ := c
    have hlen : left.length = right.length := h (left, right) (List.mem_cons_self _ _)
    have hx : xorLoop left right 0 0 = .ok (hammingDistance left right) := by
      rw [xorLoop_ok left right 0 0 (by omega)]
      simp
    obtain ⟨cache1, h1, hs1⟩ := xorBinary_of_sound left right cache _ hc hx
    obtain ⟨cache2, h2⟩ := ih cache1 hs1 (fun c hcm => h c (List.mem_cons_of_mem _ hcm))
    refine ⟨cache2, ?_⟩
    rw [xorBinaryCalls, h1]
    simp only
    rw [h2]
    rfl

/-- C7 (cache correctness).  Starting from the empty cache, every call in every finite sequence
of `xorBinary` calls on pairs of vectors of equal length returns the number of positions at
which its two arguments differ, whether the pair has been seen before or not; and the key built
from an ordered pair of vectors determines the pair. -/
theorem cache_correct (calls : List (List Int × List Int))
    (h : ∀ c ∈ calls, c.1.length = c.2.length) :
    (∃ cache, xorBinaryCalls calls [] =
      .ok (calls.map (fun c => hammingDistance c.1 c.2), cache)) ∧
    (∀ l1 r1 l2 r2, cacheKey l1 r1 = cacheKey l2 r2 → l1 = l2 ∧ r1 = r2) :=
  ⟨xorBinaryCalls_sound calls [] cacheSound_nil h, cacheKey_injective⟩

/-- Witness for C7: a miss, a hit on the same pair, and a pair whose digits run together
differently (`[1 10]` against `[11 0]`). -/
theorem cache_correct_witness :
    (∀ c ∈ [(([1, 10] : List Int), ([11, 0] : List Int)), ([1, 10], [11, 0]), ([11, 0], [1, 10]),
        ([1, 1, 0], [1, 0, 0])], c.1.length = c.2.length) ∧
      ∃ cache, xorBinaryCalls [([1, 10], [11, 0]), ([1, 10], [11, 0]), ([11, 0], [1, 10]),
        ([1, 1, 0], [1, 0, 0])] [] = .ok ([2, 2, 2, 1], cache) :=
  ⟨by decide, (cache_correct [([1, 10], [11, 0]), ([1, 10], [11, 0]), ([11, 0], [1, 10]),
    ([1, 1, 0], [1, 0, 0])] (by decide)).1⟩

/-- Counterexample to C8 as stated: with the left vector shorter than the right one `xorBinary`
does not fail; it compares the first `len(left)` positions and returns (and caches) the count. -/
theorem shorter_left_returns :
    xorBinary [1] [1, 0] [] = .ok (0, [(cacheKey [1] [1, 0], 0)]) :=
  rfl

/-- C8, amended (length mismatch).  With a cache that holds only distances computed by
`xorBinary`: when the left vector is longer than the right one, `xorBinary` fails with an index
out of range; when the left vector is shorter, it returns the number of positions of the left
vector at which the two vectors differ. -/
theorem length_mismatch (left right : List Int) (cache : List (GoString × Int))
    (hc : CacheSound cache) :
    (right.length < left.length → xorBinary left right cache = .error .indexOutOfRange) ∧
    (left.length < right.length →
      ∃ cache1, xorBinary left right cache = .ok (hammingDistance left right, cache1)) := by
  constructor
  · intro hlt
    have herr := xorLoop_error left right 0 0 (by omega) (by omega)
    unfold xorBinary
    simp only
    split
    · rename_i v hv
      have := hc left right v hv
      rw [herr] at this
      cases this
    · rw [herr]
  · intro hlt
    have hx : xorLoop left right 0 0 = .ok (hammingDistance left right) := by
      rw [xorLoop_ok left right 0 0 (by omega)]
      simp
    obtain ⟨cache1, h1, -⟩ := xorBinary_of_sound left right cache _ hc hx
    exact ⟨cache1, h1⟩

/-- Witness for C8: one pair with the longer vector on the left, one with it on the right. -/
theorem length_mismatch_witness :
    CacheSound [] ∧ xorBinary [1, 0] [1] [] = .error .indexOutOfRange ∧
      ∃ cache1, xorBinary [1] [0, 1] [] = .ok (hammingDistance [1] [0, 1], cache1) :=
  ⟨cacheSound_nil, (length_mismatch [1, 0] [1] [] cacheSound_nil).1 (by decide),
    (length_mismatch [1] [0, 1] [] cacheSound_nil).2 (by decide)⟩

theorem sorted_getElem (teams : List Team) (hs : teams.Pairwise (fun a b => a.size ≤ b.size))
    (a b : Nat) (ta tb : Team) (hab : a ≤ b) (ha : teams[a]? = some ta)
    (hb : teams[b]? = some tb) : ta.size ≤ tb.size := by
  have hal := getElem?_lt _ _ _ ha
  have hbl := getElem?_lt _ _ _ hb
  rw [List.getElem?_eq_getElem hal] at ha
  rw [List.getElem?_eq_getElem hbl] at hb
  injection ha with ha
  injection hb with hb
  by_cases h : a = b
  · subst h
    rw [← ha, ← hb]
  · rw [List.pairwise_iff_getElem] at hs
    have := hs a b hal hbl (by omega)
    rw [ha, hb] at this
    exact this

/-- C9 (priority order).  For every header line `M T2 T3 ... Tk` (a first field without a space,
then decimal counts that fit the 64-bit `int`), `main` builds for every `j` exactly `Tj` teams
of capacity `j`, all empty and not complete; the iterations of the driver take teams of
non-increasing capacity; and in the state after any number `k` of iterations, on every pool and
every stream of random draws, a team of smaller capacity holds a pizza only if every team of
larger capacity is complete and full, and as long as the pool is not empty all teams processed
so far are complete and full.  The `k` iterations return on every non-empty pool of vectors of
one length. -/
theorem priority_order (first : GoString) (counts : List Nat) (hfirst : ' ' ∉ first)
    (hcounts : ∀ T ∈ counts, T < 2 ^ 63) :
    ∃ teams,
      buildTeams (joinSpace (first :: counts.map (fun (T : Nat) => formatInt (T : Int)))) =
        .ok teams ∧
      (∀ j : Nat, teams.countP (fun t => decide (t.size = (j : Int) + 2)) = counts.getD j 0) ∧
      (∀ t ∈ teams, t.pizzas = [] ∧ t.isComplete = false ∧ 2 ≤ t.size) ∧
      (∀ (i i2 : Nat) (ti ti2 : Team), i ≤ i2 → i2 < teams.length →
        teams[teams.length - 1 - i]? = some ti → teams[teams.length - 1 - i2]? = some ti2 →
        ti2.size ≤ ti.size) ∧
      (∀ (pizzas : List Pizza) (w : World) (k : Nat), k ≤ teams.length →
        (∀ res, allocLoop teams.length k 0 teams pizzas w = .ok res →
          (∀ (a b : Nat) (ta tb : Team), res.1[a]? = some ta → res.1[b]? = some tb →
            ta.size < tb.size → ta.pizzas ≠ [] →
            tb.isComplete = true ∧ (tb.pizzas.length : Int) = tb.size) ∧
          (res.2.1 ≠ [] → ∀ (b : Nat) (tb : Team), teams.length - k ≤ b →
            res.1[b]? = some tb →
            tb.isComplete = true ∧ (tb.pizzas.length : Int) = tb.size)) ∧
        (pizzas ≠ [] → ∀ len, Uniform len pizzas →
          ∃ res, allocLoop teams.length k 0 teams pizzas w = .ok res)) := by
  have hsorted := teamBlocks_sorted counts 0
  have hmem : ∀ t ∈ teamBlocks counts 0, t.pizzas = [] ∧ t.isComplete = false ∧ 2 ≤ t.size := by
    intro t ht
    obtain ⟨h1, -, h3, h4⟩ := teamBlocks_mem counts 0 t ht
    exact ⟨h1, h3, by push_cast at h4; omega⟩
  refine ⟨teamBlocks counts 0, buildTeams_eq first counts hfirst hcounts, ?_, hmem, ?_, ?_⟩
  · intro j
    rw [teamBlocks_count]
    simp
  · intro i i2 ti ti2 hle hlt h1 h2
    exact sorted_getElem _ hsorted _ _ _ _ (by omega) h2 h1
  · intro pizzas w k hk
    have hfresh : ∀ idx t, idx < (teamBlocks counts 0).length - 0 →
        (teamBlocks counts 0)[idx]? = some t →
        t.pizzas = [] ∧ t.isComplete = false ∧ 2 ≤ t.size :=
      fun idx t _ ht => hmem t (List.getElem?_mem ht)
    refine ⟨fun res h => ⟨?_, ?_⟩, ?_⟩
    · intro a b ta tb hta htb hlt hne
      have hlen := allocLoop_length _ _ _ _ _ _ _ h
      have hfill := allocLoop_fill _ _ _ _ _ _ _ h rfl (by omega) hfresh
      have hal : a < (teamBlocks counts 0).length := by
        rw [← hlen]; exact getElem?_lt _ _ _ hta
      have hbl : b < (teamBlocks counts 0).length := by
        rw [← hlen]; exact getElem?_lt _ _ _ htb
      have ha0 := List.getElem?_eq_getElem hal
      have hb0 := List.getElem?_eq_getElem hbl
      obtain ⟨ta1, p1, p2, -, p4, p5⟩ := hfill a _ ha0
      obtain ⟨tb1, q1, q2, -, -, q5⟩ := hfill b _ hb0
      rw [hta] at p1
      rw [htb] at q1
      injection p1 with p1
      injection q1 with q1
      subst p1
      subst q1
      have hab : a < b := by
        by_contra hc
        have := sorted_getElem _ hsorted b a _ _ (by omega) hb0 ha0
        omega
      have hproc : (teamBlocks counts 0).length - 0 - k ≤ a := by
        by_contra hc
        rw [p4 (by omega)] at hne
        exact hne (hmem _ (List.getElem?_mem ha0)).1
      obtain ⟨-, -, -, o4⟩ := p5 hproc (by omega)
      obtain ⟨o5, o6, -, -⟩ := q5 (by omega) (by omega)
      have hbefore : ¬ (pizzas.length : Int) ≤
          capBefore (teamBlocks counts 0) ((teamBlocks counts 0).length - 0) a :=
        fun hc => hne (o4 hc)
      have hmono := capBefore_mono (teamBlocks counts 0) ((teamBlocks counts 0).length - 0) a b _
        (fun j t _ ht => by
          have := (hmem t (List.getElem?_mem ht)).2.2
          omega)
        hab (by omega) (by omega) hb0
      have hfit : capBefore (teamBlocks counts 0) ((teamBlocks counts 0).length - 0) b +
          ((teamBlocks counts 0)[b]).size ≤ pizzas.length := by omega
      exact ⟨o5.2 hfit, by rw [o6 hfit, q2]⟩
    · intro hpool b tb hb htb
      have hlen := allocLoop_length _ _ _ _ _ _ _ h
      have hbl : b < (teamBlocks counts 0).length := by
        rw [← hlen]; exact getElem?_lt _ _ _ htb
      exact allocLoop_running _ _ _ _ _ _ _ h rfl (by omega) hfresh hpool b tb (by omega)
        (by omega) htb
    · intro hne len hu
      exact allocLoop_total _ _ _ _ _ _ len rfl (by omega) hne hu
        (fun idx t _ ht => (hmem t (List.getElem?_mem ht)).1)

/-- Witness for C9: the header `4 1 0 1` (one team of two, none of three, one of four) and the
four pizzas. -/
theorem priority_order_witness :
    ' ' ∉ ['4'] ∧ (∀ T ∈ [1, 0, 1], T < 2 ^ 63) ∧
      ∃ teams,
        buildTeams ['4', ' ', '1', ' ', '0', ' ', '1'] = .ok teams ∧
        teams.countP (fun t => decide (t.size = 2)) = 1 ∧
        teams.countP (fun t => decide (t.size = 3)) = 0 ∧
        teams.countP (fun t => decide (t.size = 4)) = 1 ∧
        ∃ res, allocLoop teams.length 1 0 teams fourPizzas (initialWorld (fun k => k)) =
          .ok res := by
  obtain ⟨teams, h1, h2, -, -, h5⟩ := priority_order ['4'] [1, 0, 1] (by decide) (by decide)
  have hk : 1 ≤ teams.length := by
    have : teams = [emptyTeam 2, emptyTeam 4] := by
      have h0 : buildTeams ['4', ' ', '1', ' ', '0', ' ', '1'] =
          .ok [emptyTeam 2, emptyTeam 4] := rfl
      have h1b : buildTeams ['4', ' ', '1', ' ', '0', ' ', '1'] = .ok teams := h1
      rw [h0] at h1b
      injection h1b with h1b
      exact h1b.symm
    rw [this]
    decide
  obtain ⟨res, hres⟩ := (h5 fourPizzas (initialWorld (fun k => k)) 1 hk).2 (by decide) 3
    (by decide)
  exact ⟨by decide, by decide, teams, h1, by simpa using h2 0, by simpa using h2 1,
    by simpa using h2 2, res, hres⟩

theorem countComplete_eq (teams : List Team) (c : Int) :
    countComplete teams c = c + ((teams.filter (fun t => t.isComplete)).length : Nat) := by
  induction teams generalizing c with
  | nil => simp [countComplete]
  | cons t rest ih =>
    rw [countComplete, ih]
    cases ht : t.isComplete
    · simp [ht]
    · simp [ht]
      omega

theorem writeTeams_eq (teams : List Team) :
    writeTeams teams = (teams.filter (fun t => t.isComplete)).flatMap teamLine := by
  induction teams with
  | nil => rfl
  | cons t rest ih =>
    rw [writeTeams, ih]
    cases ht : t.isComplete <;> simp [ht]

/-- C10 (partial fill).  Let the teams be empty, not complete and of capacity at least two, and
let `before` be the total capacity of the teams the driver takes before a given team (those at
the higher indices).  When the driver has finished on a pool of `n` pizzas, the team is complete
if and only if `before + size ≤ n`, and then it is full; if `before ≤ n < before + size` it holds
exactly the `n - before` leftover pizzas (and is not complete); if `n ≤ before` it holds nothing.
The output file counts and lists exactly the complete teams.  The driver does finish on every
non-empty pool of vectors of one length. -/
theorem partial_fill (teams : List Team) (pizzas : List Pizza) (w : World)
    (hfresh : ∀ t ∈ teams, t.pizzas = [] ∧ t.isComplete = false ∧ 2 ≤ t.size) :
    (∀ res, allocate teams pizzas w = .ok res →
      (∀ (idx : Nat) (t : Team), teams[idx]? = some t →
        ∃ t1, res.1[idx]? = some t1 ∧ t1.size = t.size ∧
          (t1.isComplete = true ↔
            capBefore teams teams.length idx + t.size ≤ pizzas.length) ∧
          (capBefore teams teams.length idx + t.size ≤ pizzas.length →
            (t1.pizzas.length : Int) = t.size) ∧
          (capBefore teams teams.length idx ≤ pizzas.length →
            (pizzas.length : Int) < capBefore teams teams.length idx + t.size →
            (t1.pizzas.length : Int) = pizzas.length - capBefore teams teams.length idx) ∧
          ((pizzas.length : Int) ≤ capBefore teams teams.length idx → t1.pizzas = [])) ∧
      writeOutput res.1 =
        formatInt ((res.1.filter (fun t => t.isComplete)).length : Nat) ++
          (Char.ofNat 10 :: (res.1.filter (fun t => t.isComplete)).flatMap teamLine)) ∧
    (pizzas ≠ [] → ∀ len, Uniform len pizzas → ∃ res, allocate teams pizzas w = .ok res) := by
  refine ⟨fun res h => ⟨?_, ?_⟩, ?_⟩
  · intro idx t ht
    have hidx := getElem?_lt _ _ _ ht
    obtain ⟨t1, r1, r2, -, -, r5⟩ := allocLoop_fill _ _ _ _ _ _ _ h rfl (by omega)
      (fun idx t _ ht => hfresh t (List.getElem?_mem ht)) idx t ht
    have hout := r5 (by omega) (by omega)
    simp only [Nat.sub_zero] at hout
    exact ⟨t1, r1, r2, hout⟩
  · unfold writeOutput
    rw [countComplete_eq, writeTeams_eq]
    simp
  · intro hne len hu
    exact allocLoop_total _ _ _ _ _ _ len rfl (by omega) hne hu
      (fun idx t _ ht => (hfresh t (List.getElem?_mem ht)).1)

/-- Witness for C10: a team of two and a team of three on the four pizzas; the team of three
(index 1) is taken first and complete, the team of two gets the one pizza left over. -/
theorem partial_fill_witness :
    (∀ t ∈ [emptyTeam 2, emptyTeam 3], t.pizzas = [] ∧ t.isComplete = false ∧ 2 ≤ t.size) ∧
      ∃ res t0 t1,
        allocate [emptyTeam 2, emptyTeam 3] fourPizzas (initialWorld (fun k => k)) = .ok res ∧
        res.1[0]? = some t0 ∧ res.1[1]? = some t1 ∧
        t1.isComplete = true ∧ (t1.pizzas.length : Int) = 3 ∧
        ¬ (t0.isComplete = true) ∧ (t0.pizzas.length : Int) = 1 := by
  have hfresh : ∀ t ∈ [emptyTeam 2, emptyTeam 3],
      t.pizzas = [] ∧ t.isComplete = false ∧ 2 ≤ t.size := by decide
  have h := partial_fill [emptyTeam 2, emptyTeam 3] fourPizzas (initialWorld (fun k => k)) hfresh
  obtain ⟨res, hres⟩ := h.2 (by decide) 3 (by decide)
  obtain ⟨t0, a1, -, a3, -, a5, -⟩ := (h.1 res hres).1 0 (emptyTeam 2) rfl
  obtain ⟨t1, b1, -, b3, b4, -, -⟩ := (h.1 res hres).1 1 (emptyTeam 3) rfl
  have c0 : capBefore [emptyTeam 2, emptyTeam 3] 2 0 = 3 := by decide
  have c1 : capBefore [emptyTeam 2, emptyTeam 3] 2 1 = 0 := by decide
  have hl : [emptyTeam 2, emptyTeam 3].length = 2 := rfl
  have hp : (fourPizzas.length : Int) = 4 := rfl
  have hs2 : (emptyTeam 2).size = 2 := rfl
  have hs3 : (emptyTeam 3).size = 3 := rfl
  rw [hl, c0, hp, hs2] at a3 a5
  rw [hl, c1, hp, hs3] at b3 b4
  refine ⟨hfresh, res, t0, t1, hres, a1, b1, b3.2 (by decide), b4 (by decide), ?_, ?_⟩
  · intro hc
    have := a3.1 hc
    omega
  · have := a5 (by decide) (by decide)
    omega

/-- C11 (empty pool at the start): with zero pizzas and one team the driver does not terminate
normally.  On the input file whose only line is the header `0 1`, `deliverPizzas` calls
`deliverFirstPizza` on the empty pool, which reads `pizzas[0]`: the run panics with an index out
of range and writes no output, for every stream of random draws. -/
theorem empty_pool_panics (draws : Nat → Nat) :
    allocate [emptyTeam 2] [] (initialWorld draws) = .error .indexOutOfRange ∧
      main [['0', ' ', '1']] draws = .error .indexOutOfRange :=
  ⟨rfl, rfl⟩

/-- C12 (seeding).  On a team without pizzas and a non-empty pool, `deliverFirstPizza` (which
neither reads the cache nor draws a random number) returns; the team then holds exactly the
pizza at pool position 0 and has its vector as code, its capacity and completion flag are
unchanged; the returned pool is the old pool with position 0 overwritten by the old last element
and cut by one, it is one shorter, and together with the seed it is a permutation of the old
pool. -/
theorem seeding (team : Team) (pizzas : List Pizza) (hteam : team.pizzas = [])
    (hne : pizzas ≠ []) :
    ∃ first last rest, pizzas[0]? = some first ∧ pizzas[pizzas.length - 1]? = some last ∧
      deliverFirstPizza team pizzas =
        .ok (⟨team.size, [first], first.binaryCode, team.isComplete⟩, rest) ∧
      rest = (pizzas.set 0 last).take (pizzas.length - 1) ∧
      rest.length + 1 = pizzas.length ∧ (first :: rest).Perm pizzas := by
  have hlen : 0 < pizzas.length := List.length_pos.2 hne
  have hlast : pizzas.length - 1 < pizzas.length := by omega
  obtain ⟨⟨team1, rest⟩, hf⟩ := deliverFirstPizza_total team pizzas hne
  obtain ⟨first, hp, hr, ht⟩ := deliverFirstPizza_ok _ _ _ _ hf
  obtain ⟨q, hq, hperm, hl⟩ := removePizza_ok hr
  have hqf : q = first := by
    rw [hp] at hq
    exact (Option.some.inj hq).symm
  subst hqf
  refine ⟨q, pizzas[pizzas.length - 1], rest, hp, List.getElem?_eq_getElem hlast, ?_, ?_, hl,
    hperm⟩
  · rw [hf, ht, hteam]
    rfl
  · unfold removePizza at hr
    simp only at hr
    rw [if_neg (by omega), List.getElem?_eq_getElem hlast] at hr
    simp only [if_pos hlen] at hr
    injection hr with hr
    exact hr.symm

/-- Witness for C12: the seed of a team of two on the four pizzas. -/
theorem seeding_witness :
    (emptyTeam 2).pizzas = [] ∧ fourPizzas ≠ [] ∧
      deliverFirstPizza (emptyTeam 2) fourPizzas =
        .ok (⟨2, [⟨0, [], [1, 0, 0]⟩], [1, 0, 0], false⟩,
          [⟨3, [], [1, 1, 1]⟩, ⟨1, [], [0, 1, 0]⟩, ⟨2, [], [0, 0, 1]⟩]) ∧
      ∃ first last rest, fourPizzas[0]? = some first ∧
        fourPizzas[fourPizzas.length - 1]? = some last ∧
        rest = (fourPizzas.set 0 last).take (fourPizzas.length - 1) ∧
        (first :: rest).Perm fourPizzas := by
  obtain ⟨first, last, rest, h1, h2, -, h4, -, h6⟩ :=
    seeding (emptyTeam 2) fourPizzas rfl (by decide)
  exact ⟨rfl, by decide, rfl, first, last, rest, h1, h2, h4, h6⟩

theorem appendTeams_fresh (n : Nat) (j : Nat) (teams : List Team)
    (h : ∀ t ∈ teams, t.pizzas = [] ∧ t.isComplete = false ∧ 2 ≤ t.size) :
    ∀ t ∈ appendTeams n ((j : Int) + 2) teams,
      t.pizzas = [] ∧ t.isComplete = false ∧ 2 ≤ t.size := by
  rw [appendTeams_eq]
  intro t ht
  rcases List.mem_append.1 ht with ht | ht
  · exact h t ht
  · have := (List.mem_replicate.1 ht).2
    subst this
    exact ⟨rfl, rfl, by simp only; omega⟩

theorem headerLoop_fresh (parts : List GoString) (j : Nat) (teams : List Team)
    (h : ∀ t ∈ teams, t.pizzas = [] ∧ t.isComplete = false ∧ 2 ≤ t.size) :
    ∀ t ∈ headerLoop parts j teams, t.pizzas = [] ∧ t.isComplete = false ∧ 2 ≤ t.size := by
  induction parts generalizing j teams with
  | nil => simpa [headerLoop] using h
  | cons part rest ih =>
    rw [headerLoop]
    exact ih _ _ (appendTeams_fresh _ j teams h)

/-- The header loop never fails, whatever the header line is, and only builds empty teams of
capacity at least two. -/
theorem buildTeams_total (headerLine : GoString) :
    ∃ teams, buildTeams headerLine = .ok teams ∧
      ∀ t ∈ teams, t.pizzas = [] ∧ t.isComplete = false ∧ 2 ≤ t.size := by
  obtain ⟨piece, pieces, hs⟩ := List.exists_cons_of_ne_nil (splitSpace_ne_nil headerLine)
  refine ⟨headerLoop pieces 0 [], ?_, headerLoop_fresh pieces 0 [] (by simp)⟩
  unfold buildTeams
  rw [hs]

theorem atoi_error_value (s : GoString) (h : (atoi s).2 = false) :
    (atoi s).1 = 0 ∨ (atoi s).1 = 2 ^ 63 - 1 ∨ (atoi s).1 = -(2 ^ 63) := by
  unfold atoi at h ⊢
  simp only at h ⊢
  split
  · exact Or.inl rfl
  · rename_i hne
    rw [if_neg hne] at h
    split
    · exact Or.inl rfl
    · rename_i n hn
      rw [hn] at h
      simp only at h
      split
      · rename_i hs
        rw [if_pos hs] at h
        split
        · exact Or.inr (Or.inr rfl)
        · rename_i hbig
          rw [if_neg hbig] at h
          cases h
      · rename_i hs
        rw [if_neg hs] at h
        split
        · exact Or.inr (Or.inl rfl)
        · rename_i hbig
          rw [if_neg hbig] at h
          cases h

/-! ## The ingredient catalog -/

theorem lookup_none_iff (m : List (GoString × Nat)) (a : GoString) :
    m.lookup a = none ↔ a ∉ m.map Prod.fst := by
  rw [List.lookup_eq_none_iff]
  constructor
  · intro h hm
    obtain ⟨p, hp, rfl⟩ := List.mem_map.1 hm
    have := h p hp
    simp at this
  · intro h p hp
    have : p.1 ≠ a := fun he => h (List.mem_map.2 ⟨p, hp, he⟩)
    simpa using fun he => this he.symm

theorem lookup_mem (m : List (GoString × Nat)) (a : GoString) (p : Nat)
    (h : m.lookup a = some p) : (a, p) ∈ m := by
  rw [List.lookup_eq_some_iff] at h
  obtain ⟨l1, l2, rfl, -⟩ := h
  simp

theorem lookup_of_mem (m : List (GoString × Nat)) (a : GoString) (p : Nat)
    (hnd : (m.map Prod.fst).Nodup) (h : (a, p) ∈ m) : m.lookup a = some p := by
  induction m with
  | nil => simp at h
  | cons e rest ih =>
    obtain ⟨k, v⟩ := e
    rw [List.map_cons, List.nodup_cons] at hnd
    rw [List.lookup_cons]
    rcases List.mem_cons.1 h with h | h
    · cases h
      simp
    · have hne : a ≠ k := by
        intro he
        rw [← he] at hnd
        exact hnd.1 (List.mem_map.2 ⟨(a, p), h, rfl⟩)
      have hb : (a == k) = false := by simpa using hne
      rw [hb]
      exact ih hnd.2 h

theorem entry_at_position (m : List (GoString × Nat)) (a : GoString) (p : Nat)
    (hr : m.map Prod.snd = List.range m.length) (h : (a, p) ∈ m) : m[p]? = some (a, p) := by
  obtain ⟨i, hi⟩ := List.mem_iff_getElem?.1 h
  have hlt : i < m.length := by
    by_contra hc
    rw [List.getElem?_eq_none (Nat.le_of_not_lt hc)] at hi
    cases hi
  have h1 : (m.map Prod.snd)[i]? = some p := by
    rw [List.getElem?_map, hi]
    rfl
  rw [hr, List.getElem?_range hlt] at h1
  injection h1 with h1
  subst h1
  exact hi

theorem firstIndex_append_of_mem (a : GoString) (l1 l2 : List GoString) (h : a ∈ l1) :
    firstIndex a (l1 ++ l2) = firstIndex a l1 :=
  List.indexOf_append_of_mem h

theorem firstIndex_append_singleton (a : GoString) (l : List GoString) (h : a ∉ l) :
    firstIndex a (l ++ [a]) = l.length := by
  unfold firstIndex
  rw [List.indexOf_append_of_not_mem h]
  simp

theorem firstIndex_lt_length (a : GoString) (l : List GoString) (h : a ∈ l) :
    firstIndex a l < l.length :=
  List.indexOf_lt_length.2 h

theorem catalogInv_nil : CatalogInv [] 0 [] := by
  refine ⟨rfl, rfl, List.nodup_nil, fun a => Iff.rfl, ?_⟩
  intro i j a b hi
  simp at hi

theorem catalogInv_seen (m : List (GoString × Nat)) (idx : Nat) (seen : List GoString)
    (x : GoString) (h : CatalogInv m idx seen) (hx : x ∈ m.map Prod.fst) :
    CatalogInv m idx (seen ++ [x]) := by
  obtain ⟨h1, h2, h3, h4, h5⟩ := h
  have hxs : x ∈ seen := (h4 x).1 hx
  refine ⟨h1, h2, h3, ?_, ?_⟩
  · intro a
    rw [h4 a, List.mem_append, List.mem_singleton]
    constructor
    · exact Or.inl
    · rintro (ha | ha)
      · exact ha
      · rw [ha]; exact hxs
  · intro i j a b hi hj
    have ha : a ∈ seen := (h4 a).1 (List.getElem?_mem hi)
    have hb : b ∈ seen := (h4 b).1 (List.getElem?_mem hj)
    rw [firstIndex_append_of_mem a _ _ ha, firstIndex_append_of_mem b _ _ hb]
    exact h5 i j a b hi hj

theorem catalogInv_new (m : List (GoString × Nat)) (idx : Nat) (seen : List GoString)
    (x : GoString) (h : CatalogInv m idx seen) (hx : x ∉ m.map Prod.fst) :
    CatalogInv (m ++ [(x, idx)]) (idx + 1) (seen ++ [x]) := by
  obtain ⟨h1, h2, h3, h4, h5⟩ := h
  have hxs : x ∉ seen := fun hc => hx ((h4 x).2 hc)
  have hkeys : (m ++ [(x, idx)]).map Prod.fst = m.map Prod.fst ++ [x] := by simp
  have hlen : (m.map Prod.fst).length = m.length := by simp
  have hxi : firstIndex x (seen ++ [x]) = seen.length := firstIndex_append_singleton x seen hxs
  refine ⟨by simp [h1], ?_, ?_, ?_, ?_⟩
  · rw [List.map_append, h2, List.length_append, List.length_singleton, List.range_succ, h1]
    rfl
  · rw [hkeys, List.nodup_append]
    refine ⟨h3, List.nodup_singleton x, ?_⟩
    intro a ha hax
    rw [List.mem_singleton] at hax
    subst hax
    exact hx ha
  · intro a
    rw [hkeys, List.mem_append, List.mem_append, h4 a]
  · intro i j a b hi hj
    rw [hkeys] at hi hj
    by_cases hil : i < m.length
    · rw [List.getElem?_append_left (by rw [hlen]; exact hil)] at hi
      have ha : a ∈ seen := (h4 a).1 (List.getElem?_mem hi)
      rw [firstIndex_append_of_mem a _ _ ha]
      by_cases hjl : j < m.length
      · rw [List.getElem?_append_left (by rw [hlen]; exact hjl)] at hj
        have hb : b ∈ seen := (h4 b).1 (List.getElem?_mem hj)
        rw [firstIndex_append_of_mem b _ _ hb]
        exact h5 i j a b hi hj
      · rw [List.getElem?_append_right (by rw [hlen]; omega)] at hj
        have hbx : b = x := by
          have hm := List.getElem?_mem hj
          simpa using hm
        subst hbx
        rw [hxi]
        have := firstIndex_lt_length a seen ha
        constructor
        · intro _; exact this
        · intro _; omega
    · rw [List.getElem?_append_right (by rw [hlen]; omega)] at hi
      have hax : a = x := by
        have hm := List.getElem?_mem hi
        simpa using hm
      subst hax
      have hi0 : i = m.length := by
        have hlt := getElem?_lt _ _ _ hi
        simp at hlt
        omega
      rw [hxi]
      by_cases hjl : j < m.length
      · rw [List.getElem?_append_left (by rw [hlen]; exact hjl)] at hj
        have hb : b ∈ seen := (h4 b).1 (List.getElem?_mem hj)
        rw [firstIndex_append_of_mem b _ _ hb]
        have := firstIndex_lt_length b seen hb
        constructor
        · intro _; omega
        · intro _; omega
      · rw [List.getElem?_append_right (by rw [hlen]; omega)] at hj
        have hbx : b = a := by
          have hm := List.getElem?_mem hj
          simpa using hm
        subst hbx
        have hj0 : j = m.length := by
          have hlt := getElem?_lt _ _ _ hj
          simp at hlt
          omega
        rw [hxi]
        omega

theorem catalogLoop_inv (ingredients : List GoString) (m : List (GoString × Nat)) (idx : Nat)
    (seen : List GoString) (h : CatalogInv m idx seen) :
    CatalogInv (catalogLoop ingredients m idx).1 (catalogLoop ingredients m idx).2
      (seen ++ ingredients) := by
  induction ingredients generalizing m idx seen with
  | nil => simpa [catalogLoop] using h
  | cons x rest ih =>
    have happ : seen ++ x :: rest = (seen ++ [x]) ++ rest := by simp
    rw [catalogLoop, happ]
    split
    · rename_i v hv
      have hx : x ∈ m.map Prod.fst := by
        by_contra hc
        rw [(lookup_none_iff m x).2 hc] at hv
        cases hv
      exact ih _ _ _ (catalogInv_seen m idx seen x h hx)
    · rename_i hv
      exact ih _ _ _ (catalogInv_new m idx seen x h ((lookup_none_iff m x).1 hv))

theorem parseLoop_spec (lines : List GoString) (pizzaId : Nat) (m : List (GoString × Nat))
    (idx : Nat) (seen : List GoString) (h : CatalogInv m idx seen) :
    ∃ pizzas m1 idx1, parseLoop lines pizzaId m idx = .ok (pizzas, m1, idx1) ∧
      CatalogInv m1 idx1 (seen ++ allIngredients lines) ∧ pizzas.length = lines.length ∧
      ∀ (i : Nat) (line : GoString), lines[i]? = some line →
        pizzas[i]? = some ⟨((pizzaId + i : Nat) : Int), ingredientsOf line, []⟩ := by
  induction lines generalizing pizzaId m idx seen with
  | nil =>
    refine ⟨[], m, idx, rfl, by simpa [allIngredients] using h, rfl, ?_⟩
    intro i line hl
    simp at hl
  | cons line rest ih =>
    obtain ⟨piece, ingredients, hs⟩ := List.exists_cons_of_ne_nil (splitSpace_ne_nil line)
    have hing : ingredientsOf line = ingredients := by
      unfold ingredientsOf
      rw [hs]
      rfl
    have hinv := catalogLoop_inv ingredients m idx seen h
    obtain ⟨pizzas, m1, idx1, h1, h2, h3, h4⟩ := ih (pizzaId + 1) _ _ _ hinv
    refine ⟨⟨(pizzaId : Int), ingredients, []⟩ :: pizzas, m1, idx1, ?_, ?_, by simp [h3], ?_⟩
    · rw [parseLoop, hs]
      simp only
      rw [h1]
    · have : seen ++ allIngredients (line :: rest) =
          seen ++ ingredients ++ allIngredients rest := by
        simp [allIngredients, hing]
      rw [this]
      exact h2
    · intro i l hl
      cases i with
      | zero =>
        simp only [List.getElem?_cons_zero] at hl ⊢
        injection hl with hl
        subst hl
        rw [hing]
        rfl
      | succ i =>
        simp only [List.getElem?_cons_succ] at hl ⊢
        rw [h4 i l hl]
        congr 3
        omega

theorem encodeLoop_spec (ingredients : List GoString) (m : List (GoString × Nat))
    (code : List Int) (h : ∀ x ∈ ingredients, (m.lookup x).getD 0 < code.length) :
    ∃ code1, encodeLoop ingredients m code = .ok code1 ∧ code1.length = code.length ∧
      (∀ p, (∃ x ∈ ingredients, (m.lookup x).getD 0 = p) → code1[p]? = some 1) ∧
      (∀ p, (¬ ∃ x ∈ ingredients, (m.lookup x).getD 0 = p) → code1[p]? = code[p]?) := by
  induction ingredients generalizing code with
  | nil =>
    refine ⟨code, rfl, rfl, ?_, fun p _ => rfl⟩
    rintro p ⟨x, hx, -⟩
    simp at hx
  | cons x rest ih =>
    have hx := h x (List.mem_cons_self _ _)
    obtain ⟨code1, h1, h2, h3, h4⟩ := ih (code.set ((m.lookup x).getD 0) 1)
      (by
        intro y hy
        rw [List.length_set]
        exact h y (List.mem_cons_of_mem _ hy))
    refine ⟨code1, ?_, by rw [h2, List.length_set], ?_, ?_⟩
    · rw [encodeLoop]
      simp only [if_pos hx]
      exact h1
    · rintro p ⟨y, hy, hyp⟩
      by_cases hr : ∃ z ∈ rest, (m.lookup z).getD 0 = p
      · exact h3 p hr
      · rw [h4 p hr]
        rcases List.mem_cons.1 hy with hy | hy
        · subst hy
          rw [← hyp]
          exact List.getElem?_set_self hx
        · exact absurd ⟨y, hy, hyp⟩ hr
    · intro p hp
      have hr : ¬ ∃ z ∈ rest, (m.lookup z).getD 0 = p := by
        rintro ⟨z, hz, hzp⟩
        exact hp ⟨z, List.mem_cons_of_mem _ hz, hzp⟩
      have hne : (m.lookup x).getD 0 ≠ p := fun he => hp ⟨x, List.mem_cons_self _ _, he⟩
      rw [h4 p hr, List.getElem?_set_ne hne]

theorem encodePizzas_spec (pizzas : List Pizza) (m : List (GoString × Nat))
    (h : ∀ pizza ∈ pizzas, ∀ x ∈ pizza.ingredients, (m.lookup x).getD 0 < m.length) :
    ∃ out, encodePizzas pizzas m = .ok out ∧ out.length = pizzas.length ∧
      ∀ (i : Nat) (pizza : Pizza), pizzas[i]? = some pizza →
        ∃ code, out[i]? = some ⟨pizza.id, pizza.ingredients, code⟩ ∧ code.length = m.length ∧
          (∀ p, (∃ x ∈ pizza.ingredients, (m.lookup x).getD 0 = p) → code[p]? = some 1) ∧
          (∀ p, (¬ ∃ x ∈ pizza.ingredients, (m.lookup x).getD 0 = p) →
            code[p]? = (List.replicate m.length (0 : Int))[p]?) := by
  induction pizzas with
  | nil =>
    refine ⟨[], rfl, rfl, ?_⟩
    intro i pizza hp
    simp at hp
  | cons pizza rest ih =>
    obtain ⟨code, c1, c2, c3, c4⟩ := encodeLoop_spec pizza.ingredients m
      (List.replicate m.length 0)
      (by
        intro x hx
        rw [List.length_replicate]
        exact h pizza (List.mem_cons_self _ _) x hx)
    obtain ⟨out, o1, o2, o3⟩ := ih (fun q hq => h q (List.mem_cons_of_mem _ hq))
    refine ⟨⟨pizza.id, pizza.ingredients, code⟩ :: out, ?_, by simp [o2], ?_⟩
    · rw [encodePizzas, c1]
      simp only
      rw [o1]
    · intro i q hq
      cases i with
      | zero =>
        simp only [List.getElem?_cons_zero] at hq ⊢
        injection hq with hq
        subst hq
        exact ⟨code, rfl, by rw [c2, List.length_replicate], c3, c4⟩
      | succ i =>
        simp only [List.getElem?_cons_succ] at hq ⊢
        exact o3 i q hq

theorem lookup_of_key (m : List (GoString × Nat)) (x : GoString)
    (hr : m.map Prod.snd = List.range m.length) (hx : x ∈ m.map Prod.fst) :
    ∃ p, m.lookup x = some p ∧ (x, p) ∈ m ∧ p < m.length := by
  cases hl : m.lookup x with
  | none => exact absurd hx ((lookup_none_iff m x).1 hl)
  | some p =>
    have hmem := lookup_mem m x p hl
    exact ⟨p, rfl, hmem, getElem?_lt _ _ _ (entry_at_position m x p hr hmem)⟩

/-- What `main` has built when the allocation starts: empty teams of capacity at least two, the
catalog of all labels, and one pizza per line whose vector has the length of the catalog and
holds 1 exactly at the positions of its own labels. -/
theorem load_spec (headerLine : GoString) (pizzaLines : List GoString) :
    ∃ teams pizzas catalog, load (headerLine :: pizzaLines) = .ok (teams, pizzas, catalog) ∧
      buildTeams headerLine = .ok teams ∧
      (∀ t ∈ teams, t.pizzas = [] ∧ t.isComplete = false ∧ 2 ≤ t.size) ∧
      CatalogInv catalog catalog.length (allIngredients pizzaLines) ∧
      pizzas.length = pizzaLines.length ∧
      ∀ (i : Nat) (line : GoString), pizzaLines[i]? = some line →
        ∃ code, pizzas[i]? = some ⟨(i : Int), ingredientsOf line, code⟩ ∧
          code.length = catalog.length ∧
          ∀ p label, (label, p) ∈ catalog →
            code[p]? = some (if label ∈ ingredientsOf line then 1 else 0) := by
  obtain ⟨teams, ht, hfresh⟩ := buildTeams_total headerLine
  obtain ⟨pizzas0, m, idx, hp1, hinv, hp3, hp4⟩ := parseLoop_spec pizzaLines 0 [] 0 [] catalogInv_nil
  simp only [List.nil_append] at hinv
  obtain ⟨i1, i2, i3, i4, i5⟩ := hinv
  have hpre : ∀ pizza ∈ pizzas0, ∀ x ∈ pizza.ingredients, (m.lookup x).getD 0 < m.length := by
    intro pizza hpz x hx
    obtain ⟨i, hi⟩ := List.mem_iff_getElem?.1 hpz
    have hil : i < pizzaLines.length := by
      rw [← hp3]; exact getElem?_lt _ _ _ hi
    have := hp4 i _ (List.getElem?_eq_getElem hil)
    rw [hi] at this
    injection this with this
    subst this
    have hall : x ∈ allIngredients pizzaLines :=
      List.mem_flatMap.2 ⟨pizzaLines[i], List.getElem_mem hil, hx⟩
    obtain ⟨p, hl, -, hlt⟩ := lookup_of_key m x i2 ((i4 x).2 hall)
    rw [hl]
    exact hlt
  obtain ⟨pizzas, he1, he2, he3⟩ := encodePizzas_spec pizzas0 m hpre
  refine ⟨teams, pizzas, m, ?_, ht, hfresh, ⟨rfl, i2, i3, i4, i5⟩, by rw [he2, hp3], ?_⟩
  · unfold load
    simp only
    rw [ht]
    simp only
    rw [hp1]
    simp only
    rw [he1]
  · intro i line hline
    obtain ⟨code, c1, c2, c3, c4⟩ := he3 i _ (hp4 i line hline)
    simp only [Nat.zero_add] at c1 c3 c4
    refine ⟨code, c1, c2, ?_⟩
    intro p label hmem
    have hlook := lookup_of_mem m label p i3 hmem
    have hentry := entry_at_position m label p i2 hmem
    have hplt := getElem?_lt _ _ _ hentry
    by_cases hin : label ∈ ingredientsOf line
    · rw [if_pos hin]
      exact c3 p ⟨label, hin, by rw [hlook]; rfl⟩
    · rw [if_neg hin, c4 p, List.getElem?_replicate, if_pos hplt]
      rintro ⟨x, hx, hxp⟩
      have hall : x ∈ allIngredients pizzaLines :=
        List.mem_flatMap.2 ⟨line, List.getElem?_mem hline, hx⟩
      obtain ⟨q, hl, hq, -⟩ := lookup_of_key m x i2 ((i4 x).2 hall)
      rw [hl] at hxp
      simp only [Option.getD_some] at hxp
      subst hxp
      have := entry_at_position m x q i2 hq
      rw [hentry] at this
      injection this with this
      injection this with this
      exact hin (by rw [this]; exact hx)

/-- C14 (feature catalog and bit vectors).  For every header line and every list of pizza lines,
`main` builds a catalog of `k` entries and one pizza per line such that: the `p`-th entry of the
catalog carries position `p` (positions `0..k-1`), no label occurs twice, the labels of the
catalog are exactly the labels of the pizza lines, `k` is the number of distinct labels, a label
has a smaller position exactly when its first occurrence comes earlier; every pizza has the
number of its line as identity, the labels of its line as ingredients, and a vector of length
`k` that holds 1 at position `p` if the pizza has the label mapped to `p` and 0 otherwise. -/
theorem feature_catalog (headerLine : GoString) (pizzaLines : List GoString) :
    ∃ teams pizzas catalog, load (headerLine :: pizzaLines) = .ok (teams, pizzas, catalog) ∧
      catalog.map Prod.snd = List.range catalog.length ∧
      (catalog.map Prod.fst).Nodup ∧
      (∀ label, label ∈ catalog.map Prod.fst ↔ label ∈ allIngredients pizzaLines) ∧
      catalog.length = (allIngredients pizzaLines).dedup.length ∧
      (∀ (a b : GoString) (pa pb : Nat), (a, pa) ∈ catalog → (b, pb) ∈ catalog →
        (pa < pb ↔
          firstIndex a (allIngredients pizzaLines) < firstIndex b (allIngredients pizzaLines))) ∧
      pizzas.length = pizzaLines.length ∧
      (∀ (i : Nat) (line : GoString), pizzaLines[i]? = some line →
        ∃ code, pizzas[i]? = some ⟨(i : Int), ingredientsOf line, code⟩ ∧
          code.length = catalog.length ∧
          ∀ p label, (label, p) ∈ catalog →
            code[p]? = some (if label ∈ ingredientsOf line then 1 else 0)) := by
  obtain ⟨teams, pizzas, catalog, h1, -, -, ⟨-, i2, i3, i4, i5⟩, h5, h6⟩ :=
    load_spec headerLine pizzaLines
  refine ⟨teams, pizzas, catalog, h1, i2, i3, i4, ?_, ?_, h5, h6⟩
  · have hperm : (catalog.map Prod.fst).Perm (allIngredients pizzaLines).dedup := by
      rw [List.perm_ext_iff_of_nodup i3 (List.nodup_dedup _)]
      intro a
      rw [i4 a, List.mem_dedup]
    have := hperm.length_eq
    simpa using this
  · intro a b pa pb ha hb
    have ea := entry_at_position catalog a pa i2 ha
    have eb := entry_at_position catalog b pb i2 hb
    refine i5 pa pb a b ?_ ?_
    · rw [List.getElem?_map, ea]; rfl
    · rw [List.getElem?_map, eb]; rfl

/-! ## What the allocation does to the pizzas -/

theorem assembly_items (team0 : Team) (pizzas0 : List Pizza) (w0 : World) (running : Bool)
    (team : Team) (pizzas : List Pizza) (w : World)
    (h : Assembly team0 pizzas0 w0 running team pizzas w) (hfresh : team0.pizzas = []) :
    Preserved pizzas0 team := by
  induction h with
  | entry hne => simp [hfresh] at hne
  | seed team1 pizzas1 hempty hf =>
    obtain ⟨pizza, hp, hr, ht⟩ := deliverFirstPizza_ok _ _ _ _ hf
    subst ht
    simp only [Preserved, hfresh, List.nil_append, List.tail_cons, List.mem_singleton]
    refine ⟨fun p hp2 => by simp at hp2, ?_⟩
    intro p hp2
    subst hp2
    exact ⟨p, List.getElem?_mem hp, rfl, rfl⟩
  | next team team1 pizzas pizzas1 w w1 hprev hn ih =>
    obtain ⟨ih1, ih2⟩ := ih
    have hsub := (assembly_frame _ _ _ _ _ _ _ hprev).2.2.1
    obtain ⟨chosen, index, hidx, -, -, hps, -⟩ := deliverNextPizza_step _ _ _ _ _ _ hn
    have hchosen : chosen ∈ pizzas0 := hsub chosen (List.getElem?_mem hidx)
    unfold Preserved
    rw [hps]
    cases hteam : team.pizzas with
    | nil =>
      simp only [shareCode, List.nil_append, List.tail_cons, List.mem_singleton]
      refine ⟨fun p hp2 => by simp at hp2, ?_⟩
      intro p hp2
      subst hp2
      exact ⟨p, hchosen, rfl, rfl⟩
    | cons s r =>
      rw [hteam] at ih1 ih2
      simp only [shareCode, List.cons_append, List.tail_cons]
      constructor
      · intro p hp2
        rcases List.mem_append.1 hp2 with hp2 | hp2
        · exact ih1 p (by simpa using hp2)
        · rw [List.mem_singleton] at hp2
          rw [hp2]; exact hchosen
      · intro p hp2
        rcases List.mem_cons.1 hp2 with hp2 | hp2
        · obtain ⟨p0, h0, h1, h2⟩ := ih2 s (List.mem_cons_self _ _)
          subst hp2
          exact ⟨p0, h0, h1, h2⟩
        · rcases List.mem_append.1 hp2 with hp2 | hp2
          · exact ⟨p, ih1 p (by simpa using hp2), rfl, rfl⟩
          · rw [List.mem_singleton] at hp2
            rw [hp2]
            exact ⟨chosen, hchosen, rfl, rfl⟩

theorem preserved_mono (pool0 pool1 : List Pizza) (team : Team)
    (hsub : ∀ p ∈ pool0, p ∈ pool1) (h : Preserved pool0 team) : Preserved pool1 team := by
  obtain ⟨h1, h2⟩ := h
  refine ⟨fun p hp => hsub p (h1 p hp), ?_⟩
  intro p hp
  obtain ⟨p0, h0, h3⟩ := h2 p hp
  exact ⟨p0, hsub p0 h0, h3⟩

theorem allocLoop_items (tc n i : Nat) (teams : List Team) (pizzas : List Pizza) (w : World)
    (res : List Team × List Pizza × World) (pool0 : List Pizza)
    (h : allocLoop tc n i teams pizzas w = .ok res)
    (hpool : ∀ p ∈ pizzas, p ∈ pool0) (hteams : ∀ t ∈ teams, Preserved pool0 t)
    (hfresh : ∀ idx t, idx < tc - i → teams[idx]? = some t → t.pizzas = []) :
    (∀ p ∈ res.2.1, p ∈ pool0) ∧ ∀ t ∈ res.1, Preserved pool0 t := by
  induction n generalizing i teams pizzas w with
  | zero =>
    simp only [allocLoop] at h
    injection h with h
    subst h
    exact ⟨hpool, hteams⟩
  | succ n ih =>
    rw [allocLoop] at h
    split at h
    · cases h
    rename_i hguard
    split at h
    · cases h
    · rename_i team hteam
      split at h
      · cases h
      · rename_i team1 pizzas1 w1 hd
        have hklt := getElem?_lt _ _ _ hteam
        have ha := deliverPizzas_assembly _ _ _ _ hd
        have hsub := (assembly_frame _ _ _ _ _ _ _ ha).2.2.1
        have hitems := assembly_items _ _ _ _ _ _ _ ha (hfresh _ team (by omega) hteam)
        simp only at hsub hitems
        have hpool1 : ∀ p ∈ pizzas1, p ∈ pool0 := fun p hp => hpool p (hsub p hp)
        have hteams1 : ∀ t ∈ teams.set (tc - 1 - i) team1, Preserved pool0 t := by
          intro t ht
          rcases List.mem_or_eq_of_mem_set ht with ht | ht
          · exact hteams t ht
          · rw [ht]
            exact preserved_mono pizzas pool0 team1 hpool hitems
        simp only at h
        split at h
        · injection h with h
          subst h
          exact ⟨hpool1, hteams1⟩
        · refine ih (i + 1) _ _ _ h hpool1 hteams1 ?_
          intro idx t hidx ht
          rw [List.getElem?_set_ne (by omega)] at ht
          exact hfresh idx t (by omega) ht

/-- Counterexample to C15 as stated: the seed of the team of two on the four pizzas was built
with the vector `[1,0,0]`; the team code is the same slice, `andBinary` writes the merge into
it, and after the allocation the seed's vector is `[1,1,1]`. -/
theorem seed_vector_overwritten :
    ∃ team pizzas w,
      deliverPizzas (emptyTeam 2) fourPizzas (initialWorld (fun k => k)) =
          .ok (team, pizzas, w) ∧
        fourPizzas[0]? = some ⟨0, [], [1, 0, 0]⟩ ∧
        team.pizzas = [⟨0, [], [1, 1, 1]⟩, ⟨3, [], [1, 1, 1]⟩] :=
  ⟨_, _, _, rfl, rfl, rfl⟩

/-- C15, amended (what stays unchanged).  The result of `andBinary` is its left argument after
the writes: it has the length of the left argument and agrees with it beyond the length of the
right argument.  For teams that start empty, after the allocation every pizza still in the pool
and every assigned pizza but the first of its team is a pizza of the initial pool as it was
built (same vector), and every assigned pizza has the identity and the ingredients of a pizza
of the initial pool. -/
theorem items_preserved (teams : List Team) (pizzas : List Pizza) (w : World)
    (hfresh : ∀ t ∈ teams, t.pizzas = []) :
    (∀ left right code, andBinary left right = .ok code →
      code.length = left.length ∧ ∀ i, right.length ≤ i → code[i]? = left[i]?) ∧
    (∀ res, allocate teams pizzas w = .ok res →
      (∀ p ∈ res.2.1, p ∈ pizzas) ∧
      (∀ t ∈ res.1, ∀ p ∈ t.pizzas.tail, p ∈ pizzas) ∧
      (∀ t ∈ res.1, ∀ p ∈ t.pizzas,
        ∃ p0 ∈ pizzas, p0.id = p.id ∧ p0.ingredients = p.ingredients)) := by
  constructor
  · intro left right code h
    have hlen := andLoop_length _ _ _ _ _ h
    refine ⟨hlen, ?_⟩
    intro i hi
    by_cases hle : right.length ≤ left.length
    · rw [andBinary_ok left right hle] at h
      injection h with h
      rw [← h, List.getElem?_append_right (by simpa using hi), List.getElem?_drop]
      congr 1
      simp
      omega
    · have h1 : code.length ≤ i := by omega
      have h2 : left.length ≤ i := by omega
      rw [List.getElem?_eq_none h1, List.getElem?_eq_none h2]
  · intro res h
    have hfresh0 : ∀ t ∈ teams, Preserved pizzas t := by
      intro t ht
      unfold Preserved
      rw [hfresh t ht]
      exact ⟨fun p hp => by simp at hp, fun p hp => by simp at hp⟩
    obtain ⟨h1, h2⟩ := allocLoop_items _ _ _ _ _ _ _ pizzas h (fun p hp => hp) hfresh0
      (fun idx t _ ht => hfresh t (List.getElem?_mem ht))
    exact ⟨h1, fun t ht => (h2 t ht).1, fun t ht => (h2 t ht).2⟩

/-- Witness for C15: a team of two and a team of three on the four pizzas. -/
theorem items_preserved_witness :
    (∀ t ∈ [emptyTeam 2, emptyTeam 3], t.pizzas = []) ∧
      ∃ res, allocate [emptyTeam 2, emptyTeam 3] fourPizzas (initialWorld (fun k => k)) =
          .ok res ∧
        (∀ p ∈ res.2.1, p ∈ fourPizzas) ∧
        (∀ t ∈ res.1, ∀ p ∈ t.pizzas.tail, p ∈ fourPizzas) :=
  ⟨by decide, _, rfl,
    ((items_preserved [emptyTeam 2, emptyTeam 3] fourPizzas (initialWorld (fun k => k))
      (by decide)).2 _ rfl).1,
    ((items_preserved [emptyTeam 2, emptyTeam 3] fourPizzas (initialWorld (fun k => k))
      (by decide)).2 _ rfl).2.1⟩

/-! ## Header fields that are not numbers -/

theorem atoiDigits_no_digit (c : Char) (rest : GoString) (n : Nat) (h : c.isDigit = false) :
    atoiDigits (c :: rest) n = none := by
  rw [atoiDigits, if_neg]
  intro hb
  have : c.isDigit = true := by
    simp only [Char.isDigit, Bool.and_eq_true, decide_eq_true_eq]
    exact hb
  rw [h] at this
  cases this

/-- A field without a decimal digit is a syntax error of `strconv.Atoi`, with the value 0. -/
theorem atoi_no_digit (part : GoString) (h : ∀ c ∈ part, c.isDigit = false) :
    atoi part = (0, false) := by
  have hrest : ∀ (s : GoString), (∀ c ∈ s, c.isDigit = false) →
      (if s = [] then ((0 : Int), false) else
        match atoiDigits s 0 with
        | none => (0, false)
        | some n => if 2 ^ 63 - 1 < n then (2 ^ 63 - 1, false) else ((n : Int), true))
      = (0, false) := by
    intro s hs
    cases s with
    | nil => rfl
    | cons c rest =>
      rw [if_neg (List.cons_ne_nil _ _),
        atoiDigits_no_digit c rest 0 (hs c (List.mem_cons_self _ _))]
  have hrestneg : ∀ (s : GoString), (∀ c ∈ s, c.isDigit = false) →
      (if s = [] then ((0 : Int), false) else
        match atoiDigits s 0 with
        | none => (0, false)
        | some n => if 2 ^ 63 < n then (-(2 ^ 63), false) else (-(n : Int), true))
      = (0, false) := by
    intro s hs
    cases s with
    | nil => rfl
    | cons c rest =>
      rw [if_neg (List.cons_ne_nil _ _),
        atoiDigits_no_digit c rest 0 (hs c (List.mem_cons_self _ _))]
  unfold atoi
  split
  · rename_i rest
    simpa using hrestneg rest (fun c hc => h c (List.mem_cons_of_mem _ hc))
  · rename_i rest
    simpa using hrest rest (fun c hc => h c (List.mem_cons_of_mem _ hc))
  · simpa using hrest part h

theorem atoi_le (s : GoString) : (atoi s).1 ≤ 2 ^ 63 - 1 := by
  unfold atoi
  simp only
  split
  · norm_num
  · split
    · norm_num
    · split
      · split
        · norm_num
        · rename_i n _ _ _
          have : -(n : Int) ≤ 0 := by omega
          exact le_trans this (by norm_num)
      · split
        · exact le_refl _
        · rename_i n _ _ hn
          simp only
          have : (n : Int) ≤ 2 ^ 63 - 1 := by
            have h1 : n ≤ 2 ^ 63 - 1 := Nat.le_of_not_lt hn
            have h2 : (2 : Nat) ^ 63 - 1 = 9223372036854775807 := by norm_num
            have h3 : (2 : Int) ^ 63 - 1 = 9223372036854775807 := by norm_num
            rw [h2] at h1
            rw [h3]
            omega
          exact this

theorem readsAs_toNat (field : GoString) (count : Nat) (h : ReadsAs field count) :
    (atoi field).1.toNat = count ∧ count < 2 ^ 63 := by
  rcases h.2 with hok | ⟨_, hle, hzero⟩
  · have hle := atoi_le field
    rw [hok] at hle ⊢
    simp only at hle ⊢
    have h3 : (2 : Int) ^ 63 - 1 = 9223372036854775807 := by norm_num
    have h4 : (2 : Nat) ^ 63 = 9223372036854775808 := by norm_num
    rw [h3] at hle
    rw [h4]
    constructor
    · omega
    · omega
  · rw [hzero]
    constructor
    · omega
    · norm_num

theorem headerLoop_readsAs (fields : List GoString) (counts : List Nat)
    (h : List.Forall₂ ReadsAs fields counts) :
    ∀ (j : Nat) (teams : List Team), headerLoop fields j teams = teams ++ teamBlocks counts j := by
  induction h with
  | nil =>
    intro j teams
    simp [headerLoop, teamBlocks]
  | cons hhead _ ih =>
    intro j teams
    rw [headerLoop, (readsAs_toNat _ _ hhead).1, ih, appendTeams_eq, teamBlocks]
    simp

theorem buildTeams_readsAs (first : GoString) (fields : List GoString) (counts : List Nat)
    (hfirst : ' ' ∉ first) (h : List.Forall₂ ReadsAs fields counts) :
    buildTeams (joinSpace (first :: fields)) = .ok (teamBlocks counts 0) := by
  have hspace : ∀ p ∈ fields, ' ' ∉ p := by
    intro p hp
    obtain ⟨i, hi⟩ := List.mem_iff_getElem?.1 hp
    clear hp
    induction h generalizing i with
    | nil => simp at hi
    | cons hhead _ ih =>
      cases i with
      | zero =>
        simp at hi
        rw [← hi]
        exact hhead.1
      | succ k =>
        simp at hi
        exact ih k hi
  unfold buildTeams
  rw [splitSpace_joinSpace _ (by simp)]
  · simp only
    rw [headerLoop_readsAs fields counts h 0 []]
    simp
  · intro p hp
    rcases List.mem_cons.1 hp with hp | hp
    · rw [hp]; exact hfirst
    · exact hspace p hp

theorem main_of_buildTeams (headerLine headerLine1 : GoString) (pizzaLines : List GoString)
    (draws : Nat → Nat) (h : buildTeams headerLine = buildTeams headerLine1) :
    load (headerLine :: pizzaLines) = load (headerLine1 :: pizzaLines) ∧
    main (headerLine :: pizzaLines) draws = main (headerLine1 :: pizzaLines) draws := by
  have hload : load (headerLine :: pizzaLines) = load (headerLine1 :: pizzaLines) := by
    unfold load
    simp only
    rw [h]
  refine ⟨hload, ?_⟩
  unfold main
  rw [hload]

/-- Counterexample to C13 as stated: in the header `3 x 1` the count of the teams of two is not
an integer; `strconv.Atoi` reports an error that `main` drops, the count is read as 0, and the
run goes on: the team of three is assembled from the three pizzas and written to the output. -/
theorem malformed_count_not_fatal :
    atoi ['x'] = (0, false) ∧
      buildTeams ['3', ' ', 'x', ' ', '1'] = .ok [emptyTeam 3] ∧
      main [['3', ' ', 'x', ' ', '1'], ['1', ' ', 'a'], ['1', ' ', 'b'], ['1', ' ', 'c']]
          (fun k => k) =
        .ok ['1', Char.ofNat 10, '3', ' ', '0', ' ', '2', ' ', '1', Char.ofNat 10] :=
  ⟨rfl, rfl, rfl⟩

/-- C13, amended (a malformed count does not stop the run).  A field without a decimal digit,
and more generally every field for which `strconv.Atoi` reports an error with a value other than
the largest `int`, is read as the count 0.  For every header whose count fields are each a count
that `strconv.Atoi` accepts or such a malformed field, and for all pizza lines and random draws:
`main` builds exactly the teams of the counts, none for a malformed field, the later fields
keeping their capacities; the run is the run on the input in which every field is replaced by
the decimal count it was read as (0 for a malformed one), with the same result; and that result
is what the assembly of these teams from the pizzas of the input gives, written by
`writeOutput`.  Nothing is said about a field whose digits leave the range of `int` upwards. -/
theorem malformed_count_reads_as_zero (first : GoString) (fields : List GoString)
    (counts : List Nat) (pizzaLines : List GoString) (draws : Nat → Nat)
    (hfirst : ' ' ∉ first) (hfields : List.Forall₂ ReadsAs fields counts) :
    (∀ part, ' ' ∉ part → (∀ c ∈ part, c.isDigit = false) → ReadsAs part 0) ∧
    (∀ part, ' ' ∉ part → (atoi part).2 = false → (atoi part).1 ≠ 2 ^ 63 - 1 →
      ReadsAs part 0) ∧
    buildTeams (joinSpace (first :: fields)) = .ok (teamBlocks counts 0) ∧
    main (joinSpace (first :: fields) :: pizzaLines) draws =
      main (joinSpace (first :: counts.map (fun (T : Nat) => formatInt (T : Int))) :: pizzaLines)
        draws ∧
    ∃ pizzas catalog,
      load (joinSpace (first :: fields) :: pizzaLines)
        = .ok (teamBlocks counts 0, pizzas, catalog) ∧
      main (joinSpace (first :: fields) :: pizzaLines) draws =
        match allocate (teamBlocks counts 0) pizzas (initialWorld draws) with
        | .error e => .error e
        | .ok res => .ok (writeOutput res.1) := by
  have hbound : ∀ T ∈ counts, T < 2 ^ 63 := by
    intro T hT
    obtain ⟨i, hi⟩ := List.mem_iff_getElem?.1 hT
    clear hT
    induction hfields generalizing i with
    | nil => simp at hi
    | cons hhead _ ih =>
      cases i with
      | zero =>
        simp at hi
        rw [← hi]
        exact (readsAs_toNat _ _ hhead).2
      | succ k =>
        simp at hi
        exact ih k hi
  have hteams := buildTeams_readsAs first fields counts hfirst hfields
  refine ⟨?_, ?_, hteams, ?_, ?_⟩
  · intro part hspace hdigit
    refine ⟨hspace, Or.inr ?_⟩
    rw [atoi_no_digit part hdigit]
    exact ⟨rfl, le_refl _, rfl⟩
  · intro part hspace herr hmax
    refine ⟨hspace, Or.inr ⟨herr, ?_, rfl⟩⟩
    rcases atoi_error_value part herr with h0 | hbig | hsmall
    · rw [h0]
    · exact absurd hbig hmax
    · rw [hsmall]
      norm_num
  · exact (main_of_buildTeams _ _ pizzaLines draws
      (hteams.trans (buildTeams_eq first counts hfirst hbound).symm)).2
  · obtain ⟨teams, pizzas, catalog, hload, hbuild, -⟩ :=
      load_spec (joinSpace (first :: fields)) pizzaLines
    rw [hteams] at hbuild
    cases hbuild
    refine ⟨pizzas, catalog, hload, ?_⟩
    unfold main
    rw [hload]
    simp only
    cases allocate (teamBlocks counts 0) pizzas (initialWorld draws) with
    | error e => rfl
    | ok res => rfl

/-- Witness for C13: the header `3 x 1` with three pizza lines; the field `x` is read as 0, the
field `1` as one team of three. -/
theorem malformed_count_reads_as_zero_witness :
    ' ' ∉ ['3'] ∧ List.Forall₂ ReadsAs [['x'], ['1']] [0, 1] ∧
      buildTeams (joinSpace [['3'], ['x'], ['1']]) = .ok (teamBlocks [0, 1] 0) ∧
      main (joinSpace [['3'], ['x'], ['1']] :: [['1', ' ', 'a'], ['1', ' ', 'b'], ['1', ' ', 'c']])
          (fun k => k) =
        main (joinSpace (['3'] :: [0, 1].map (fun (T : Nat) => formatInt (T : Int))) ::
          [['1', ' ', 'a'], ['1', ' ', 'b'], ['1', ' ', 'c']]) (fun k => k) :=
  have hfields : List.Forall₂ ReadsAs [['x'], ['1']] [0, 1] :=
    .cons ⟨by decide, Or.inr ⟨rfl, by decide, rfl⟩⟩
      (.cons ⟨by decide, Or.inl rfl⟩ .nil)
  have h := malformed_count_reads_as_zero ['3'] [['x'], ['1']] [0, 1]
    [['1', ' ', 'a'], ['1', ' ', 'b'], ['1', ' ', 'c']] (fun k => k) (by decide) hfields
  ⟨by decide, hfields, h.2.2.1, h.2.2.2.1⟩

/-- C16 (the scenario of the four pizzas and one team of two).  For every world with
`sampleSize ≥ 1` and a cache that holds only distances computed by `xorBinary`, so for every
stream of random draws: the seed is pizza 0 and leaves the pool `[pizza 3, pizza 1, pizza 2]`,
all at distance 2 from `[1,0,0]`; `deliverPizzas` returns the team with exactly two pizzas, the
seed and the pool pizza at the first sampled index, complete, with code `[1,1,1]` (which is also
what the seed's vector reads then), and the pool it returns is the pool without the chosen pizza,
two pizzas. -/
theorem scenario_four_pizzas (w : World) (hs : 1 ≤ w.sampleSize)
    (hc : CacheSound w.xorBinaryCache) :
    ∃ chosen rest w1,
      deliverFirstPizza (emptyTeam 2) fourPizzas =
        .ok (⟨2, [⟨0, [], [1, 0, 0]⟩], [1, 0, 0], false⟩,
          [⟨3, [], [1, 1, 1]⟩, ⟨1, [], [0, 1, 0]⟩, ⟨2, [], [0, 0, 1]⟩]) ∧
      (∀ idx, idx < 3 → distAt [1, 0, 0]
        [⟨3, [], [1, 1, 1]⟩, ⟨1, [], [0, 1, 0]⟩, ⟨2, [], [0, 0, 1]⟩] idx = 2) ∧
      [(⟨3, [], [1, 1, 1]⟩ : Pizza), ⟨1, [], [0, 1, 0]⟩, ⟨2, [], [0, 0, 1]⟩][sampledIndex w 3 0]? =
        some chosen ∧
      removePizza [⟨3, [], [1, 1, 1]⟩, ⟨1, [], [0, 1, 0]⟩, ⟨2, [], [0, 0, 1]⟩]
        (sampledIndex w 3 0) = .ok rest ∧
      deliverPizzas (emptyTeam 2) fourPizzas w =
        .ok (⟨2, [⟨0, [], [1, 1, 1]⟩, chosen], [1, 1, 1], true⟩, rest, w1) ∧
      rest.length = 2 := by
  have hdist : ∀ idx, idx < 3 → distAt [1, 0, 0]
      [⟨3, [], [1, 1, 1]⟩, ⟨1, [], [0, 1, 0]⟩, ⟨2, [], [0, 0, 1]⟩] idx = 2 := by
    intro idx hidx
    interval_cases idx <;> rfl
  have hu : Uniform 3 [⟨3, [], [1, 1, 1]⟩, ⟨1, [], [0, 1, 0]⟩, ⟨2, [], [0, 0, 1]⟩] := by decide
  have hn1 : 1 ≤ w.sampleSize.toNat := by omega
  have hs0 : sampledIndex w 3 0 < 3 := Nat.mod_lt _ (by decide)
  obtain ⟨⟨team1, rest, w1⟩, hn⟩ := deliverNextPizza_total
    ⟨2, [⟨0, [], [1, 0, 0]⟩], [1, 0, 0], false⟩
    [⟨3, [], [1, 1, 1]⟩, ⟨1, [], [0, 1, 0]⟩, ⟨2, [], [0, 0, 1]⟩] w 3 (by decide) hu rfl
  obtain ⟨first, best, hf, hsl, ha, hp, hsz, hcomp, hr⟩ := deliverNextPizza_ok _ _ _ _ _ _ hn
  have hinv := (sampleLoop_inv _ _ _ _ _ _ _ hsl hf).1
  have hsel := sampleLoop_select _ _ _ _ _ _ _ hsl hc (by intro p hp2; rw [hu p hp2]; rfl)
  simp only [List.length_cons, List.length_nil, Nat.zero_add, Nat.reduceAdd] at hsel
  have hbest : best.bestPizzaIndex = sampledIndex w 3 0 := by
    rcases hsel with ⟨-, hall⟩ | ⟨j, hj, h1, h2, h3, h4, h5, h6⟩
    · have := hall 0 (by omega)
      rw [hdist _ hs0] at this
      simp at this
    · have hjl : sampledIndex w 3 j < 3 := Nat.mod_lt _ (by decide)
      rw [h1, hdist _ hjl] at h3
      by_cases hj0 : j = 0
      · rw [h1, hj0]
      · have := h5 0 (by omega)
        rw [hdist _ hs0, h3] at this
        omega
  rw [hbest] at hinv hr
  have hmem : best.bestPizza ∈
      [(⟨3, [], [1, 1, 1]⟩ : Pizza), ⟨1, [], [0, 1, 0]⟩, ⟨2, [], [0, 0, 1]⟩] :=
    List.getElem?_mem hinv
  have hcode : team1.binaryCode = [1, 1, 1] := by
    have hl := hu _ hmem
    simp only at ha
    rw [andBinary_ok _ _ (by rw [hl]; decide), hl] at ha
    injection ha with ha
    rw [← ha]
    rfl
  have hteam1 : team1 = ⟨2, [⟨0, [], [1, 1, 1]⟩, best.bestPizza], [1, 1, 1], true⟩ := by
    cases team1
    simp only at hp hsz hcomp hcode
    subst hcode
    subst hsz
    subst hp
    subst hcomp
    rfl
  obtain ⟨q, hq, -, hlen⟩ := removePizza_ok hr
  refine ⟨best.bestPizza, rest, w1, rfl, hdist, hinv, hr, ?_, ?_⟩
  · have hloop : deliverPizzas (emptyTeam 2) fourPizzas w =
        deliverLoop (3 + 1) ⟨2, [⟨0, [], [1, 0, 0]⟩], [1, 0, 0], false⟩
          [⟨3, [], [1, 1, 1]⟩, ⟨1, [], [0, 1, 0]⟩, ⟨2, [], [0, 0, 1]⟩] w := rfl
    rw [hloop, deliverLoop, hn]
    simp only
    rw [hteam1]
    simp
  · simp only [List.length_cons, List.length_nil] at hlen
    omega

/-- Witness for C16: the world `main` starts in, with the draws `0, 1, 2, ...`; the first
sampled index is 0, so the second pizza is pizza 3. -/
theorem scenario_four_pizzas_witness :
    1 ≤ (initialWorld (fun k => k)).sampleSize ∧
      CacheSound (initialWorld (fun k => k)).xorBinaryCache ∧
      sampledIndex (initialWorld (fun k => k)) 3 0 = 0 ∧
      ∃ chosen rest w1,
        deliverPizzas (emptyTeam 2) fourPizzas (initialWorld (fun k => k)) =
          .ok (⟨2, [⟨0, [], [1, 1, 1]⟩, chosen], [1, 1, 1], true⟩, rest, w1) ∧
        rest.length = 2 := by
  obtain ⟨chosen, rest, w1, -, -, -, -, h5, h6⟩ :=
    scenario_four_pizzas (initialWorld (fun k => k)) (by decide) cacheSound_nil
  exact ⟨by decide, cacheSound_nil, rfl, chosen, rest, w1, h5, h6⟩

theorem deliverLoop_mono (fuel extra : Nat) (team : Team) (pizzas : List Pizza) (w : World)
    (res : Team × List Pizza × World) (h : deliverLoop fuel team pizzas w = .ok res) :
    deliverLoop (fuel + extra) team pizzas w = .ok res := by
  induction fuel generalizing team pizzas w with
  | zero => simp [deliverLoop] at h
  | succ fuel ih =>
    have hf : fuel + 1 + extra = (fuel + extra) + 1 := by omega
    rw [hf, deliverLoop]
    rw [deliverLoop] at h
    split at h
    · cases h
    · rename_i team1 pizzas1 w1 hn
      split at h
      · rename_i hexit
        rw [if_pos hexit]
        exact h
      · rename_i hexit
        rw [if_neg hexit]
        exact ih _ _ _ h

theorem deliverLoop_within (fuel : Nat) (team : Team) (pizzas : List Pizza) (w : World)
    (len : Nat) (hf : pizzas.length ≤ fuel) (hne : pizzas ≠ []) (hu : Uniform len pizzas)
    (hc : team.binaryCode.length = len) :
    ∃ res, deliverLoop fuel team pizzas w = .ok res := by
  induction fuel generalizing team pizzas w with
  | zero =>
    have := List.length_pos.2 hne
    omega
  | succ fuel ih =>
    obtain ⟨⟨team1, pizzas1, w1⟩, hn⟩ := deliverNextPizza_total team pizzas w len hne hu hc
    obtain ⟨chosen, index, _, hperm, hlen, _, _, _, hcl, _⟩ :=
      deliverNextPizza_step _ _ _ _ _ _ hn
    rw [deliverLoop, hn]
    simp only
    split
    · exact ⟨_, rfl⟩
    · rename_i hexit
      have hb : (team1.isComplete || decide (pizzas1.length = 0)) = false :=
        Bool.eq_false_iff.2 hexit
      rw [Bool.or_eq_false_iff] at hb
      have hne1 : pizzas1 ≠ [] := by
        intro hnil
        have := hb.2
        simp [hnil] at this
      refine ih team1 pizzas1 w1 (by omega) hne1 ?_ (by rw [hcl, hc])
      intro p hp
      exact hu p (hperm.subset (List.mem_cons_of_mem _ hp))

/-- C17 (termination by pool shrinkage).  Every call of `deliverFirstPizza` on a non-empty pool
returns a pool one element shorter; every call of `deliverNextPizza` that returns does so with a
pool one element shorter, and it returns on every non-empty pool of vectors of the length of the
team code.  For a team that starts empty and not complete, of any capacity, on a non-empty pool
of vectors of one length: after the seed, the loop of `deliverPizzas` returns within as many
iterations as pizzas are left (so within `len(pizzas)` assignments in all), with the result of
`deliverPizzas`; every call of `deliverNextPizza` it makes shortens the pool by one; and the
states in which it returns are exactly those in which the team is complete or the pool is
empty. -/
theorem termination (team0 : Team) (pizzas0 : List Pizza) (w0 : World) (len : Nat)
    (hfresh : team0.pizzas = []) (hnc : team0.isComplete = false) (hne : pizzas0 ≠ [])
    (hu : Uniform len pizzas0) :
    (∀ (team : Team) (pizzas : List Pizza), pizzas ≠ [] →
      ∃ team1 pizzas1, deliverFirstPizza team pizzas = .ok (team1, pizzas1) ∧
        pizzas1.length + 1 = pizzas.length) ∧
    (∀ (team : Team) (pizzas : List Pizza) (w : World) res,
      deliverNextPizza team pizzas w = .ok res → res.2.1.length + 1 = pizzas.length) ∧
    (∀ (team : Team) (pizzas : List Pizza) (w : World), pizzas ≠ [] → Uniform len pizzas →
      team.binaryCode.length = len → ∃ res, deliverNextPizza team pizzas w = .ok res) ∧
    (∃ team1 pizzas1, deliverFirstPizza team0 pizzas0 = .ok (team1, pizzas1) ∧
      pizzas1.length + 1 = pizzas0.length ∧
      (pizzas1 = [] → deliverPizzas team0 pizzas0 w0 = .ok (team1, pizzas1, w0)) ∧
      (pizzas1 ≠ [] → ∃ res, deliverLoop pizzas1.length team1 pizzas1 w0 = .ok res ∧
        deliverPizzas team0 pizzas0 w0 = .ok res)) ∧
    (∀ team pizzas w, Assembly team0 pizzas0 w0 true team pizzas w →
      ∃ team1 pizzas1 w1, deliverNextPizza team pizzas w = .ok (team1, pizzas1, w1) ∧
        pizzas1.length + 1 = pizzas.length) ∧
    (∀ running team pizzas w, Assembly team0 pizzas0 w0 running team pizzas w →
      (running = false ↔ (team.isComplete = true ∨ pizzas = []))) ∧
    (∀ res, deliverPizzas team0 pizzas0 w0 = .ok res →
      res.1.isComplete = true ∨ res.2.1 = []) := by
  have hstates : ∀ running team pizzas w, Assembly team0 pizzas0 w0 running team pizzas w →
      (running = false ↔ (team.isComplete = true ∨ pizzas = [])) := by
    intro running team pizzas w h
    obtain ⟨-, -, -, c4, c5⟩ := assembly_count _ _ _ _ _ _ _ h hfresh hnc
    constructor
    · exact c5
    · intro hor
      cases hr : running
      · rfl
      · obtain ⟨h1, h2⟩ := c4 hr
        rcases hor with hor | hor
        · rw [h1] at hor; cases hor
        · exact absurd hor h2
  refine ⟨?_, ?_, ?_, ?_, ?_, hstates, ?_⟩
  · intro team pizzas hp
    obtain ⟨⟨team1, pizzas1⟩, hf⟩ := deliverFirstPizza_total team pizzas hp
    obtain ⟨pizza, -, hr, -⟩ := deliverFirstPizza_ok _ _ _ _ hf
    obtain ⟨q, -, -, hl⟩ := removePizza_ok hr
    exact ⟨team1, pizzas1, hf, hl⟩
  · intro team pizzas w res h
    obtain ⟨_, _, _, _, hl, _⟩ := deliverNextPizza_step _ _ _ _ _ _ h
    exact hl
  · intro team pizzas w hp hup hcode
    exact deliverNextPizza_total team pizzas w len hp hup hcode
  · obtain ⟨⟨team1, pizzas1⟩, hf⟩ := deliverFirstPizza_total team0 pizzas0 hne
    obtain ⟨pizza, hp, hr, ht⟩ := deliverFirstPizza_ok _ _ _ _ hf
    obtain ⟨q, -, hperm, hl⟩ := removePizza_ok hr
    have hdp : deliverPizzas team0 pizzas0 w0 =
        if pizzas1.length = 0 then .ok (team1, pizzas1, w0)
        else deliverLoop (pizzas1.length + 1) team1 pizzas1 w0 := by
      unfold deliverPizzas
      rw [if_pos (by rw [hfresh]; rfl), hf]
    refine ⟨team1, pizzas1, hf, hl, ?_, ?_⟩
    · intro hnil
      rw [hdp, if_pos (by rw [hnil]; rfl)]
    · intro hne1
      obtain ⟨res, hres⟩ := deliverLoop_within pizzas1.length team1 pizzas1 w0 len (le_refl _)
        hne1 (fun p hp2 => hu p (hperm.subset (List.mem_cons_of_mem _ hp2)))
        (by rw [ht]; exact hu pizza (List.getElem?_mem hp))
      refine ⟨res, hres, ?_⟩
      rw [hdp, if_neg (fun hz => hne1 (List.length_eq_zero.1 hz))]
      exact deliverLoop_mono _ 1 _ _ _ _ hres
  · intro team pizzas w h
    obtain ⟨-, -, -, c4, -⟩ := assembly_count _ _ _ _ _ _ _ h hfresh hnc
    obtain ⟨-, hp⟩ := c4 rfl
    have hsub := (assembly_frame _ _ _ _ _ _ _ h).2.2.1
    have hcode := (assembly_code _ _ _ len _ _ _ _ h hfresh hu).1
    obtain ⟨⟨team1, pizzas1, w1⟩, hn⟩ := deliverNextPizza_total team pizzas w len hp
      (fun p hp2 => hu p (hsub p hp2)) hcode
    obtain ⟨_, _, _, _, hl, _⟩ := deliverNextPizza_step _ _ _ _ _ _ hn
    exact ⟨team1, pizzas1, w1, hn, hl⟩
  · intro res h
    exact (hstates _ _ _ _ (deliverPizzas_assembly _ _ _ _ h)).1 rfl

/-- Witness for C17: a team of capacity one on the four pizzas. -/
theorem termination_witness :
    (emptyTeam 1).pizzas = [] ∧ (emptyTeam 1).isComplete = false ∧ fourPizzas ≠ [] ∧
      Uniform 3 fourPizzas ∧
      ∃ team1 pizzas1 res, deliverFirstPizza (emptyTeam 1) fourPizzas = .ok (team1, pizzas1) ∧
        deliverLoop pizzas1.length team1 pizzas1 (initialWorld (fun k => k)) = .ok res ∧
        deliverPizzas (emptyTeam 1) fourPizzas (initialWorld (fun k => k)) = .ok res ∧
        (res.1.isComplete = true ∨ res.2.1 = []) := by
  have h := termination (emptyTeam 1) fourPizzas (initialWorld (fun k => k)) 3 rfl rfl
    (by decide) (by decide)
  obtain ⟨team1, pizzas1, h1, h2, -, h4⟩ := h.2.2.2.1
  have hne1 : pizzas1 ≠ [] := by
    intro hnil
    rw [hnil] at h2
    have : fourPizzas.length = 4 := rfl
    simp at h2
    omega
  obtain ⟨res, h5, h6⟩ := h4 hne1
  exact ⟨rfl, rfl, by decide, by decide, team1, pizzas1, res, h1, h5, h6,
    h.2.2.2.2.2.2 res h6⟩

theorem load_uniform (headerLine : GoString) (pizzaLines : List GoString) :
    ∃ teams pizzas catalog, load (headerLine :: pizzaLines) = .ok (teams, pizzas, catalog) ∧
      buildTeams headerLine = .ok teams ∧
      (∀ t ∈ teams, t.pizzas = [] ∧ t.isComplete = false ∧ 2 ≤ t.size) ∧
      pizzas.length = pizzaLines.length ∧ Uniform catalog.length pizzas := by
  obtain ⟨teams, pizzas, catalog, h1, h2, h3, -, h5, h6⟩ := load_spec headerLine pizzaLines
  refine ⟨teams, pizzas, catalog, h1, h2, h3, h5, ?_⟩
  intro p hp
  obtain ⟨i, hi⟩ := List.mem_iff_getElem?.1 hp
  have hil : i < pizzaLines.length := by
    rw [← h5]; exact getElem?_lt _ _ _ hi
  obtain ⟨code, c1, c2, -⟩ := h6 i _ (List.getElem?_eq_getElem hil)
  rw [hi] at c1
  injection c1 with c1
  rw [c1]
  exact c2

/-- C18 (index safety).  On a non-empty pool whose vectors have one length, for the teams built
from any header line and every stream of random draws, the allocation returns: no index is out
of range anywhere (every such access is an error of the embedding).  In every state in which
the loop of `deliverPizzas` goes on, for a team that started empty: the pool is not empty (the
default `pizzas[0]` exists), the sampled index is below the pool length, and for every pizza of
the pool the distance loop and the merge with the team code stay in bounds, as does the removal
at every index below the pool length.  And `main` itself returns on every input with a header
line and at least one pizza line. -/
theorem index_safety (headerLine : GoString) (pizzas : List Pizza) (w : World) (len : Nat)
    (hne : pizzas ≠ []) (hu : Uniform len pizzas) :
    (∃ teams res, buildTeams headerLine = .ok teams ∧ allocate teams pizzas w = .ok res) ∧
    (∀ (team0 : Team) (team : Team) (pool : List Pizza) (w1 : World), team0.pizzas = [] →
      Assembly team0 pizzas w true team pool w1 →
      (∃ first, pool[0]? = some first) ∧ sampledIndex w1 pool.length 0 < pool.length ∧
      (∀ p ∈ pool, (∃ d, xorLoop team.binaryCode p.binaryCode 0 0 = .ok d) ∧
        ∃ code, andBinary team.binaryCode p.binaryCode = .ok code) ∧
      (∀ i, i < pool.length → ∃ rest, removePizza pool i = .ok rest) ∧
      ∃ res, deliverNextPizza team pool w1 = .ok res) ∧
    (∀ (pizzaLines : List GoString) (draws : Nat → Nat), pizzaLines ≠ [] →
      ∃ out, main (headerLine :: pizzaLines) draws = .ok out) := by
  refine ⟨?_, ?_, ?_⟩
  · obtain ⟨teams, ht, hfresh⟩ := buildTeams_total headerLine
    obtain ⟨res, hres⟩ := allocLoop_total teams.length teams.length 0 teams pizzas w len rfl
      (by omega) hne hu (fun idx t _ h => (hfresh t (List.getElem?_mem h)).1)
    exact ⟨teams, res, ht, hres⟩
  · intro team0 team pool w1 hfresh ha
    have hsub := (assembly_frame _ _ _ _ _ _ _ ha).2.2.1
    have hcode := (assembly_code _ _ _ len _ _ _ _ ha hfresh hu).1
    have hup : Uniform len pool := fun p hp => hu p (hsub p hp)
    obtain ⟨res, hres⟩ : ∃ res, deliverNextPizza team pool w1 = .ok res := by
      cases hpool : pool with
      | nil =>
        exfalso
        rw [hpool] at ha
        generalize hb : true = b at ha
        cases ha with
        | entry hne0 => exact hne0 (by rw [hfresh]; rfl)
        | seed _ _ _ _ => simp at hb
        | next _ _ _ _ _ _ _ hn => simp at hb
      | cons p rest =>
        rw [← hpool]
        exact deliverNextPizza_total team pool w1 len (by rw [hpool]; simp) hup hcode
    obtain ⟨first, best, hf, -⟩ := deliverNextPizza_ok _ _ _ _ _ _ hres
    have hpos : 0 < pool.length := getElem?_lt _ _ _ hf
    refine ⟨⟨first, hf⟩, Nat.mod_lt _ hpos, ?_, fun i hi => removePizza_of_lt pool i hi,
      res, hres⟩
    intro p hp
    constructor
    · exact ⟨_, xorLoop_ok team.binaryCode p.binaryCode 0 0 (by rw [hup p hp, hcode]; omega)⟩
    · exact ⟨_, andBinary_ok team.binaryCode p.binaryCode (by rw [hup p hp, hcode])⟩
  · intro pizzaLines draws hlines
    obtain ⟨teams, pz, catalog, h1, -, h3, h4, h5⟩ := load_uniform headerLine pizzaLines
    have hpz : pz ≠ [] := by
      intro hnil
      rw [hnil] at h4
      exact hlines (List.length_eq_zero.1 h4.symm)
    obtain ⟨res, hres⟩ := allocLoop_total teams.length teams.length 0 teams pz
      (initialWorld draws) catalog.length rfl (by omega) hpz h5
      (fun idx t _ h => (h3 t (List.getElem?_mem h)).1)
    refine ⟨writeOutput res.1, ?_⟩
    unfold main
    rw [h1]
    simp only
    unfold allocate
    rw [hres]

/-- Witness for C18: the header `4 1 0 1` and the four pizzas. -/
theorem index_safety_witness :
    fourPizzas ≠ [] ∧ Uniform 3 fourPizzas ∧
      ∃ teams res, buildTeams ['4', ' ', '1', ' ', '0', ' ', '1'] = .ok teams ∧
        allocate teams fourPizzas (initialWorld (fun k => k)) = .ok res :=
  ⟨by decide, by decide,
    (index_safety ['4', ' ', '1', ' ', '0', ' ', '1'] fourPizzas (initialWorld (fun k => k)) 3
      (by decide) (by decide)).1⟩

end Practice

namespace Qualification

open Practice (GoString splitSpace atoi)

/-! ## The duration of a light -/

theorem roundF64_small (n : Nat) (h : n < 2 ^ 53) : roundF64 n = n := by
  unfold roundF64
  rw [if_pos h]

theorem roundF64_large (n : Nat) (h : 2 ^ 53 ≤ n) : 2 ^ 53 ≤ roundF64 n := by
  have hn0 : n ≠ 0 := by
    intro h0
    rw [h0] at h
    exact absurd h (by norm_num)
  have hk : 53 ≤ Nat.log2 n := (Nat.le_log2 hn0).2 h
  have hpow : 2 ^ Nat.log2 n ≤ n := Nat.log2_self_le hn0
  have hsplit : 2 ^ Nat.log2 n = 2 ^ 52 * 2 ^ (Nat.log2 n - 52) := by
    rw [← pow_add]
    congr 1
    omega
  have hunit : 0 < 2 ^ (Nat.log2 n - 52) := Nat.pow_pos (by norm_num)
  have hdiv : 2 ^ 52 ≤ n / 2 ^ (Nat.log2 n - 52) := by
    rw [Nat.le_div_iff_mul_le hunit, ← hsplit]
    exact hpow
  have hlow : 2 ^ 53 ≤ n / 2 ^ (Nat.log2 n - 52) * 2 ^ (Nat.log2 n - 52) := by
    calc 2 ^ 53 ≤ 2 ^ Nat.log2 n := Nat.pow_le_pow_right (by norm_num) hk
      _ = 2 ^ 52 * 2 ^ (Nat.log2 n - 52) := hsplit
      _ ≤ n / 2 ^ (Nat.log2 n - 52) * 2 ^ (Nat.log2 n - 52) := Nat.mul_le_mul_right _ hdiv
  unfold roundF64
  rw [if_neg (by omega)]
  simp only
  split
  · exact hlow
  · split
    · omega
    · split
      · exact hlow
      · omega

theorem float64OfInt_small (n : Int) (h0 : 0 ≤ n) (h : n < 2 ^ 53) : float64OfInt n = n := by
  unfold float64OfInt
  rw [if_neg (by omega), roundF64_small n.natAbs (by omega)]
  omega

theorem float64OfInt_large (n : Int) (h : 2 ^ 53 ≤ n) : 2 ^ 53 ≤ float64OfInt n := by
  unfold float64OfInt
  rw [if_neg (by omega)]
  have := roundF64_large n.natAbs (by omega)
  omega

/-- The duration of a light is `min(D, max(1, q))` in whole numbers whenever the queue length
is below `2 ^ 53`, where `float64` is exact. -/
theorem lightDuration_eq (duration : Int) (queue : Nat) (hD : 1 ≤ duration)
    (hq : queue < 2 ^ 53) : lightDuration duration queue = min duration (max 1 (queue : Int)) := by
  unfold lightDuration
  rw [float64OfInt_small (queue : Int) (by omega) (by omega)]
  have hmax : max 1 (queue : Int) < 2 ^ 53 := by
    rcases le_total (1 : Int) (queue : Int) with h | h
    · rw [max_eq_right h]; omega
    · rw [max_eq_left h]; norm_num
  have hmax1 : 1 ≤ max 1 (queue : Int) := le_max_left _ _
  by_cases hsmall : duration < 2 ^ 53
  · rw [float64OfInt_small duration (by omega) hsmall]
    unfold intOfFloat64
    have h1 : min duration (max 1 (queue : Int)) ≤ duration := min_le_left _ _
    have h2 : 1 ≤ min duration (max 1 (queue : Int)) := le_min hD hmax1
    rw [if_pos ⟨by omega, by omega⟩]
  · have hbig := float64OfInt_large duration (by omega)
    rw [min_eq_right (by omega), min_eq_right (by omega)]
    unfold intOfFloat64
    rw [if_pos ⟨by omega, by omega⟩]


/-! ## The schedule in closed form -/

theorem lightsLoop_eq (duration : Int) (streets : List Street) :
    ∀ (l : List Nat) (trafficLights : List TrafficLight), (∀ street ∈ l, street < streets.length) →
      lightsLoop duration streets l trafficLights
        = .ok (trafficLights ++ lightsOf duration streets l) := by
  intro l
  induction l with
  | nil =>
    intro trafficLights _
    simp [lightsLoop, lightsOf]
  | cons street rest ih =>
    intro trafficLights hvalid
    have hlt : street < streets.length := hvalid street (List.mem_cons_self _ _)
    have hrest : ∀ r ∈ rest, r < streets.length := fun r hr => hvalid r (List.mem_cons_of_mem _ hr)
    have hs : streets[street]? = some streets[street] := List.getElem?_eq_getElem hlt
    rw [lightsLoop, hs]
    simp only
    by_cases hc : streets[street].carCount = 0
    · rw [if_pos hc, ih trafficLights hrest]
      have : carCountAt streets street = 0 := by
        unfold carCountAt
        rw [hs]
        exact hc
      simp [lightsOf, this]
    · rw [if_neg hc, ih _ hrest]
      have : carCountAt streets street ≠ 0 := by
        unfold carCountAt
        rw [hs]
        exact hc
      have hq : queueLength streets street = streets[street].carsAtEnd.length := by
        unfold queueLength
        rw [hs]
      simp [lightsOf, this, hq]

theorem scheduleIntersection_eq (sortSlice : (Nat → Nat → Bool) → List Nat → List Nat)
    (hsort : SortsDescending sortSlice) (simulation : Simulation) (intersection : Intersection)
    (hvalid : ∀ street ∈ intersection.incomingStreets, street < simulation.streets.length) :
    scheduleIntersection sortSlice simulation intersection
      = .ok (scheduled sortSlice simulation intersection) := by
  unfold scheduleIntersection scheduled
  simp only
  rw [lightsLoop_eq]
  intro street hmem
  exact hvalid street (((hsort (queueLength simulation.streets) _).1).mem_iff.1 hmem)

theorem scheduleLoop_eq (sortSlice : (Nat → Nat → Bool) → List Nat → List Nat)
    (hsort : SortsDescending sortSlice) (simulation : Simulation) :
    ∀ (m : List (Int × Intersection)),
      (∀ entry ∈ m, ∀ street ∈ entry.2.incomingStreets, street < simulation.streets.length) →
      scheduleLoop sortSlice simulation m
        = .ok (m.map (fun entry => (entry.1, scheduled sortSlice simulation entry.2))) := by
  intro m
  induction m with
  | nil =>
    intro _
    rfl
  | cons entry rest ih =>
    intro hvalid
    obtain ⟨key, intersection⟩ := entry
    rw [scheduleLoop, scheduleIntersection_eq sortSlice hsort simulation intersection
      (hvalid (key, intersection) (List.mem_cons_self _ _)),
      ih (fun e he => hvalid e (List.mem_cons_of_mem _ he))]
    rfl

theorem lookup_map_value (g : Intersection → Intersection) (id : Int) :
    ∀ (m : List (Int × Intersection)),
      (m.map (fun entry => (entry.1, g entry.2))).lookup id = (m.lookup id).map g := by
  intro m
  induction m with
  | nil => rfl
  | cons entry rest ih =>
    obtain ⟨key, intersection⟩ := entry
    simp only [List.map_cons, List.lookup_cons]
    cases hk : (id == key)
    · exact ih
    · rfl

theorem mem_of_lookup (id : Int) (x : Intersection) :
    ∀ (m : List (Int × Intersection)), m.lookup id = some x → (id, x) ∈ m := by
  intro m
  induction m with
  | nil =>
    intro h
    simp at h
  | cons entry rest ih =>
    obtain ⟨key, intersection⟩ := entry
    intro h
    rw [List.lookup_cons] at h
    cases hk : (id == key)
    · rw [hk] at h
      exact List.mem_cons_of_mem _ (ih h)
    · rw [hk] at h
      have hid : id = key := by simpa using hk
      cases h
      rw [hid]
      exact List.mem_cons_self _ _

/-- The sort used for running the model meets the contract of `sort.Slice`. -/
theorem mergeSlice_sorts : SortsDescending mergeSlice := by
  intro key l
  constructor
  · exact List.mergeSort_perm _ _
  · have h := @List.sorted_mergeSort Nat (fun a b => !decide (key a < key b))
      (by
        intro a b c hab hbc
        simp at hab hbc ⊢
        omega)
      (by
        intro a b
        simp
        omega) l
    unfold mergeSlice
    refine h.imp ?_
    intro a b hab
    simp at hab
    exact hab


/-! ## The counters kept by `parseCar` -/

theorem count_set_none (ref r : Nat) :
    ∀ (l : List (Option Nat)) (i : Nat), l[i]? = some none →
      (l.set i (some ref)).count (some r) = l.count (some r) + if ref = r then 1 else 0 := by
  intro l
  induction l with
  | nil =>
    intro i h
    simp at h
  | cons x rest ih =>
    intro i h
    cases i with
    | zero =>
      simp at h
      subst h
      by_cases hr : ref = r
      · subst hr
        simp
      · have : (some ref == some r) = false := by simp [hr]
        simp [List.count_cons, hr]
    | succ k =>
      simp at h
      simp only [List.set_cons_succ, List.count_cons]
      rw [ih k h]
      omega

theorem startsOn_set_zero (car : Car) (street : Option Nat) (r : Nat)
    (h : 0 < car.streets.length) :
    startsOn { car with streets := car.streets.set 0 street } r = (street == some r) := by
  unfold startsOn
  cases hs : car.streets with
  | nil =>
    rw [hs] at h
    simp at h
  | cons x rest =>
    cases street <;> simp

theorem startsOn_set_succ (car : Car) (street : Option Nat) (r i : Nat) (h : i ≠ 0) :
    startsOn { car with streets := car.streets.set i street } r = startsOn car r := by
  unfold startsOn
  cases i with
  | zero => exact absurd rfl h
  | succ k =>
    cases hs : car.streets with
    | nil => simp
    | cons x rest => simp

theorem startsOn_none (car : Car) (r : Nat) (h : car.streets[0]? = some none) :
    startsOn car r = false := by
  unfold startsOn
  cases hs : car.streets with
  | nil =>
    rw [hs] at h
    simp at h
  | cons x rest =>
    rw [hs] at h
    simp at h
    subst h
    simp

/-- The effect of the loop of `parseCar`: nothing but the street store and the path of the car
changes, and every counter grows by what the car gains. -/
theorem carLoop_spec : ∀ (names : List GoString) (i carRef : Nat) (car : Car)
    (simulation : Simulation) (res : Car × Simulation),
    (∀ j, i ≤ j → j < car.streets.length → car.streets[j]? = some none) →
    carLoop names i carRef car simulation = .ok res →
    res.2.context = simulation.context ∧ res.2.intersectionMap = simulation.intersectionMap ∧
    res.2.streetMap = simulation.streetMap ∧ res.2.carMap = simulation.carMap ∧
    res.2.cars = simulation.cars ∧ res.2.streets.length = simulation.streets.length ∧
    ∀ (r : Nat) (s1 : Street), res.2.streets[r]? = some s1 →
      ∃ s, simulation.streets[r]? = some s ∧
        s1.carCount + (car.streets.count (some r) : Int)
          = s.carCount + (res.1.streets.count (some r) : Int) ∧
        s1.carsAtEnd.length + (if startsOn car r then 1 else 0)
          = s.carsAtEnd.length + (if startsOn res.1 r then 1 else 0) := by
  intro names
  induction names with
  | nil =>
    intro i carRef car simulation res _ h
    rw [carLoop] at h
    cases h
    refine ⟨rfl, rfl, rfl, rfl, rfl, rfl, ?_⟩
    intro r s1 hs1
    exact ⟨s1, hs1, rfl, rfl⟩
  | cons streetName rest ih =>
    intro i carRef car simulation res hnone h
    rw [carLoop] at h
    simp only at h
    by_cases hlen : car.streets.length ≤ i
    · rw [if_pos hlen] at h
      cases h
    · rw [if_neg hlen] at h
      have hi : i < car.streets.length := by omega
      cases hlook : simulation.streetMap.lookup streetName with
      | none =>
        rw [hlook] at h
        cases h
      | some ref =>
        rw [hlook] at h
        simp only at h
        cases hstreet : simulation.streets[ref]? with
        | none =>
          rw [hstreet] at h
          cases h
        | some s0 =>
          rw [hstreet] at h
          simp only at h
          have hreflt : ref < simulation.streets.length := by
            rcases Nat.lt_or_ge ref simulation.streets.length with hlt | hge
            · exact hlt
            · rw [List.getElem?_eq_none hge] at hstreet
              cases hstreet
          have hnone1 : ∀ j, i + 1 ≤ j → j < (car.streets.set i (some ref)).length →
              (car.streets.set i (some ref))[j]? = some none := by
            intro j hj hjlt
            rw [List.length_set] at hjlt
            rw [List.getElem?_set_ne (by omega)]
            exact hnone j (by omega) hjlt
          obtain ⟨hctx, hmap, hsm, hcm, hcars, hslen, hcount⟩ := ih (i + 1) carRef _ _ res hnone1 h
          refine ⟨hctx, hmap, hsm, hcm, hcars, ?_, ?_⟩
          · rw [hslen]
            simp
          · intro r s1 hs1
            obtain ⟨s, hs, hc1, hc2⟩ := hcount r s1 hs1
            simp only at hs hc1 hc2
            have hcnt := count_set_none ref r car.streets i (hnone i (le_refl _) hi)
            rw [hcnt] at hc1
            by_cases hr : ref = r
            · subst hr
              rw [List.getElem?_set_self hreflt] at hs
              cases hs
              refine ⟨s0, hstreet, ?_, ?_⟩
              · rw [if_pos rfl] at hc1
                by_cases hi0 : i = 0
                · rw [if_pos hi0] at hc1
                  simp only at hc1
                  push_cast at hc1
                  omega
                · rw [if_neg hi0] at hc1
                  simp only at hc1
                  push_cast at hc1
                  omega
              · by_cases hi0 : i = 0
                · subst hi0
                  rw [startsOn_set_zero car (some ref) ref hi] at hc2
                  rw [startsOn_none car ref (hnone 0 (le_refl _) hi)]
                  simp at hc2 ⊢
                  omega
                · rw [startsOn_set_succ car (some ref) ref i hi0] at hc2
                  rw [if_neg hi0] at hc2
                  exact hc2
            · rw [List.getElem?_set_ne hr] at hs
              refine ⟨s, hs, ?_, ?_⟩
              · rw [if_neg hr] at hc1
                push_cast at hc1
                omega
              · by_cases hi0 : i = 0
                · subst hi0
                  rw [startsOn_set_zero car (some ref) r hi] at hc2
                  rw [startsOn_none car r (hnone 0 (le_refl _) hi)]
                  have hne : (some ref == some r) = false := by simp [hr]
                  rw [hne] at hc2
                  exact hc2
                · rw [startsOn_set_succ car (some ref) r i hi0] at hc2
                  exact hc2


theorem onPaths_append (cars : List Car) (car : Car) (r : Nat) :
    onPaths (cars ++ [car]) r = onPaths cars r + car.streets.count (some r) := by
  unfold onPaths
  simp [List.flatMap_append, List.count_append]

theorem initialQueue_append (cars : List Car) (car : Car) (r : Nat) :
    initialQueue (cars ++ [car]) r = initialQueue cars r + if startsOn car r then 1 else 0 := by
  unfold initialQueue
  rw [List.countP_append]
  cases hstart : startsOn car r <;> simp [List.countP_cons, hstart]

theorem startsOn_replicate (id streetCount : Int) (n r : Nat) :
    startsOn ⟨id, streetCount, List.replicate n none⟩ r = false := by
  unfold startsOn
  cases n <;> simp [List.replicate]

/-- The step `parseCar` of the second loop keeps both invariants and the header values. -/
theorem parseCar_spec (simulation result : Simulation) (line : GoString)
    (hw : WellFormed simulation) (hc : Counted simulation)
    (h : parseCar simulation line = .ok result) :
    WellFormed result ∧ Counted result ∧ result.context = simulation.context := by
  unfold parseCar at h
  cases hsplit : splitSpace line with
  | nil =>
    rw [hsplit] at h
    cases h
  | cons p0 names =>
    rw [hsplit] at h
    simp only at h
    unfold createCar at h
    by_cases hneg : (atoi p0).1 < 0
    · rw [if_pos hneg] at h
      cases h
    · rw [if_neg hneg] at h
      simp only at h
      cases hloop : carLoop names 0 simulation.cars.length
          ⟨(simulation.carMap.length : Int), (atoi p0).1, List.replicate (atoi p0).1.toNat none⟩
          simulation with
      | error e =>
        rw [hloop] at h
        cases h
      | ok res =>
        rw [hloop] at h
        obtain ⟨car1, simulation1⟩ := res
        simp only at h
        cases h
        have hnone : ∀ j, 0 ≤ j → j < (List.replicate (atoi p0).1.toNat (none : Option Nat)).length →
            (List.replicate (atoi p0).1.toNat (none : Option Nat))[j]? = some none := by
          intro j _ hj
          rw [List.length_replicate] at hj
          rw [List.getElem?_replicate, if_pos hj]
        obtain ⟨hctx, hmap, hsm, _, hcars, hslen, hcount⟩ :=
          carLoop_spec names 0 simulation.cars.length _ simulation (car1, simulation1) hnone hloop
        simp only at hctx hmap hsm hcars hslen hcount
        refine ⟨?_, ?_, hctx⟩
        · constructor
          · intro entry hentry
            simp only at hentry ⊢
            rw [hmap] at hentry
            rw [hslen]
            exact hw.1 entry hentry
          · intro entry hentry
            simp only at hentry ⊢
            rw [hsm] at hentry
            rw [hslen]
            exact hw.2 entry hentry
        · intro r s1 hs1
          simp only at hs1 ⊢
          obtain ⟨s, hs, hc1, hc2⟩ := hcount r s1 hs1
          obtain ⟨hk1, hk2⟩ := hc r s hs
          rw [hcars, onPaths_append, initialQueue_append]
          rw [startsOn_replicate] at hc2
          have hzero : (List.replicate (atoi p0).1.toNat (none : Option Nat)).count (some r) = 0 := by
            rw [List.count_eq_zero]
            intro hmem
            have := List.eq_of_mem_replicate hmem
            cases this
          rw [hzero] at hc1
          simp only [Bool.false_eq_true, if_false] at hc2
          constructor
          · push_cast
            push_cast at hc1
            omega
          · omega


/-! ## The street map built by `parseStreet` -/

theorem updateIntersection_forall (P Q : Intersection → Prop) (f : Intersection → Intersection)
    (id : Int) (hPQ : ∀ x, P x → Q x) (hf : ∀ x, P x → Q (f x)) :
    ∀ (m : List (Int × Intersection)), (∀ entry ∈ m, P entry.2) →
      ∀ entry ∈ updateIntersection f id m, Q entry.2 := by
  intro m
  induction m with
  | nil =>
    intro _ entry hentry
    simp [updateIntersection] at hentry
  | cons first rest ih =>
    intro hP entry hentry
    obtain ⟨key, intersection⟩ := first
    rw [updateIntersection] at hentry
    have hfirst : P intersection := hP (key, intersection) (List.mem_cons_self _ _)
    have hrest : ∀ e ∈ rest, P e.2 := fun e he => hP e (List.mem_cons_of_mem _ he)
    by_cases hk : key = id
    · rw [if_pos hk] at hentry
      rcases List.mem_cons.1 hentry with heq | hmem
      · rw [heq]
        exact hf _ hfirst
      · exact hPQ _ (hrest entry hmem)
    · rw [if_neg hk] at hentry
      rcases List.mem_cons.1 hentry with heq | hmem
      · rw [heq]
        exact hPQ _ hfirst
      · exact ih hrest entry hmem

theorem getOrCreateIntersection_spec (simulation : Simulation) (id : Int) :
    (getOrCreateIntersection simulation id).context = simulation.context ∧
    (getOrCreateIntersection simulation id).streetMap = simulation.streetMap ∧
    (getOrCreateIntersection simulation id).streets = simulation.streets ∧
    (getOrCreateIntersection simulation id).cars = simulation.cars ∧
    ∀ entry ∈ (getOrCreateIntersection simulation id).intersectionMap,
      entry ∈ simulation.intersectionMap ∨ entry.2 = ⟨id, [], [], []⟩ := by
  unfold getOrCreateIntersection
  cases simulation.intersectionMap.lookup id with
  | some x =>
    refine ⟨rfl, rfl, rfl, rfl, ?_⟩
    intro entry hentry
    exact Or.inl hentry
  | none =>
    refine ⟨rfl, rfl, rfl, rfl, ?_⟩
    intro entry hentry
    simp only at hentry
    rcases List.mem_append.1 hentry with h | h
    · exact Or.inl h
    · right
      simp at h
      rw [h]

theorem parseStreet_spec (simulation result : Simulation) (line : GoString)
    (hfresh : Fresh simulation) (h : parseStreet simulation line = .ok result) :
    Fresh result ∧ result.context = simulation.context := by
  unfold parseStreet at h
  split at h
  · rename_i p0 p1 name p3 tail hsplit
    simp only at h
    cases h
    obtain ⟨hw, hcars, hzero⟩ := hfresh
    obtain ⟨hctx1, hsm1, hs1, hcars1, hmap1⟩ :=
      getOrCreateIntersection_spec simulation (atoi p0).1
    obtain ⟨hctx2, hsm2, hs2, hcars2, hmap2⟩ :=
      getOrCreateIntersection_spec (getOrCreateIntersection simulation (atoi p0).1) (atoi p1).1
    have hlen : (getOrCreateIntersection (getOrCreateIntersection simulation (atoi p0).1)
        (atoi p1).1).streets.length = simulation.streets.length := by
      rw [hs2, hs1]
    have hbase : ∀ entry ∈ (getOrCreateIntersection (getOrCreateIntersection simulation
        (atoi p0).1) (atoi p1).1).intersectionMap,
        entry.2.trafficLights = [] ∧ entry.2.incomingStreets.Nodup ∧
        ∀ street ∈ entry.2.incomingStreets, street < simulation.streets.length := by
      intro entry hentry
      rcases hmap2 entry hentry with h2 | h2
      · rcases hmap1 entry h2 with h1 | h1
        · exact hw.1 entry h1
        · rw [h1]
          simp
      · rw [h2]
        simp
    refine And.intro (And.intro (And.intro ?_ ?_) (And.intro ?_ ?_)) ?_
    · have hstreets : (getOrCreateIntersection (getOrCreateIntersection simulation (atoi p0).1)
          (atoi p1).1).streets = simulation.streets := by
        rw [hs2, hs1]
      simp only
      rw [hstreets]
      refine updateIntersection_forall
        (fun x => x.trafficLights = [] ∧ x.incomingStreets.Nodup ∧
          ∀ street ∈ x.incomingStreets, street < simulation.streets.length)
        (fun x => x.trafficLights = [] ∧ x.incomingStreets.Nodup ∧
          ∀ street ∈ x.incomingStreets, street < (simulation.streets ++
            [(⟨name, (atoi p3).1, (atoi p0).1, (atoi p1).1, 0, []⟩ : Street)]).length)
        _ _ ?_ ?_ _ ?_
      · intro x hx
        refine ⟨hx.1, hx.2.1, ?_⟩
        intro street hstreet
        have := hx.2.2 street hstreet
        simp
        omega
      · intro x hx
        refine ⟨hx.1, ?_, ?_⟩
        · simp only
          rw [List.nodup_append]
          refine ⟨hx.2.1, List.nodup_singleton _, ?_⟩
          intro a ha hb
          have := hx.2.2 a ha
          simp at hb
          omega
        · intro street hstreet
          simp only at hstreet
          simp
          rcases List.mem_append.1 hstreet with hm | hm
          · have := hx.2.2 street hm
            omega
          · simp at hm
            omega
      · refine updateIntersection_forall
          (fun x => x.trafficLights = [] ∧ x.incomingStreets.Nodup ∧
            ∀ street ∈ x.incomingStreets, street < simulation.streets.length)
          (fun x => x.trafficLights = [] ∧ x.incomingStreets.Nodup ∧
            ∀ street ∈ x.incomingStreets, street < simulation.streets.length)
          _ _ (fun x hx => hx) ?_ _ hbase
        intro x hx
        exact hx
    · intro entry hentry
      simp only at hentry ⊢
      rw [hlen] at hentry
      simp
      rcases List.mem_cons.1 hentry with heq | hmem
      · rw [heq]
        simp only
        omega
      · rw [hsm2, hsm1] at hmem
        have := hw.2 entry hmem
        rw [hs2, hs1]
        omega
    · simp only
      rw [hcars2, hcars1, hcars]
    · intro s hs
      simp only at hs
      rcases List.mem_append.1 hs with hm | hm
      · rw [hs2, hs1] at hm
        exact hzero s hm
      · simp at hm
        rw [hm]
        exact ⟨rfl, rfl⟩
    · simp only
      rw [hctx2, hctx1]
  · cases h


/-! ## The parsed simulation -/

theorem streetLoop_spec : ∀ (n : Nat) (i : Int) (lines : List GoString)
    (simulation result : Simulation), Fresh simulation →
    streetLoop n i lines simulation = .ok result →
    Fresh result ∧ result.context = simulation.context := by
  intro n
  induction n with
  | zero =>
    intro i lines simulation result hfresh h
    rw [streetLoop] at h
    cases h
    exact ⟨hfresh, rfl⟩
  | succ n ih =>
    intro i lines simulation result hfresh h
    rw [streetLoop] at h
    cases hline : lineAt lines (1 + i) with
    | error e =>
      rw [hline] at h
      cases h
    | ok line =>
      rw [hline] at h
      simp only at h
      cases hstreet : parseStreet simulation line with
      | error e =>
        rw [hstreet] at h
        cases h
      | ok simulation1 =>
        rw [hstreet] at h
        simp only at h
        obtain ⟨hfresh1, hctx1⟩ := parseStreet_spec simulation simulation1 line hfresh hstreet
        obtain ⟨hfresh2, hctx2⟩ := ih (i + 1) lines simulation1 result hfresh1 h
        exact ⟨hfresh2, hctx2.trans hctx1⟩

theorem carsLoop_spec : ∀ (n : Nat) (i : Int) (lines : List GoString)
    (simulation result : Simulation), WellFormed simulation → Counted simulation →
    carsLoop n i lines simulation = .ok result →
    WellFormed result ∧ Counted result ∧ result.context = simulation.context := by
  intro n
  induction n with
  | zero =>
    intro i lines simulation result hw hc h
    rw [carsLoop] at h
    cases h
    exact ⟨hw, hc, rfl⟩
  | succ n ih =>
    intro i lines simulation result hw hc h
    rw [carsLoop] at h
    cases hline : lineAt lines (1 + simulation.context.streetCount + i) with
    | error e =>
      rw [hline] at h
      cases h
    | ok line =>
      rw [hline] at h
      simp only at h
      cases hcar : parseCar simulation line with
      | error e =>
        rw [hcar] at h
        cases h
      | ok simulation1 =>
        rw [hcar] at h
        simp only at h
        obtain ⟨hw1, hc1, hctx1⟩ := parseCar_spec simulation simulation1 line hw hc hcar
        obtain ⟨hw2, hc2, hctx2⟩ := ih (i + 1) lines simulation1 result hw1 hc1 h
        exact ⟨hw2, hc2, hctx2.trans hctx1⟩

theorem fresh_counted (simulation : Simulation) (hfresh : Fresh simulation) :
    Counted simulation := by
  intro street s hs
  obtain ⟨_, hcars, hzero⟩ := hfresh
  obtain ⟨h1, h2⟩ := hzero s (List.getElem?_mem hs)
  rw [hcars, h1, h2]
  simp [onPaths, initialQueue]

/-- Every simulation `parseInputFile` returns is well formed and has true counters. -/
theorem parseInputFile_spec (lines : List GoString) (simulation : Simulation)
    (h : parseInputFile lines = .ok simulation) :
    WellFormed simulation ∧ Counted simulation := by
  unfold parseInputFile at h
  cases hline : lineAt lines 0 with
  | error e =>
    rw [hline] at h
    cases h
  | ok header =>
    rw [hline] at h
    simp only at h
    cases hheader : parseInputHeader header with
    | error e =>
      rw [hheader] at h
      cases h
    | ok context =>
      rw [hheader] at h
      simp only at h
      cases hstreets : streetLoop context.streetCount.toNat 0 lines ⟨context, [], [], [], [], []⟩ with
      | error e =>
        rw [hstreets] at h
        cases h
      | ok simulation1 =>
        rw [hstreets] at h
        simp only at h
        have hinit : Fresh ⟨context, [], [], [], [], []⟩ := by
          refine ⟨⟨?_, ?_⟩, rfl, ?_⟩
          · intro entry hentry
            simp at hentry
          · intro entry hentry
            simp at hentry
          · intro s hs
            simp at hs
        obtain ⟨hfresh1, _⟩ := streetLoop_spec _ _ _ _ simulation1 hinit hstreets
        obtain ⟨hw, hc, _⟩ := carsLoop_spec _ _ _ simulation1 simulation hfresh1.1
          (fresh_counted simulation1 hfresh1) h
        exact ⟨hw, hc⟩

theorem queueLength_eq (simulation : Simulation) (hc : Counted simulation) (street : Nat)
    (h : street < simulation.streets.length) :
    queueLength simulation.streets street = initialQueue simulation.cars street ∧
    carCountAt simulation.streets street = (onPaths simulation.cars street : Int) := by
  have hs : simulation.streets[street]? = some simulation.streets[street] :=
    List.getElem?_eq_getElem h
  obtain ⟨h1, h2⟩ := hc street _ hs
  unfold queueLength carCountAt
  rw [hs]
  exact ⟨h2, h1⟩

theorem mem_lightsOf (duration : Int) (streets : List Street) (l : List Nat)
    (light : TrafficLight) (h : light ∈ lightsOf duration streets l) :
    light.street ∈ l ∧ carCountAt streets light.street ≠ 0 ∧
    light.duration = lightDuration duration (queueLength streets light.street) := by
  unfold lightsOf at h
  obtain ⟨street, hmem, heq⟩ := List.mem_map.1 h
  rw [List.mem_filter] at hmem
  rw [← heq]
  exact ⟨hmem.1, by simpa using hmem.2, rfl⟩

theorem lightsOf_streets (duration : Int) (streets : List Street) (l : List Nat) :
    (lightsOf duration streets l).map (fun light => light.street)
      = l.filter (fun street => decide (carCountAt streets street ≠ 0)) := by
  unfold lightsOf
  rw [List.map_map]
  exact List.map_id _

/-- C19: for every simulation `parseInputFile` returns whose duration `D` is at least 1 (with
fewer than `2 ^ 53` cars, where the conversion to `float64` is exact) `main` returns, the
counters of the streets are the numbers of the specification (`carCount` the occurrences on the
paths of the cars, the length of `carsAtEnd` the number of cars that start on the street), and
for every intersection of the map the schedule has exactly one light for each incoming street
that is on a path and none for any other street, the lights come in non-increasing order of the
initial queue length `q`, and every duration is `min(D, max(1, q))`, between 1 and `D`.  The
library sort is any function that meets the contract of `sort.Slice`. -/
theorem traffic_light_schedule (sortSlice : (Nat → Nat → Bool) → List Nat → List Nat)
    (lines : List GoString) (simulation : Simulation)
    (hsort : SortsDescending sortSlice)
    (hparse : parseInputFile lines = .ok simulation)
    (hD : 1 ≤ simulation.context.duration)
    (hcars : simulation.cars.length < 2 ^ 53) :
    Counted simulation ∧
    ∃ result, main sortSlice lines = .ok result ∧
      ∀ (id : Int) (intersection : Intersection),
        simulation.intersectionMap.lookup id = some intersection →
        ∃ intersection1, result.intersectionMap.lookup id = some intersection1 ∧
          (∀ street, (intersection1.trafficLights.map (fun light => light.street)).count street =
            if street ∈ intersection.incomingStreets ∧ 0 < onPaths simulation.cars street
            then 1 else 0) ∧
          intersection1.trafficLights.Pairwise (fun a b =>
            initialQueue simulation.cars b.street ≤ initialQueue simulation.cars a.street) ∧
          ∀ light ∈ intersection1.trafficLights,
            light.duration = min simulation.context.duration
              (max 1 (initialQueue simulation.cars light.street : Int)) ∧
            1 ≤ light.duration ∧ light.duration ≤ simulation.context.duration := by
  obtain ⟨hw, hc⟩ := parseInputFile_spec lines simulation hparse
  refine ⟨hc, ?_⟩
  have hloop := scheduleLoop_eq sortSlice hsort simulation simulation.intersectionMap
    (fun entry hentry => (hw.1 entry hentry).2.2)
  refine ⟨{ simulation with intersectionMap := (simulation.intersectionMap.map
    (fun entry => (entry.1, scheduled sortSlice simulation entry.2))) }, ?_, ?_⟩
  · unfold main
    rw [hparse]
    simp only
    rw [hloop]
  · intro id intersection hlook
    refine ⟨scheduled sortSlice simulation intersection, ?_, ?_⟩
    · simp only
      rw [lookup_map_value, hlook]
      rfl
    · obtain ⟨hempty, hnodup, hvalid⟩ := hw.1 _ (mem_of_lookup id intersection _ hlook)
      simp only at hempty hnodup hvalid
      obtain ⟨hperm, hsorted⟩ := hsort (queueLength simulation.streets) intersection.incomingStreets
      have hlights : (scheduled sortSlice simulation intersection).trafficLights
          = lightsOf simulation.context.duration simulation.streets
              (sortSlice (fun a b => decide (queueLength simulation.streets b
                < queueLength simulation.streets a)) intersection.incomingStreets) := by
        unfold scheduled
        simp only
        rw [hempty, List.nil_append]
      rw [hlights]
      have hvalid1 : ∀ street ∈ sortSlice (fun a b => decide (queueLength simulation.streets b
          < queueLength simulation.streets a)) intersection.incomingStreets,
          street < simulation.streets.length :=
        fun street hmem => hvalid street (hperm.mem_iff.1 hmem)
      refine ⟨?_, ?_, ?_⟩
      · intro street
        rw [lightsOf_streets]
        by_cases hmem : street ∈ intersection.incomingStreets
        · have hq := (queueLength_eq simulation hc street (hvalid street hmem)).2
          by_cases hpath : 0 < onPaths simulation.cars street
          · rw [if_pos ⟨hmem, hpath⟩, List.count_filter, hperm.count_eq,
              List.count_eq_one_of_mem hnodup hmem]
            rw [hq]
            simp
            omega
          · rw [if_neg (fun hboth => hpath hboth.2), List.count_eq_zero]
            intro hin
            rw [List.mem_filter] at hin
            have := hin.2
            rw [hq] at this
            simp at this
            omega
        · rw [if_neg (fun hboth => hmem hboth.1), List.count_eq_zero]
          intro hin
          exact hmem (hperm.mem_iff.1 (List.mem_filter.1 hin).1)
      · unfold lightsOf
        rw [List.pairwise_map]
        refine (hsorted.filter _).imp_of_mem ?_
        intro a b ha hb hab
        simp only
        rw [← (queueLength_eq simulation hc a (hvalid1 a (List.mem_filter.1 ha).1)).1,
          ← (queueLength_eq simulation hc b (hvalid1 b (List.mem_filter.1 hb).1)).1]
        exact hab
      · intro light hlight
        obtain ⟨hmem, _, hdur⟩ := mem_lightsOf _ _ _ light hlight
        have hq := (queueLength_eq simulation hc light.street (hvalid1 _ hmem)).1
        have hle : initialQueue simulation.cars light.street ≤ simulation.cars.length :=
          List.countP_le_length _
        rw [hq] at hdur
        rw [hdur, lightDuration_eq _ _ hD (by omega)]
        refine ⟨rfl, le_min hD (le_max_left _ _), min_le_left _ _⟩

/-- The schedule theorem at the example input, with the merge sort as the library sort. -/
theorem traffic_light_schedule_witness :
    SortsDescending mergeSlice ∧
    ∃ simulation, parseInputFile exampleLines = .ok simulation ∧
      1 ≤ simulation.context.duration ∧ simulation.cars.length < 2 ^ 53 ∧
      Counted simulation ∧
      ∃ result, main mergeSlice exampleLines = .ok result ∧
        ∀ (id : Int) (intersection : Intersection),
          simulation.intersectionMap.lookup id = some intersection →
          ∃ intersection1, result.intersectionMap.lookup id = some intersection1 ∧
            (∀ street, (intersection1.trafficLights.map (fun light => light.street)).count street =
              if street ∈ intersection.incomingStreets ∧ 0 < onPaths simulation.cars street
              then 1 else 0) ∧
            intersection1.trafficLights.Pairwise (fun a b =>
              initialQueue simulation.cars b.street ≤ initialQueue simulation.cars a.street) ∧
            ∀ light ∈ intersection1.trafficLights,
              light.duration = min simulation.context.duration
                (max 1 (initialQueue simulation.cars light.street : Int)) ∧
              1 ≤ light.duration ∧ light.duration ≤ simulation.context.duration :=
  ⟨mergeSlice_sorts, _, rfl, by decide, by decide,
    traffic_light_schedule mergeSlice exampleLines _ mergeSlice_sorts rfl (by decide) (by decide)⟩

end Qualification
